import Mathlib

/-!
# Rafted: commit conditions and the inflight tracker

A shallow embedding of `inflight.go` and of the handlers of
`state_follower_member_change.go`.  Go maps keyed by peer address are
association lists with distinct keys; pointers to entries and to commit
conditions are replaced by values, each entry owning its condition; the mutex of
the tracker is not modelled, every operation being one atomic state change.
The counters `uint32`/`uint64` of the source are natural numbers: log indices
are only compared by the tracker; the handlers take the successor of the last
log index modulo `2^64`; the vote counter is incremented as a natural number,
which is the `uint32` increment as long as it stays below `2^32`, as it does
for every condition built by the constructors of a cluster of fewer than
`2^32` members.
-/

namespace Rafted

/-- Peer address (`ps.MultiAddr`): an opaque identifier compared by equality. -/
abbrev MultiAddr := Nat

/-- Lookup `m[k]` with the `ok` flag of Go: `none` when the key is absent. -/
def mapGet {β : Type} : List (MultiAddr × β) → MultiAddr → Option β
  | [], _ => none
  | (k', v) :: rest, k => if k' = k then some v else mapGet rest k

/-- Assignment `m[k] = v`: overwrite the binding of `k`, or add one. -/
def mapSet {β : Type} : List (MultiAddr × β) → MultiAddr → β → List (MultiAddr × β)
  | [], k, v => [(k, v)]
  | (k', v') :: rest, k, v =>
    if k' = k then (k, v) :: rest else (k', v') :: mapSet rest k v

/-- Keys of a map, as ranged over by `for k, _ := range m`. -/
def mapKeys {β : Type} (m : List (MultiAddr × β)) : List MultiAddr :=
  m.map Prod.fst

/-- Modelled from the spec: `PeerAddressSlice.all_multi_addr()` of the persist
package, whose sources are not part of this repository; the slice is held by a
pointer, and an absent slice has no address. -/
def AllMultiAddr (addrSlice : Option (List MultiAddr)) : List MultiAddr :=
  addrSlice.getD []

/-- Modelled from the spec: `PeerAddressSlice.len()` of the persist package. -/
def Len (addrSlice : Option (List MultiAddr)) : Nat :=
  (addrSlice.getD []).length

/-- Configuration `ps.Config`: two pointers to address slices, either may be nil. -/
structure Config where
  Servers : Option (List MultiAddr)
  NewServers : Option (List MultiAddr)
deriving DecidableEq, Repr

/-- Modelled from the spec: the shape predicate `IsNormalConfig` of the persist
package, "Normal: `new_servers` absent". -/
def Config.IsNormalConfig (conf : Config) : Bool :=
  conf.NewServers.isNone

/-- Log entry `ps.LogEntry`, with the fields the tracker reads. -/
structure LogEntry where
  Index : Nat
  Term : Nat
  Conf : Config
deriving DecidableEq, Repr

/-- Errors built by `errors.New` in the commit conditions. -/
inductive VoteError where
  | notInCluster (addr : MultiAddr)
  | alreadyVoted (addr : MultiAddr)
  | notInOldNewConfig (addr : MultiAddr)
deriving DecidableEq, Repr

structure MajorityCommitCondition where
  VoteStatus : List (MultiAddr × Bool)
  VoteCount : Nat
  MajoritySize : Nat
deriving DecidableEq, Repr

def NewMajorityCommitCondition (addrSlice : Option (List MultiAddr)) :
    MajorityCommitCondition :=
  { VoteStatus := (AllMultiAddr addrSlice).foldl (fun voteStatus addr => mapSet voteStatus addr false) []
    VoteCount := 0
    MajoritySize := (Len addrSlice / 2) + 1 }

/-- Method `AddVote` of the majority condition.  `self.VoteCount++` is a `uint32`
increment; the model adds one in the natural numbers, which is that increment
as long as the result stays below `2 ^ 32`. -/
def MajorityCommitCondition.AddVote (self : MajorityCommitCondition) (addr : MultiAddr) :
    MajorityCommitCondition × Option VoteError :=
  match mapGet self.VoteStatus addr with
  | none => (self, some (VoteError.notInCluster addr))
  | some voteStatus =>
    if voteStatus then (self, some (VoteError.alreadyVoted addr))
    else
      ({ self with
          VoteStatus := mapSet self.VoteStatus addr true
          VoteCount := self.VoteCount + 1 }, none)

def MajorityCommitCondition.IsInCluster (self : MajorityCommitCondition) (addr : MultiAddr) :
    Bool :=
  (mapGet self.VoteStatus addr).isSome

def MajorityCommitCondition.IsCommitted (self : MajorityCommitCondition) : Bool :=
  decide (self.VoteCount ≥ self.MajoritySize)

structure MemberChangeCommitCondition where
  OldServersCommitCondition : MajorityCommitCondition
  NewServersCommitCondition : MajorityCommitCondition
deriving DecidableEq, Repr

def NewMemberChangeCommitCondition (conf : Config) : MemberChangeCommitCondition :=
  { OldServersCommitCondition := NewMajorityCommitCondition conf.Servers
    NewServersCommitCondition := NewMajorityCommitCondition conf.NewServers }

/-- The two guarded blocks of `MemberChangeCommitCondition.AddVote`; a vote
recorded by the first block stays recorded when the second one returns early. -/
def MemberChangeCommitCondition.AddVote (self : MemberChangeCommitCondition)
    (addr : MultiAddr) : MemberChangeCommitCondition × Option VoteError :=
  let afterOld : MajorityCommitCondition × Option VoteError × Bool :=
    if self.OldServersCommitCondition.IsInCluster addr then
      let r := self.OldServersCommitCondition.AddVote addr
      (r.1, r.2, true)
    else (self.OldServersCommitCondition, none, false)
  match afterOld with
  | (oldCond, some err, _) => ({ self with OldServersCommitCondition := oldCond }, some err)
  | (oldCond, none, voted) =>
    if self.NewServersCommitCondition.IsInCluster addr then
      match self.NewServersCommitCondition.AddVote addr with
      | (newCond, some err) =>
        ({ OldServersCommitCondition := oldCond, NewServersCommitCondition := newCond }, some err)
      | (newCond, none) =>
        ({ OldServersCommitCondition := oldCond, NewServersCommitCondition := newCond }, none)
    else if voted then
      ({ self with OldServersCommitCondition := oldCond }, none)
    else
      ({ self with OldServersCommitCondition := oldCond },
        some (VoteError.notInOldNewConfig addr))

def MemberChangeCommitCondition.IsCommitted (self : MemberChangeCommitCondition) : Bool :=
  self.OldServersCommitCondition.IsCommitted && self.NewServersCommitCondition.IsCommitted

/-- The interface `CommitCondition` with its two implementations. -/
inductive CommitCondition where
  | majority (c : MajorityCommitCondition)
  | memberChange (c : MemberChangeCommitCondition)
deriving DecidableEq, Repr

def CommitCondition.AddVote (self : CommitCondition) (addr : MultiAddr) :
    CommitCondition × Option VoteError :=
  match self with
  | .majority c => (.majority (c.AddVote addr).1, (c.AddVote addr).2)
  | .memberChange c => (.memberChange (c.AddVote addr).1, (c.AddVote addr).2)

def CommitCondition.IsCommitted : CommitCondition → Bool
  | .majority c => c.IsCommitted
  | .memberChange c => c.IsCommitted

/-- Request `InflightRequest`; the result channel is an opaque handle. -/
structure InflightRequest where
  LogEntry : LogEntry
  ResultChan : Nat
deriving DecidableEq, Repr

structure InflightEntry where
  Request : InflightRequest
  Condition : CommitCondition
deriving DecidableEq, Repr

def NewInflightEntry (request : InflightRequest) : InflightEntry :=
  if request.LogEntry.Conf.IsNormalConfig then
    { Request := request
      Condition := .majority (NewMajorityCommitCondition request.LogEntry.Conf.Servers) }
  else
    { Request := request
      Condition := .memberChange (NewMemberChangeCommitCondition request.LogEntry.Conf) }

structure Inflight where
  MaxIndex : Nat
  ToCommitEntries : List InflightEntry
  CommittedEntries : List InflightEntry
  ServerMatchIndexes : List (MultiAddr × Nat)
deriving DecidableEq, Repr

/-- The closure `initIndex` of `setupServerMatchIndexes`. -/
def initIndex (serverMatchIndexes : List (MultiAddr × Nat))
    (addrSlice : Option (List MultiAddr)) : List (MultiAddr × Nat) :=
  (AllMultiAddr addrSlice).foldl (fun m addr => mapSet m addr 0) serverMatchIndexes

def setupServerMatchIndexes (conf : Config) (prev : List (MultiAddr × Nat)) :
    List (MultiAddr × Nat) :=
  let m0 : List (MultiAddr × Nat) := []
  let m1 := if conf.Servers.isSome then initIndex m0 conf.Servers else m0
  let m2 := if conf.NewServers.isSome then initIndex m1 conf.NewServers else m1
  (mapKeys m2).foldl
    (fun m addr =>
      match mapGet prev addr with
      | some matchIndex => mapSet m addr matchIndex
      | none => m)
    m2

def NewInflight (conf : Config) : Inflight :=
  { MaxIndex := 0
    ToCommitEntries := []
    CommittedEntries := []
    ServerMatchIndexes := setupServerMatchIndexes conf [] }

def Inflight.Init (self : Inflight) : Inflight :=
  { MaxIndex := 0
    ToCommitEntries := []
    CommittedEntries := []
    ServerMatchIndexes :=
      (mapKeys self.ServerMatchIndexes).foldl (fun m k => mapSet m k 0) self.ServerMatchIndexes }

def Inflight.ChangeMember (self : Inflight) (conf : Config) : Inflight :=
  { self with ServerMatchIndexes := setupServerMatchIndexes conf self.ServerMatchIndexes }

/-- Errors returned by the tracker. -/
inductive InflightError where
  | notIncremental
  | emptyBatch
  | unknownAddress (addr : MultiAddr)
  | invalidMatchIndex (newMatchIndex matchIndex : Nat)
deriving DecidableEq, Repr

def Inflight.Add (self : Inflight) (request : InflightRequest) :
    Inflight × Option InflightError :=
  let logIndex := request.LogEntry.Index
  if logIndex ≤ self.MaxIndex then (self, some .notIncremental)
  else
    ({ self with
        MaxIndex := logIndex
        ToCommitEntries := self.ToCommitEntries ++ [NewInflightEntry request] }, none)

/-- The checking loop of `AddAll`: the last index seen, or `none` at the first
entry whose index is not above the previous one. -/
def checkIncremental (index : Nat) : List InflightEntry → Option Nat
  | [] => some index
  | entry :: rest =>
    if ¬ (index < entry.Request.LogEntry.Index) then none
    else checkIncremental entry.Request.LogEntry.Index rest

def Inflight.AddAll (self : Inflight) (toCommits : List InflightEntry) :
    Inflight × Option InflightError :=
  if toCommits.length = 0 then (self, some .emptyBatch)
  else
    match checkIncremental self.MaxIndex toCommits with
    | none => (self, some .notIncremental)
    | some index =>
      ({ self with
          MaxIndex := index
          ToCommitEntries := self.ToCommitEntries ++ toCommits }, none)

/-- First loop of `Replicate`: vote on every entry up to the first one whose
index is above `newMatchIndex`; the error of `AddVote` is dropped. -/
def castVotes (addr : MultiAddr) (newMatchIndex : Nat) :
    List InflightEntry → List InflightEntry
  | [] => []
  | toCommit :: rest =>
    if toCommit.Request.LogEntry.Index > newMatchIndex then toCommit :: rest
    else
      { toCommit with Condition := (toCommit.Condition.AddVote addr).1 } ::
        castVotes addr newMatchIndex rest

/-- Second loop of `Replicate`: the value of `committedIndex` at its end. -/
def committedIndex (newMatchIndex : Nat) : List InflightEntry → Nat
  | [] => 0
  | toCommit :: rest =>
    if toCommit.Request.LogEntry.Index > newMatchIndex then 0
    else if ¬ toCommit.Condition.IsCommitted then 0
    else committedIndex newMatchIndex rest + 1

def Inflight.Replicate (self : Inflight) (addr : MultiAddr) (newMatchIndex : Nat) :
    Inflight × Bool × Option InflightError :=
  match mapGet self.ServerMatchIndexes addr with
  | none => (self, false, some (.unknownAddress addr))
  | some matchIndex =>
    if matchIndex ≥ newMatchIndex then
      (self, false, some (.invalidMatchIndex newMatchIndex matchIndex))
    else
      let toCommitEntries := castVotes addr newMatchIndex self.ToCommitEntries
      let serverMatchIndexes := mapSet self.ServerMatchIndexes addr newMatchIndex
      let n := committedIndex newMatchIndex toCommitEntries
      if n > 0 then
        ({ MaxIndex := self.MaxIndex
           ToCommitEntries := toCommitEntries.drop n
           CommittedEntries := self.CommittedEntries ++ toCommitEntries.take n
           ServerMatchIndexes := serverMatchIndexes }, true, none)
      else
        ({ self with
            ToCommitEntries := toCommitEntries
            ServerMatchIndexes := serverMatchIndexes }, false, none)

def Inflight.GetCommitted (self : Inflight) : Inflight × List InflightEntry :=
  ({ self with CommittedEntries := [] }, self.CommittedEntries)

/-- A majority condition as built from `addrSlice` before any vote: its members
are the addresses of the slice, none of them has voted, the count is 0 and the
threshold is `Len / 2 + 1`. -/
def MajorityCommitCondition.freshOver (c : MajorityCommitCondition)
    (addrSlice : Option (List MultiAddr)) : Prop :=
  c.VoteCount = 0 ∧
  c.MajoritySize = Len addrSlice / 2 + 1 ∧
  ∀ a, mapGet c.VoteStatus a = if a ∈ AllMultiAddr addrSlice then some false else none

/-- Whether `addr` is recorded as having voted in some part of the condition. -/
def CommitCondition.hasVoted (self : CommitCondition) (addr : MultiAddr) : Bool :=
  match self with
  | .majority c => mapGet c.VoteStatus addr == some true
  | .memberChange c =>
    mapGet c.OldServersCommitCondition.VoteStatus addr == some true ||
      mapGet c.NewServersCommitCondition.VoteStatus addr == some true

/-- Sum of the vote counters of the condition. -/
def CommitCondition.totalVotes : CommitCondition → Nat
  | .majority c => c.VoteCount
  | .memberChange c =>
    c.OldServersCommitCondition.VoteCount + c.NewServersCommitCondition.VoteCount

/-- Log index of an inflight entry. -/
def InflightEntry.Index (e : InflightEntry) : Nat :=
  e.Request.LogEntry.Index

/-- An entry that `Replicate` may move: index up to `newMatchIndex` and a
condition that reports committed. -/
def commitReady (newMatchIndex : Nat) (e : InflightEntry) : Bool :=
  decide (e.Index ≤ newMatchIndex) && e.Condition.IsCommitted

/-- The entry after the vote of `addr` was offered to its condition. -/
def InflightEntry.vote (addr : MultiAddr) (e : InflightEntry) : InflightEntry :=
  { e with Condition := (e.Condition.AddVote addr).1 }

/-- A sequence of `AddVote` calls on a majority condition, errors dropped. -/
def MajorityCommitCondition.addVotes (c : MajorityCommitCondition)
    (addrs : List MultiAddr) : MajorityCommitCondition :=
  addrs.foldl (fun c a => (c.AddVote a).1) c

/-- The peers of a sequence of `AddVote` calls whose call returned no error. -/
def MajorityCommitCondition.accepted (c : MajorityCommitCondition) :
    List MultiAddr → List MultiAddr
  | [] => []
  | a :: rest =>
    if (c.AddVote a).2 = none then a :: accepted (c.AddVote a).1 rest
    else accepted (c.AddVote a).1 rest

/-- A sequence of `AddVote` calls on a joint condition, errors dropped. -/
def MemberChangeCommitCondition.addVotes (c : MemberChangeCommitCondition)
    (addrs : List MultiAddr) : MemberChangeCommitCondition :=
  addrs.foldl (fun c a => (c.AddVote a).1) c

/-- Public operations that drive the tracker in the claims about runs. -/
inductive Op where
  | add (request : InflightRequest)
  | replicate (addr : MultiAddr) (newMatchIndex : Nat)
  | getCommitted
deriving DecidableEq, Repr

/-- One call of a public operation; the returned error or result is dropped. -/
def Inflight.step (s : Inflight) : Op → Inflight
  | .add request => (s.Add request).1
  | .replicate addr newMatchIndex => (s.Replicate addr newMatchIndex).1
  | .getCommitted => s.GetCommitted.1

/-- The tracker built by `NewInflight` after a sequence of calls. -/
def run (conf : Config) (ops : List Op) : Inflight :=
  ops.foldl Inflight.step (NewInflight conf)

/-- Whether peer `p` is recorded with a match index of at least `index`. -/
def reached (m : List (MultiAddr × Nat)) (index : Nat) (p : MultiAddr) : Bool :=
  match mapGet m p with
  | some v => decide (index ≤ v)
  | none => false

/-- Number of distinct peers of `servers` recorded with a match index of at
least `index`. -/
def replicatedCount (m : List (MultiAddr × Nat)) (index : Nat)
    (servers : List MultiAddr) : Nat :=
  (servers.dedup.filter (reached m index)).length

/-- A quorum has replicated the entry: a majority of `Servers`, and of
`NewServers` too when the configuration of the entry is joint. -/
def hasQuorum (m : List (MultiAddr × Nat)) (e : InflightEntry) : Bool :=
  decide (Len e.Request.LogEntry.Conf.Servers / 2 + 1
      ≤ replicatedCount m e.Index (AllMultiAddr e.Request.LogEntry.Conf.Servers)) &&
    (match e.Request.LogEntry.Conf.NewServers with
     | none => true
     | some n => decide (n.length / 2 + 1 ≤ replicatedCount m e.Index n))

/-- Invariant of a majority condition of an entry at `index` built over
`addrSlice`: its threshold, its members, and its recorded votes, which all come
from peers whose match index reached `index`. -/
def VoteInv (m : List (MultiAddr × Nat)) (index : Nat)
    (addrSlice : Option (List MultiAddr)) (c : MajorityCommitCondition) : Prop :=
  c.MajoritySize = Len addrSlice / 2 + 1 ∧
  (∀ p, mapGet c.VoteStatus p ≠ none → p ∈ AllMultiAddr addrSlice) ∧
  (∀ p, mapGet c.VoteStatus p = some true → reached m index p = true) ∧
  ∃ voters : List MultiAddr, voters.Nodup ∧ c.VoteCount = voters.length ∧
    ∀ p, p ∈ voters ↔ mapGet c.VoteStatus p = some true

/-- Invariant of an entry: the shape of its condition follows its
configuration and each majority condition satisfies `VoteInv`. -/
def EntryInv (m : List (MultiAddr × Nat)) (e : InflightEntry) : Prop :=
  match e.Condition with
  | .majority c =>
    e.Request.LogEntry.Conf.NewServers = none ∧
      VoteInv m e.Index e.Request.LogEntry.Conf.Servers c
  | .memberChange c =>
    e.Request.LogEntry.Conf.NewServers ≠ none ∧
      VoteInv m e.Index e.Request.LogEntry.Conf.Servers c.OldServersCommitCondition ∧
      VoteInv m e.Index e.Request.LogEntry.Conf.NewServers c.NewServersCommitCondition

/-- Invariant of the tracker in the runs of `run`. -/
def TrackerInv (s : Inflight) : Prop :=
  (∀ e ∈ s.ToCommitEntries, EntryInv s.ServerMatchIndexes e) ∧
  (∀ e ∈ s.CommittedEntries,
    EntryInv s.ServerMatchIndexes e ∧ e.Condition.IsCommitted = true)

/-- A Normal configuration over `servers`. -/
def normalConf (servers : List MultiAddr) : Config :=
  { Servers := some servers, NewServers := none }

/-- The entry of a request under a given majority condition. -/
def majorityEntry (c : MajorityCommitCondition) (request : InflightRequest) :
    InflightEntry :=
  { Request := request, Condition := .majority c }

/-- The calls of the round trip: `Add` for each request, then `Replicate`
through `k` for each peer. -/
def roundTripOps (reqs : List InflightRequest) (peers : List MultiAddr) (k : Nat) :
    List Op :=
  reqs.map Op.add ++ peers.map (fun p => Op.replicate p k)

/-! ## All public operations of the tracker -/

/-- Every public operation of `Inflight`. -/
inductive PublicOp where
  | init
  | changeMember (conf : Config)
  | add (request : InflightRequest)
  | addAll (toCommits : List InflightEntry)
  | replicate (addr : MultiAddr) (newMatchIndex : Nat)
  | getCommitted
deriving DecidableEq, Repr

/-- One call of a public operation; the returned error or result is dropped. -/
def Inflight.perform (s : Inflight) : PublicOp → Inflight
  | .init => s.Init
  | .changeMember conf => s.ChangeMember conf
  | .add request => (s.Add request).1
  | .addAll toCommits => (s.AddAll toCommits).1
  | .replicate addr newMatchIndex => (s.Replicate addr newMatchIndex).1
  | .getCommitted => s.GetCommitted.1

/-- The tracker built by `NewInflight` after a sequence of public operations. -/
def runPublic (conf : Config) (ops : List PublicOp) : Inflight :=
  ops.foldl Inflight.perform (NewInflight conf)

def PublicOp.isInit : PublicOp → Bool
  | .init => true
  | _ => false

def PublicOp.isGetCommitted : PublicOp → Bool
  | .getCommitted => true
  | _ => false

/-- Indices of the entries that the call `op` in state `s` accepts: the index
of the request of a successful `Add`, the indices of the batch of a successful
`AddAll`. -/
def acceptedBy (s : Inflight) : PublicOp → List Nat
  | .add request => if (s.Add request).2 = none then [request.LogEntry.Index] else []
  | .addAll toCommits =>
    if (s.AddAll toCommits).2 = none then toCommits.map InflightEntry.Index else []
  | _ => []

/-- Indices of all entries accepted along a sequence of calls from state `s`. -/
def acceptedIndexes (s : Inflight) : List PublicOp → List Nat
  | [] => []
  | op :: rest => acceptedBy s op ++ acceptedIndexes (s.perform op) rest

/-- Indices of the entries accepted along a sequence of calls from state `s`
since the last `Init`, given those accepted before the sequence. -/
def acceptedSinceInit (acc : List Nat) (s : Inflight) : List PublicOp → List Nat
  | [] => acc
  | op :: rest =>
    acceptedSinceInit (if op.isInit then [] else acc ++ acceptedBy s op) (s.perform op) rest

/-- Largest number of a list, 0 for the empty list. -/
def largest (l : List Nat) : Nat :=
  l.foldl max 0

/-- Indices of the committed entries followed by those of the entries to commit. -/
def queueIndexes (s : Inflight) : List Nat :=
  (s.CommittedEntries ++ s.ToCommitEntries).map InflightEntry.Index

/-- Membership of a peer in a commit condition: a key of `VoteStatus`, of
either part for the joint condition. -/
def CommitCondition.isMember : CommitCondition → MultiAddr → Bool
  | .majority c, a => c.IsInCluster a
  | .memberChange c, a =>
    c.OldServersCommitCondition.IsInCluster a || c.NewServersCommitCondition.IsInCluster a

/-- The two errors of `AddVote` that report a peer outside the condition. -/
def VoteError.isUnknownPeer : VoteError → Bool
  | .notInCluster _ => true
  | .notInOldNewConfig _ => true
  | .alreadyVoted _ => false

/-- Addresses of a configuration: those of `Servers` and of `NewServers`. -/
def Config.addresses (conf : Config) : List MultiAddr :=
  AllMultiAddr conf.Servers ++ AllMultiAddr conf.NewServers

/-- Whether the call `op` in state `s` keeps every key of the match indexes a
member of the condition of every entry to commit: `ChangeMember` asks the
addresses of its configuration to be members of every entry to commit, `Add`
and `AddAll` ask the current keys to be members of the entries they bring;
`Init`, `Replicate` and `GetCommitted` always do. -/
def PublicOp.keepsMembers (s : Inflight) : PublicOp → Bool
  | .changeMember conf =>
    s.ToCommitEntries.all (fun e => conf.addresses.all (fun a => e.Condition.isMember a))
  | .add request =>
    (mapKeys s.ServerMatchIndexes).all
      (fun a => (NewInflightEntry request).Condition.isMember a)
  | .addAll toCommits =>
    toCommits.all
      (fun e => (mapKeys s.ServerMatchIndexes).all (fun a => e.Condition.isMember a))
  | _ => true

/-- Whether every call of the sequence, started in state `s`, keeps the
members in the sense of `PublicOp.keepsMembers`. -/
def membersKept (s : Inflight) : List PublicOp → Bool
  | [] => true
  | op :: rest => op.keepsMembers s && membersKept (s.perform op) rest

/-! ## Follower side of a membership change (`state_follower_member_change.go`) -/

/-- Membership-change status held by the local node; the names are those of the
source. -/
inductive MemberChangeStatusType where
  | NotInMemeberChange
  | OldNewConfigSeen
  | OldNewConfigCommitted
  | NewConfigSeen
deriving DecidableEq, Repr

/-- Identifiers of the states that the handlers name. -/
inductive StateID where
  | StateFollowerID
  | StateFollowerMemberChangeID
  | StateFollowerOldNewConfigSeenID
  | StateFollowerOldNewConfigCommittedID
  | StateFollowerNewConfigSeenID
deriving DecidableEq, Repr

/-- Events seen by the handlers: the two membership events with their message,
and any other event by its type number. -/
inductive Event where
  | MemberChangeLogEntryCommit (message : LogEntry)
  | MemberChangeNextStep (conf : Config)
  | other (eventType : Nat)
deriving DecidableEq, Repr

/-- Result of `Handle`: `nil` (the event is consumed) or `self.Super()` (the
event goes to the parent state). -/
inductive Handled where
  | consumed
  | super
deriving DecidableEq, Repr

/-- Modelled from the spec: the local state machine `LocalHSM`, whose
declaration is not part of this repository's sources: the state reached by the
last `QTran`, the membership-change status, the result `(value, failed)` of
`Log().LastIndex()`, and the calls `PushConfig(index, config)` received by the
configuration manager, in order. -/
structure LocalHSM where
  current : StateID
  memberChangeStatus : MemberChangeStatusType
  lastIndex : Nat × Bool
  pushed : List (Nat × Config)
deriving DecidableEq, Repr

def LocalHSM.GetMemberChangeStatus (sm : LocalHSM) : MemberChangeStatusType :=
  sm.memberChangeStatus

def LocalHSM.SetMemberChangeStatus (sm : LocalHSM) (status : MemberChangeStatusType) :
    LocalHSM :=
  { sm with memberChangeStatus := status }

def LocalHSM.QTran (sm : LocalHSM) (target : StateID) : LocalHSM :=
  { sm with current := target }

/-- The call `ConfigManager().PushConfig(index, conf)`; its error is dropped by
every caller in the source. -/
def LocalHSM.PushConfig (sm : LocalHSM) (index : Nat) (conf : Config) : LocalHSM :=
  { sm with pushed := sm.pushed ++ [(index, conf)] }

/-- Handler `FollowerMemberChangeState.Handle`: every event goes to the parent. -/
def FollowerMemberChangeState.Handle (sm : LocalHSM) (_event : Event) : LocalHSM × Handled :=
  (sm, .super)

/-- Handler `FollowerOldNewConfigSeenState.Handle`; `IsOldNewConfig` of the
persist package is a parameter.  The body of the guard is empty in the source
(`// TODO error handling`), so both branches continue alike. -/
def FollowerOldNewConfigSeenState.Handle (IsOldNewConfig : Config → Bool)
    (sm : LocalHSM) (event : Event) : LocalHSM × Handled :=
  match event with
  | .MemberChangeLogEntryCommit message =>
    let sm1 :=
      if !(IsOldNewConfig message.Conf &&
          sm.GetMemberChangeStatus == MemberChangeStatusType.OldNewConfigSeen) then sm
      else sm
    let sm2 := sm1.SetMemberChangeStatus .OldNewConfigCommitted
    (sm2.QTran .StateFollowerOldNewConfigCommittedID, .consumed)
  | _ => (sm, .super)

/-- Handler `FollowerOldNewConfigCommittedState.Handle`; `IsNewConfig` of the
persist package is a parameter.  The three error branches are empty in the
source; `lastLogIndex+1` is a `uint64` sum and wraps at `2 ^ 64`. -/
def FollowerOldNewConfigCommittedState.Handle (IsNewConfig : Config → Bool)
    (sm : LocalHSM) (event : Event) : LocalHSM × Handled :=
  match event with
  | .MemberChangeNextStep conf =>
    let sm1 :=
      if !(IsNewConfig conf &&
          sm.GetMemberChangeStatus == MemberChangeStatusType.OldNewConfigCommitted) then sm
      else sm
    let lastLogIndex := sm1.lastIndex.1
    let sm2 := if sm1.lastIndex.2 then sm1 else sm1
    let sm3 := sm2.PushConfig ((lastLogIndex + 1) % 2 ^ 64) conf
    let sm4 := sm3.SetMemberChangeStatus .NewConfigSeen
    (sm4.QTran .StateFollowerNewConfigSeenID, .consumed)
  | _ => (sm, .super)

/-- Handler `FollowerNewConfigSeenState.Handle`; `IsNewConfig` of the persist
package is a parameter.  The three error branches are empty in the source;
`lastLogIndex+1` is a `uint64` sum and wraps at `2 ^ 64`. -/
def FollowerNewConfigSeenState.Handle (IsNewConfig : Config → Bool)
    (sm : LocalHSM) (event : Event) : LocalHSM × Handled :=
  match event with
  | .MemberChangeLogEntryCommit message =>
    let sm1 :=
      if !(IsNewConfig message.Conf &&
          sm.GetMemberChangeStatus == MemberChangeStatusType.OldNewConfigCommitted) then sm
      else sm
    let newConf : Config := { Servers := message.Conf.NewServers, NewServers := none }
    let lastLogIndex := sm1.lastIndex.1
    let sm2 := if sm1.lastIndex.2 then sm1 else sm1
    let sm3 := sm2.PushConfig ((lastLogIndex + 1) % 2 ^ 64) newConf
    let sm4 := sm3.SetMemberChangeStatus .NotInMemeberChange
    (sm4.QTran .StateFollowerID, .consumed)
  | _ => (sm, .super)

/-- The handler of the current state receives the event; the states outside
this file leave it to their parent. -/
def LocalHSM.dispatch (IsOldNewConfig IsNewConfig : Config → Bool)
    (sm : LocalHSM) (event : Event) : LocalHSM × Handled :=
  match sm.current with
  | .StateFollowerOldNewConfigSeenID =>
    FollowerOldNewConfigSeenState.Handle IsOldNewConfig sm event
  | .StateFollowerOldNewConfigCommittedID =>
    FollowerOldNewConfigCommittedState.Handle IsNewConfig sm event
  | .StateFollowerNewConfigSeenID =>
    FollowerNewConfigSeenState.Handle IsNewConfig sm event
  | .StateFollowerMemberChangeID => FollowerMemberChangeState.Handle sm event
  | .StateFollowerID => (sm, .super)

/-- Invariant of the queues: the indices of the committed entries followed by
those of the entries to commit increase strictly and stay up to `MaxIndex`. -/
def QueueInv (s : Inflight) : Prop :=
  (queueIndexes s).Pairwise (· < ·) ∧ ∀ i ∈ queueIndexes s, i ≤ s.MaxIndex

/-- Every key of the match indexes is a member of the condition of every entry
to commit. -/
def KeyInv (s : Inflight) : Prop :=
  ∀ e ∈ s.ToCommitEntries, ∀ a, mapGet s.ServerMatchIndexes a ≠ none →
    e.Condition.isMember a = true

/-! ## The vote scan over the new range only -/

/-- Second formulation of the vote scan, in the words of the specification:
the vote is cast only on the entries to commit whose index lies in the range
`(oldMatch, newMatch]`. -/
def castVotesRangeSpec (addr : MultiAddr) (oldMatch newMatch : Nat)
    (l : List InflightEntry) : List InflightEntry :=
  l.map (fun e => if oldMatch < e.Index ∧ e.Index ≤ newMatch then e.vote addr else e)

/-- `Replicate` with the vote scan of the second formulation, every other step
being the one of `Inflight.Replicate`. -/
def Inflight.ReplicateRangeSpec (self : Inflight) (addr : MultiAddr) (newMatchIndex : Nat) :
    Inflight × Bool × Option InflightError :=
  match mapGet self.ServerMatchIndexes addr with
  | none => (self, false, some (.unknownAddress addr))
  | some matchIndex =>
    if matchIndex ≥ newMatchIndex then
      (self, false, some (.invalidMatchIndex newMatchIndex matchIndex))
    else
      let toCommitEntries :=
        castVotesRangeSpec addr matchIndex newMatchIndex self.ToCommitEntries
      let serverMatchIndexes := mapSet self.ServerMatchIndexes addr newMatchIndex
      let n := committedIndex newMatchIndex toCommitEntries
      if n > 0 then
        ({ MaxIndex := self.MaxIndex
           ToCommitEntries := toCommitEntries.drop n
           CommittedEntries := self.CommittedEntries ++ toCommitEntries.take n
           ServerMatchIndexes := serverMatchIndexes }, true, none)
      else
        ({ self with
            ToCommitEntries := toCommitEntries
            ServerMatchIndexes := serverMatchIndexes }, false, none)

/-- Whether every `Replicate` call of the sequence, started in state `s`,
carries a match index up to `MaxIndex` at the time of the call. -/
def replicatesWithinLog (s : Inflight) : List PublicOp → Bool
  | [] => true
  | op :: rest =>
    (match op with
      | .replicate _ newMatchIndex => decide (newMatchIndex ≤ s.MaxIndex)
      | _ => true) && replicatesWithinLog (s.perform op) rest

/-- A further `AddVote` of `addr` leaves the condition as it is: the peer has
voted, or is no member, in the part that is asked. -/
def CommitCondition.settledFor (self : CommitCondition) (addr : MultiAddr) : Prop :=
  match self with
  | .majority c => mapGet c.VoteStatus addr ≠ some false
  | .memberChange c =>
    mapGet c.OldServersCommitCondition.VoteStatus addr = some true ∨
      (mapGet c.OldServersCommitCondition.VoteStatus addr = none ∧
        mapGet c.NewServersCommitCondition.VoteStatus addr ≠ some false)

/-- Invariant of the runs in which no `Replicate` call runs ahead of
`MaxIndex`: match indexes stay up to `MaxIndex`, indices to commit are
positive, and a peer has nothing left to vote on up to its match index. -/
def SettledInv (s : Inflight) : Prop :=
  (∀ p m, mapGet s.ServerMatchIndexes p = some m → m ≤ s.MaxIndex) ∧
  (∀ e ∈ s.ToCommitEntries, 0 < e.Index) ∧
  (∀ p m, mapGet s.ServerMatchIndexes p = some m →
    ∀ e ∈ s.ToCommitEntries, e.Index ≤ m → e.Condition.settledFor p)

/-! ## Concrete scenarios used below -/

def normalABC : Config := { Servers := some [1, 2, 3], NewServers := none }

def mkRequest (index : Nat) (conf : Config) : InflightRequest :=
  { LogEntry := { Index := index, Term := 1, Conf := conf }, ResultChan := index }

/-- The joint configuration old `{1, 2, 3}`, new `{3, 4, 5}`. -/
def jointABCCDE : Config := { Servers := some [1, 2, 3], NewServers := some [3, 4, 5] }

/-- Scenario 2 of the specification: entries 1, 2, 3, then peer 1 replicates
through 3 and peer 2 through 2. -/
def outOfOrderOps : List Op :=
  [.add (mkRequest 1 normalABC), .add (mkRequest 2 normalABC), .add (mkRequest 3 normalABC),
    .replicate 1 3, .replicate 2 2]

/-- Scenario 1 of the specification followed by `GetCommitted`: entry 1 is
added, replicated by peers 1 and 2, and drained. -/
def drainedOps : List PublicOp :=
  [.add (mkRequest 1 normalABC), .replicate 1 1, .replicate 2 1, .getCommitted]

/-- Scenario 6 of the specification: an entry is added under `{1, 2, 3}` and
the members are then changed to `{1, 2, 3, 4, 5}`. -/
def widenedOps : List PublicOp :=
  [.add (mkRequest 1 normalABC),
    .changeMember { Servers := some [1, 2, 3, 4, 5], NewServers := none }]

/-- The local machine in state `OldNewConfigSeen` with status `OldNewConfigSeen`,
a log whose last index is `l`, read without error, and the configurations
`pushed` so far. -/
def seenMachine (l : Nat) (pushed : List (Nat × Config)) : LocalHSM :=
  { current := .StateFollowerOldNewConfigSeenID
    memberChangeStatus := .OldNewConfigSeen
    lastIndex := (l, false)
    pushed := pushed }

/-- A local machine in state `st` whose status is `NotInMemeberChange`, the
status that no guard of the three handlers accepts; last log index 7. -/
def strayMachine (st : StateID) : LocalHSM :=
  { current := st
    memberChangeStatus := .NotInMemeberChange
    lastIndex := (7, false)
    pushed := [] }

/-- A log entry at index 8 that carries the Normal configuration `{1, 2, 3}`. -/
def normalEntry : LogEntry := { Index := 8, Term := 1, Conf := normalABC }

/-- Peer 1 reports index 5 before any entry exists, entry 1 is then added and
replicated by peer 2. -/
def aheadOps : List PublicOp :=
  [.replicate 1 5, .add (mkRequest 1 normalABC), .replicate 2 1]

/-- An entry is added under `{1, 2, 3}`, peer 3 is then dropped by
`ChangeMember` to `{1, 2}`, and a batch holding entry 2 under `{1, 2, 3}` is
added. -/
def narrowedOps : List PublicOp :=
  [.add (mkRequest 1 normalABC),
    .changeMember { Servers := some [1, 2], NewServers := none },
    .addAll [NewInflightEntry (mkRequest 2 normalABC)]]

/-- Entries 1, 2, 3 added to a fresh tracker over `{1, 2, 3}`. -/
def threeAdded : Inflight :=
  (((NewInflight normalABC).Add (mkRequest 1 normalABC)).1.Add (mkRequest 2 normalABC)).1.Add
    (mkRequest 3 normalABC) |>.1

/-! ## Maps -/

theorem mapGet_mapSet {β : Type} (m : List (MultiAddr × β)) (k a : MultiAddr) (v : β) :
    mapGet (mapSet m k v) a = if a = k then some v else mapGet m a := by
  induction m with
  | nil =>
    by_cases h : a = k
    · simp [mapSet, mapGet, h]
    · have h' : ¬ k = a := fun e => h e.symm
      simp [mapSet, mapGet, h, h']
  | cons p rest ih =>
    obtain ⟨k', v'⟩ := p
    by_cases hk : k' = k
    · by_cases h : a = k
      · simp [mapSet, mapGet, hk, h]
      · have h' : ¬ k = a := fun e => h e.symm
        simp [mapSet, mapGet, hk, h, h']
    · by_cases h : a = k
      · subst h
        simp [mapSet, mapGet, hk, ih]
      · by_cases h2 : k' = a
        · simp [mapSet, mapGet, hk, h, h2]
        · simp [mapSet, mapGet, hk, h, h2, ih]

theorem mapGet_mapSet_self {β : Type} (m : List (MultiAddr × β)) (k : MultiAddr) (v : β) :
    mapGet (mapSet m k v) k = some v := by
  simp [mapGet_mapSet]

theorem mapGet_mapSet_other {β : Type} (m : List (MultiAddr × β)) (k a : MultiAddr) (v : β)
    (h : a ≠ k) : mapGet (mapSet m k v) a = mapGet m a := by
  simp [mapGet_mapSet, h]

theorem mapGet_foldl_mapSet {β : Type} (v : β) (l : List MultiAddr)
    (acc : List (MultiAddr × β)) (a : MultiAddr) :
    mapGet (l.foldl (fun m addr => mapSet m addr v) acc) a
      = if a ∈ l then some v else mapGet acc a := by
  induction l generalizing acc with
  | nil => simp
  | cons x xs ih =>
    rw [List.foldl_cons, ih]
    by_cases h1 : a ∈ xs
    · simp [h1]
    · by_cases h2 : a = x
      · simp [h1, h2, mapGet_mapSet]
      · simp [h1, h2, mapGet_mapSet]

theorem mapGet_newVoteStatus (addrSlice : Option (List MultiAddr)) (a : MultiAddr) :
    mapGet (NewMajorityCommitCondition addrSlice).VoteStatus a
      = if a ∈ AllMultiAddr addrSlice then some false else none := by
  simp [NewMajorityCommitCondition, mapGet_foldl_mapSet, mapGet]

/-! ## AddVote of the majority condition -/

/-- C5: `MajorityCommitCondition.AddVote` returns an error exactly for a peer that
is not a member or has already voted, and then changes nothing; otherwise it
returns no error, marks that peer as voted, adds one to the vote count and
leaves the status of every other peer, and the threshold, as they were.  The
vote count is below the largest `uint32`, so that adding one is the `uint32`
increment of the source, which wraps at `2 ^ 32`. -/
theorem majority_addVote_contract (c : MajorityCommitCondition) (addr : MultiAddr)
    (hcount : c.VoteCount + 1 < 2 ^ 32) :
    (((c.AddVote addr).2 ≠ none) ↔
        (mapGet c.VoteStatus addr = none ∨ mapGet c.VoteStatus addr = some true)) ∧
    (mapGet c.VoteStatus addr = none →
        c.AddVote addr = (c, some (VoteError.notInCluster addr))) ∧
    (mapGet c.VoteStatus addr = some true →
        c.AddVote addr = (c, some (VoteError.alreadyVoted addr))) ∧
    (mapGet c.VoteStatus addr = some false →
        (c.AddVote addr).2 = none ∧
        mapGet (c.AddVote addr).1.VoteStatus addr = some true ∧
        (c.AddVote addr).1.VoteCount = c.VoteCount + 1 ∧
        (c.AddVote addr).1.VoteCount = (c.VoteCount + 1) % 2 ^ 32 ∧
        (c.AddVote addr).1.MajoritySize = c.MajoritySize ∧
        ∀ a, a ≠ addr →
          mapGet (c.AddVote addr).1.VoteStatus a = mapGet c.VoteStatus a) := by
  refine ⟨?_, ?_, ?_, ?_⟩
  · unfold MajorityCommitCondition.AddVote
    cases h : mapGet c.VoteStatus addr with
    | none => simp
    | some b => cases b <;> simp
  · intro h
    simp [MajorityCommitCondition.AddVote, h]
  · intro h
    simp [MajorityCommitCondition.AddVote, h]
  · intro h
    have hstep : (c.AddVote addr).1.VoteCount = c.VoteCount + 1 := by
      simp [MajorityCommitCondition.AddVote, h]
    refine ⟨?_, ?_, hstep, ?_, ?_, ?_⟩
    · simp [MajorityCommitCondition.AddVote, h]
    · simp [MajorityCommitCondition.AddVote, h, mapGet_mapSet]
    · rw [hstep, Nat.mod_eq_of_lt hcount]
    · simp [MajorityCommitCondition.AddVote, h]
    · intro a ha
      simp [MajorityCommitCondition.AddVote, h, mapGet_mapSet, ha]

/-- Witness for C5: the first vote of peer 1 in a fresh condition over
`{1, 2, 3}` is accepted and the vote count becomes 1. -/
theorem majority_addVote_contract_witness :
    (NewMajorityCommitCondition (some [1, 2, 3])).VoteCount + 1 < 2 ^ 32 ∧
    mapGet (NewMajorityCommitCondition (some [1, 2, 3])).VoteStatus 1 = some false ∧
    ((NewMajorityCommitCondition (some [1, 2, 3])).AddVote 1).1.VoteCount = 1 :=
  ⟨by decide, by decide,
    ((majority_addVote_contract (NewMajorityCommitCondition (some [1, 2, 3])) 1
      (by decide)).2.2.2 (by decide)).2.2.1⟩

/-! ## Rejections of the tracker -/

/-- C7: `Replicate` returns an error exactly when the peer is not a key of the
match indexes or the new match index is not above the recorded one; the flag is
then false and the tracker, votes included, is the one before the call.  A
second `Replicate` with the arguments of a successful one is rejected so. -/
theorem replicate_rejects (s : Inflight) (addr : MultiAddr) (newMatchIndex : Nat) :
    (((s.Replicate addr newMatchIndex).2.2 ≠ none) ↔
        (mapGet s.ServerMatchIndexes addr = none ∨
          ∃ matchIndex, mapGet s.ServerMatchIndexes addr = some matchIndex ∧
            newMatchIndex ≤ matchIndex)) ∧
    ((s.Replicate addr newMatchIndex).2.2 ≠ none →
        (s.Replicate addr newMatchIndex).1 = s ∧
        (s.Replicate addr newMatchIndex).2.1 = false) ∧
    (mapGet s.ServerMatchIndexes addr = none →
        s.Replicate addr newMatchIndex = (s, false, some (.unknownAddress addr))) ∧
    (∀ matchIndex, mapGet s.ServerMatchIndexes addr = some matchIndex →
        newMatchIndex ≤ matchIndex →
        s.Replicate addr newMatchIndex
          = (s, false, some (.invalidMatchIndex newMatchIndex matchIndex))) ∧
    ((s.Replicate addr newMatchIndex).2.2 = none →
        ((s.Replicate addr newMatchIndex).1.Replicate addr newMatchIndex)
          = ((s.Replicate addr newMatchIndex).1, false,
              some (.invalidMatchIndex newMatchIndex newMatchIndex))) := by
  refine ⟨?_, ?_, ?_, ?_, ?_⟩
  · unfold Inflight.Replicate
    cases h : mapGet s.ServerMatchIndexes addr with
    | none => simp
    | some m =>
      by_cases hm : m ≥ newMatchIndex
      · simp [hm]
      · have hm' : ¬ newMatchIndex ≤ m := hm
        simp only [hm, if_false]
        split <;> simp [hm']
  · unfold Inflight.Replicate
    cases h : mapGet s.ServerMatchIndexes addr with
    | none => simp
    | some m =>
      by_cases hm : m ≥ newMatchIndex
      · simp [hm]
      · simp only [hm, if_false]
        split <;> simp
  · intro h
    simp [Inflight.Replicate, h]
  · intro m h hm
    simp [Inflight.Replicate, h, hm]
  · intro hok
    have key : mapGet (s.Replicate addr newMatchIndex).1.ServerMatchIndexes addr
        = some newMatchIndex := by
      revert hok
      unfold Inflight.Replicate
      cases h : mapGet s.ServerMatchIndexes addr with
      | none => simp
      | some m =>
        by_cases hm : m ≥ newMatchIndex
        · simp [hm]
        · simp only [hm, if_false]
          split <;> simp [mapGet_mapSet]
    generalize (s.Replicate addr newMatchIndex).1 = t at key
    simp [Inflight.Replicate, key]

/-- C8: `Add` fails exactly when the index of the request is not above
`MaxIndex`, leaving the tracker as it was; otherwise it succeeds, appends one
entry for the request at the end of the entries to commit, sets `MaxIndex` to
the index of the request and keeps the committed entries and the match
indexes.  The condition of the new entry is fresh and holds no vote: a majority
condition over `Servers` when the configuration of the request has no
`NewServers`, a joint condition over `Servers` and `NewServers` otherwise. -/
theorem add_contract (s : Inflight) (request : InflightRequest) :
    (((s.Add request).2 ≠ none) ↔ request.LogEntry.Index ≤ s.MaxIndex) ∧
    (request.LogEntry.Index ≤ s.MaxIndex →
        s.Add request = (s, some .notIncremental)) ∧
    (s.MaxIndex < request.LogEntry.Index →
        (s.Add request).2 = none ∧
        (∃ e : InflightEntry,
          (s.Add request).1.ToCommitEntries = s.ToCommitEntries ++ [e] ∧
          e.Request = request ∧
          e.Condition.totalVotes = 0 ∧
          (∀ a, e.Condition.hasVoted a = false) ∧
          (request.LogEntry.Conf.NewServers = none →
            ∃ c : MajorityCommitCondition,
              e.Condition = .majority c ∧ c.freshOver request.LogEntry.Conf.Servers) ∧
          (request.LogEntry.Conf.NewServers ≠ none →
            ∃ o n : MajorityCommitCondition,
              e.Condition = .memberChange
                { OldServersCommitCondition := o, NewServersCommitCondition := n } ∧
              o.freshOver request.LogEntry.Conf.Servers ∧
              n.freshOver request.LogEntry.Conf.NewServers)) ∧
        (s.Add request).1.MaxIndex = request.LogEntry.Index ∧
        (s.Add request).1.CommittedEntries = s.CommittedEntries ∧
        (s.Add request).1.ServerMatchIndexes = s.ServerMatchIndexes) := by
  have hfresh : ∀ addrSlice : Option (List MultiAddr),
      (NewMajorityCommitCondition addrSlice).freshOver addrSlice :=
    fun addrSlice => ⟨rfl, rfl, fun a => mapGet_newVoteStatus addrSlice a⟩
  refine ⟨?_, ?_, ?_⟩
  · unfold Inflight.Add
    by_cases h : request.LogEntry.Index ≤ s.MaxIndex <;> simp [h]
  · intro h
    simp [Inflight.Add, h]
  · intro h
    have h' : ¬ request.LogEntry.Index ≤ s.MaxIndex := Nat.not_le.mpr h
    refine ⟨by simp [Inflight.Add, h'],
      ⟨NewInflightEntry request, ?_, ?_, ?_, ?_, ?_, ?_⟩,
      by simp [Inflight.Add, h'], by simp [Inflight.Add, h'], by simp [Inflight.Add, h']⟩
    · simp [Inflight.Add, h']
    · unfold NewInflightEntry
      split <;> rfl
    · unfold NewInflightEntry
      split <;>
        simp [CommitCondition.totalVotes, NewMajorityCommitCondition,
          NewMemberChangeCommitCondition]
    · intro a
      unfold NewInflightEntry
      split
      · simp only [CommitCondition.hasVoted, mapGet_newVoteStatus]
        split <;> simp
      · simp only [CommitCondition.hasVoted, NewMemberChangeCommitCondition,
          mapGet_newVoteStatus]
        split <;> split <;> simp
    · intro hnone
      refine ⟨NewMajorityCommitCondition request.LogEntry.Conf.Servers, ?_, hfresh _⟩
      simp [NewInflightEntry, Config.IsNormalConfig, hnone]
    · intro hsome
      refine ⟨NewMajorityCommitCondition request.LogEntry.Conf.Servers,
        NewMajorityCommitCondition request.LogEntry.Conf.NewServers, ?_, hfresh _, hfresh _⟩
      have hnormal : request.LogEntry.Conf.IsNormalConfig = false := by
        cases hn : request.LogEntry.Conf.NewServers with
        | none => exact absurd hn hsome
        | some l => simp [Config.IsNormalConfig, hn]
      simp [NewInflightEntry, hnormal, NewMemberChangeCommitCondition]

theorem checkIncremental_isSome (index : Nat) (es : List InflightEntry) :
    (checkIncremental index es ≠ none) ↔
      List.Chain (· < ·) index (es.map InflightEntry.Index) := by
  induction es generalizing index with
  | nil => simp [checkIncremental]
  | cons e rest ih =>
    by_cases h : index < e.Request.LogEntry.Index
    · simp [checkIncremental, h, ih, InflightEntry.Index]
    · simp [checkIncremental, h, InflightEntry.Index]

theorem checkIncremental_last (index i : Nat) (es : List InflightEntry)
    (h : checkIncremental index es = some i) (hne : es ≠ []) :
    es.getLast?.map InflightEntry.Index = some i := by
  induction es generalizing index with
  | nil => exact absurd rfl hne
  | cons e rest ih =>
    by_cases hlt : index < e.Request.LogEntry.Index
    · simp only [checkIncremental, hlt, not_true_eq_false, if_false] at h
      cases rest with
      | nil =>
        simp only [checkIncremental, Option.some.injEq] at h
        simp [InflightEntry.Index, h]
      | cons e2 rest2 =>
        have := ih _ h (by simp)
        simpa [List.getLast?_cons_cons] using this
    · simp [checkIncremental, hlt] at h

/-- C9: `AddAll` succeeds exactly when the batch is not empty, its indices are
pairwise strictly increasing and its first index is above `MaxIndex`; it then
appends the whole batch in order and sets `MaxIndex` to the last index of the
batch; when it fails, wherever in the batch the violation is, the tracker is
the one before the call. -/
theorem addAll_contract (s : Inflight) (toCommits : List InflightEntry) :
    (((s.AddAll toCommits).2 = none) ↔
        (toCommits ≠ [] ∧
          (toCommits.map InflightEntry.Index).Pairwise (· < ·) ∧
          ∀ e, toCommits.head? = some e → s.MaxIndex < e.Index)) ∧
    ((s.AddAll toCommits).2 ≠ none → (s.AddAll toCommits).1 = s) ∧
    ((s.AddAll toCommits).2 = none →
        (s.AddAll toCommits).1.ToCommitEntries = s.ToCommitEntries ++ toCommits ∧
        toCommits.getLast?.map InflightEntry.Index = some (s.AddAll toCommits).1.MaxIndex ∧
        (s.AddAll toCommits).1.CommittedEntries = s.CommittedEntries ∧
        (s.AddAll toCommits).1.ServerMatchIndexes = s.ServerMatchIndexes) := by
  cases toCommits with
  | nil => simp [Inflight.AddAll]
  | cons e rest =>
    have hchain : (checkIncremental s.MaxIndex (e :: rest) ≠ none) ↔
        (s.MaxIndex < e.Index ∧
          ((e :: rest).map InflightEntry.Index).Pairwise (· < ·)) := by
      rw [checkIncremental_isSome, List.map_cons, List.chain_cons,
        List.chain_iff_pairwise]
    cases hc : checkIncremental s.MaxIndex (e :: rest) with
    | none =>
      have hno : ¬ (s.MaxIndex < e.Index ∧
          ((e :: rest).map InflightEntry.Index).Pairwise (· < ·)) := by
        rw [← hchain]; simp [hc]
      refine ⟨?_, ?_, ?_⟩
      · simp only [Inflight.AddAll, hc]
        constructor
        · intro h; simp at h
        · rintro ⟨_, hp, hh⟩
          exact absurd ⟨hh e rfl, hp⟩ hno
      · intro _; simp [Inflight.AddAll, hc]
      · intro h; simp [Inflight.AddAll, hc] at h
    | some i =>
      have hyes : s.MaxIndex < e.Index ∧
          ((e :: rest).map InflightEntry.Index).Pairwise (· < ·) := by
        rw [← hchain]; simp [hc]
      have hlast := checkIncremental_last _ _ _ hc (by simp)
      refine ⟨?_, ?_, ?_⟩
      · simp only [Inflight.AddAll, hc]
        constructor
        · intro _
          refine ⟨by simp, hyes.2, ?_⟩
          intro e' he'
          simp only [List.head?_cons, Option.some.injEq] at he'
          subst he'
          exact hyes.1
        · intro _; simp
      · intro h; simp [Inflight.AddAll, hc] at h
      · intro _
        refine ⟨by simp [Inflight.AddAll, hc], ?_, by simp [Inflight.AddAll, hc],
          by simp [Inflight.AddAll, hc]⟩
        rw [hlast]
        simp [Inflight.AddAll, hc]

/-! ## The successful path of Replicate -/

theorem castVotes_eq (addr : MultiAddr) (k : Nat) (l : List InflightEntry) :
    castVotes addr k l
      = (l.takeWhile (fun e => decide (e.Index ≤ k))).map (InflightEntry.vote addr)
        ++ l.dropWhile (fun e => decide (e.Index ≤ k)) := by
  induction l with
  | nil => simp [castVotes]
  | cons e rest ih =>
    by_cases h : e.Request.LogEntry.Index > k
    · have h' : ¬ e.Index ≤ k := by simpa [InflightEntry.Index] using h
      simp [castVotes, h, List.takeWhile_cons, List.dropWhile_cons, h']
    · have h' : e.Index ≤ k := by simpa [InflightEntry.Index] using h
      simp [castVotes, h, List.takeWhile_cons, List.dropWhile_cons, h', ih,
        InflightEntry.vote]

theorem committedIndex_eq (k : Nat) (l : List InflightEntry) :
    committedIndex k l = (l.takeWhile (commitReady k)).length := by
  induction l with
  | nil => simp [committedIndex]
  | cons e rest ih =>
    by_cases h : e.Request.LogEntry.Index > k
    · have h' : ¬ e.Index ≤ k := by simpa [InflightEntry.Index] using h
      simp [committedIndex, h, List.takeWhile_cons, commitReady, h']
    · have h' : e.Index ≤ k := by simpa [InflightEntry.Index] using h
      by_cases hc : e.Condition.IsCommitted = true
      · simp [committedIndex, h, List.takeWhile_cons, commitReady, h', hc, ih]
      · simp [committedIndex, h, List.takeWhile_cons, commitReady, h', hc]

theorem take_length_takeWhile {α : Type} (p : α → Bool) (l : List α) :
    l.take (l.takeWhile p).length = l.takeWhile p := by
  induction l with
  | nil => simp
  | cons x xs ih =>
    by_cases h : p x = true
    · simp [List.takeWhile_cons, h, ih]
    · simp [List.takeWhile_cons, h]

theorem drop_length_takeWhile {α : Type} (p : α → Bool) (l : List α) :
    l.drop (l.takeWhile p).length = l.dropWhile p := by
  induction l with
  | nil => simp
  | cons x xs ih =>
    by_cases h : p x = true
    · simp [List.takeWhile_cons, List.dropWhile_cons, h, ih]
    · simp [List.takeWhile_cons, List.dropWhile_cons, h]

theorem head_dropWhile_not {α : Type} (p : α → Bool) (l : List α) (x : α)
    (h : (l.dropWhile p).head? = some x) : p x = false := by
  induction l with
  | nil => simp at h
  | cons y ys ih =>
    by_cases hy : p y = true
    · rw [List.dropWhile_cons_of_pos hy] at h
      exact ih h
    · rw [List.dropWhile_cons_of_neg hy] at h
      simp only [List.head?_cons, Option.some.injEq] at h
      subst h
      simpa using hy

/-- The state and flag returned by `Replicate` once both health checks pass. -/
theorem replicate_ok_eq (s : Inflight) (addr : MultiAddr) (k m : Nat)
    (hget : mapGet s.ServerMatchIndexes addr = some m) (hlt : m < k) :
    s.Replicate addr k =
      ({ MaxIndex := s.MaxIndex
         ToCommitEntries := (castVotes addr k s.ToCommitEntries).dropWhile (commitReady k)
         CommittedEntries :=
           s.CommittedEntries ++ (castVotes addr k s.ToCommitEntries).takeWhile (commitReady k)
         ServerMatchIndexes := mapSet s.ServerMatchIndexes addr k },
        decide ((castVotes addr k s.ToCommitEntries).takeWhile (commitReady k) ≠ []), none) := by
  have hm : ¬ m ≥ k := Nat.not_le.mpr hlt
  unfold Inflight.Replicate
  simp only [hget, hm, if_false]
  by_cases hn : committedIndex k (castVotes addr k s.ToCommitEntries) > 0
  · have hne : (castVotes addr k s.ToCommitEntries).takeWhile (commitReady k) ≠ [] := by
      intro h0
      rw [committedIndex_eq, h0] at hn
      simp at hn
    simp only [hn, if_true]
    rw [committedIndex_eq, take_length_takeWhile, drop_length_takeWhile]
    simp [hne]
  · have h0 : (castVotes addr k s.ToCommitEntries).takeWhile (commitReady k) = [] := by
      rw [committedIndex_eq] at hn
      exact List.length_eq_zero.mp (by omega)
    have hd : (castVotes addr k s.ToCommitEntries).dropWhile (commitReady k)
        = castVotes addr k s.ToCommitEntries := by
      have := List.takeWhile_append_dropWhile (commitReady k)
        (castVotes addr k s.ToCommitEntries)
      rw [h0] at this
      simpa using this
    simp only [hn, if_false]
    rw [h0, hd]
    simp

/-- C1: for a peer that is a key of the match indexes and a new match index
above its recorded one, `Replicate` succeeds; the votes are offered to the
entries in front of the first one whose index is above the new match index;
the longest run of entries at the front with index up to the new match index
and a condition that reports committed is then moved, in order, to the end of
the committed entries, and the rest stays, in order, as the entries to commit;
the match index of the peer becomes the new one, the others and `MaxIndex` are
kept, and the flag says whether an entry was moved. -/
theorem replicate_moves_ready_front (s : Inflight) (addr : MultiAddr) (k m : Nat)
    (hget : mapGet s.ServerMatchIndexes addr = some m) (hlt : m < k) :
    (s.Replicate addr k).2.2 = none ∧
    castVotes addr k s.ToCommitEntries
      = (s.ToCommitEntries.takeWhile (fun e => decide (e.Index ≤ k))).map
          (InflightEntry.vote addr)
        ++ s.ToCommitEntries.dropWhile (fun e => decide (e.Index ≤ k)) ∧
    (∃ moved rest : List InflightEntry,
      castVotes addr k s.ToCommitEntries = moved ++ rest ∧
      (∀ e ∈ moved, e.Index ≤ k ∧ e.Condition.IsCommitted = true) ∧
      (∀ e, rest.head? = some e → ¬ (e.Index ≤ k ∧ e.Condition.IsCommitted = true)) ∧
      (s.Replicate addr k).1.CommittedEntries = s.CommittedEntries ++ moved ∧
      (s.Replicate addr k).1.ToCommitEntries = rest ∧
      ((s.Replicate addr k).2.1 = true ↔ moved ≠ [])) ∧
    mapGet (s.Replicate addr k).1.ServerMatchIndexes addr = some k ∧
    (∀ a, a ≠ addr →
      mapGet (s.Replicate addr k).1.ServerMatchIndexes a = mapGet s.ServerMatchIndexes a) ∧
    (s.Replicate addr k).1.MaxIndex = s.MaxIndex := by
  rw [replicate_ok_eq s addr k m hget hlt]
  refine ⟨rfl, castVotes_eq addr k _, ?_, ?_, ?_, rfl⟩
  · refine ⟨(castVotes addr k s.ToCommitEntries).takeWhile (commitReady k),
      (castVotes addr k s.ToCommitEntries).dropWhile (commitReady k),
      (List.takeWhile_append_dropWhile _ _).symm, ?_, ?_, rfl, rfl, by simp⟩
    · intro e he
      have := List.mem_takeWhile_imp he
      simpa [commitReady] using this
    · intro e he hboth
      have := head_dropWhile_not _ _ _ he
      simp [commitReady, hboth.1, hboth.2] at this
  · simp [mapGet_mapSet]
  · intro a ha
    simp [mapGet_mapSet, ha]

/-- Witness for C1: in the tracker with entries 1, 2, 3 where peer 1 has
replicated through 3, peer 2 replicating through 2 commits entries 1 and 2. -/
theorem replicate_moves_ready_front_witness :
    mapGet (threeAdded.Replicate 1 3).1.ServerMatchIndexes 2 = some 0 ∧ 0 < 2 ∧
    ((threeAdded.Replicate 1 3).1.Replicate 2 2).2.2 = none ∧
    (((threeAdded.Replicate 1 3).1.Replicate 2 2).1.CommittedEntries.map InflightEntry.Index
      = [1, 2]) :=
  ⟨by decide, by decide,
    (replicate_moves_ready_front (threeAdded.Replicate 1 3).1 2 2 0 (by decide) (by decide)).1,
    by decide⟩

/-! ## AddVote of the joint condition -/

/-- C6: `MemberChangeCommitCondition.AddVote` fails with the unknown-peer error,
changing nothing, for a peer in neither server set; for a peer in at least one
set that has not voted in any set containing it, it succeeds and records the
vote in each set containing the peer; when a sub-condition rejects the vote,
the error returned is the one of the first rejecting sub-condition, the old
set being asked before the new one. -/
theorem memberChange_addVote_contract (c : MemberChangeCommitCondition) (addr : MultiAddr) :
    (mapGet c.OldServersCommitCondition.VoteStatus addr = none →
      mapGet c.NewServersCommitCondition.VoteStatus addr = none →
        c.AddVote addr = (c, some (VoteError.notInOldNewConfig addr))) ∧
    ((mapGet c.OldServersCommitCondition.VoteStatus addr ≠ none ∨
        mapGet c.NewServersCommitCondition.VoteStatus addr ≠ none) →
      mapGet c.OldServersCommitCondition.VoteStatus addr ≠ some true →
      mapGet c.NewServersCommitCondition.VoteStatus addr ≠ some true →
        (c.AddVote addr).2 = none ∧
        (mapGet c.OldServersCommitCondition.VoteStatus addr ≠ none →
          (c.AddVote addr).1.OldServersCommitCondition
              = (c.OldServersCommitCondition.AddVote addr).1 ∧
          mapGet (c.AddVote addr).1.OldServersCommitCondition.VoteStatus addr = some true) ∧
        (mapGet c.OldServersCommitCondition.VoteStatus addr = none →
          (c.AddVote addr).1.OldServersCommitCondition = c.OldServersCommitCondition) ∧
        (mapGet c.NewServersCommitCondition.VoteStatus addr ≠ none →
          (c.AddVote addr).1.NewServersCommitCondition
              = (c.NewServersCommitCondition.AddVote addr).1 ∧
          mapGet (c.AddVote addr).1.NewServersCommitCondition.VoteStatus addr = some true) ∧
        (mapGet c.NewServersCommitCondition.VoteStatus addr = none →
          (c.AddVote addr).1.NewServersCommitCondition = c.NewServersCommitCondition)) ∧
    (mapGet c.OldServersCommitCondition.VoteStatus addr = some true →
      (c.OldServersCommitCondition.AddVote addr).2 = some (VoteError.alreadyVoted addr) ∧
      c.AddVote addr = (c, (c.OldServersCommitCondition.AddVote addr).2)) ∧
    (mapGet c.OldServersCommitCondition.VoteStatus addr ≠ some true →
      mapGet c.NewServersCommitCondition.VoteStatus addr = some true →
        (c.NewServersCommitCondition.AddVote addr).2 = some (VoteError.alreadyVoted addr) ∧
        (c.AddVote addr).2 = (c.NewServersCommitCondition.AddVote addr).2 ∧
        (c.AddVote addr).1.NewServersCommitCondition = c.NewServersCommitCondition) := by
  obtain ⟨o, n⟩ := c
  refine ⟨?_, ?_, ?_, ?_⟩
  · intro ho hn
    simp [MemberChangeCommitCondition.AddVote, MajorityCommitCondition.IsInCluster, ho, hn]
  · intro hmem ho hn
    simp only at hmem ho hn ⊢
    cases hgo : mapGet o.VoteStatus addr with
    | none =>
      cases hgn : mapGet n.VoteStatus addr with
      | none => simp [hgo, hgn] at hmem
      | some b =>
        cases b with
        | true => exact absurd hgn hn
        | false =>
          simp [MemberChangeCommitCondition.AddVote, MajorityCommitCondition.IsInCluster,
            MajorityCommitCondition.AddVote, hgo, hgn, mapGet_mapSet]
    | some b =>
      cases b with
      | true => exact absurd hgo ho
      | false =>
        cases hgn : mapGet n.VoteStatus addr with
        | none =>
          simp [MemberChangeCommitCondition.AddVote, MajorityCommitCondition.IsInCluster,
            MajorityCommitCondition.AddVote, hgo, hgn, mapGet_mapSet]
        | some b2 =>
          cases b2 with
          | true => exact absurd hgn hn
          | false =>
            simp [MemberChangeCommitCondition.AddVote, MajorityCommitCondition.IsInCluster,
              MajorityCommitCondition.AddVote, hgo, hgn, mapGet_mapSet]
  · intro ho
    simp only at ho
    simp [MemberChangeCommitCondition.AddVote, MajorityCommitCondition.IsInCluster,
      MajorityCommitCondition.AddVote, ho]
  · intro ho hn
    simp only at ho hn
    cases hgo : mapGet o.VoteStatus addr with
    | none =>
      simp [MemberChangeCommitCondition.AddVote, MajorityCommitCondition.IsInCluster,
        MajorityCommitCondition.AddVote, hgo, hn]
    | some b =>
      cases b with
      | true => exact absurd hgo ho
      | false =>
        simp [MemberChangeCommitCondition.AddVote, MajorityCommitCondition.IsInCluster,
          MajorityCommitCondition.AddVote, hgo, hn]

/-! ## Sequences of votes -/

theorem majority_addVote_get (c : MajorityCommitCondition) (a b : MultiAddr) :
    mapGet (c.AddVote a).1.VoteStatus b
      = if b = a ∧ mapGet c.VoteStatus a = some false then some true
        else mapGet c.VoteStatus b := by
  unfold MajorityCommitCondition.AddVote
  cases h : mapGet c.VoteStatus a with
  | none => simp
  | some v =>
    cases v with
    | true => simp
    | false =>
      by_cases hb : b = a
      · simp [mapGet_mapSet, hb]
      · simp [mapGet_mapSet, hb]

theorem majority_addVote_ok_iff (c : MajorityCommitCondition) (a : MultiAddr) :
    (c.AddVote a).2 = none ↔ mapGet c.VoteStatus a = some false := by
  unfold MajorityCommitCondition.AddVote
  cases h : mapGet c.VoteStatus a with
  | none => simp
  | some v => cases v <;> simp

theorem majority_addVote_count (c : MajorityCommitCondition) (a : MultiAddr) :
    (c.AddVote a).1.VoteCount
      = c.VoteCount + (if mapGet c.VoteStatus a = some false then 1 else 0) := by
  unfold MajorityCommitCondition.AddVote
  cases h : mapGet c.VoteStatus a with
  | none => simp
  | some v => cases v <;> simp

theorem majority_addVote_size (c : MajorityCommitCondition) (a : MultiAddr) :
    (c.AddVote a).1.MajoritySize = c.MajoritySize := by
  unfold MajorityCommitCondition.AddVote
  cases h : mapGet c.VoteStatus a with
  | none => simp
  | some v => cases v <;> simp

theorem mem_accepted (c : MajorityCommitCondition) (seq : List MultiAddr) (a : MultiAddr) :
    a ∈ c.accepted seq ↔ a ∈ seq ∧ mapGet c.VoteStatus a = some false := by
  induction seq generalizing c with
  | nil => simp [MajorityCommitCondition.accepted]
  | cons x rest ih =>
    by_cases hx : mapGet c.VoteStatus x = some false
    · have hok : (c.AddVote x).2 = none := (majority_addVote_ok_iff c x).mpr hx
      simp only [MajorityCommitCondition.accepted, hok, if_true, List.mem_cons, ih,
        majority_addVote_get]
      by_cases hax : a = x
      · subst hax; simp [hx]
      · simp [hax]
    · have hok : ¬ (c.AddVote x).2 = none := fun h => hx ((majority_addVote_ok_iff c x).mp h)
      simp only [MajorityCommitCondition.accepted, hok, if_false, List.mem_cons, ih,
        majority_addVote_get]
      by_cases hax : a = x
      · subst hax; simp [hx]
      · simp [hax]

theorem nodup_accepted (c : MajorityCommitCondition) (seq : List MultiAddr) :
    (c.accepted seq).Nodup := by
  induction seq generalizing c with
  | nil => simp [MajorityCommitCondition.accepted]
  | cons x rest ih =>
    by_cases hx : mapGet c.VoteStatus x = some false
    · have hok : (c.AddVote x).2 = none := (majority_addVote_ok_iff c x).mpr hx
      simp only [MajorityCommitCondition.accepted, hok, if_true, List.nodup_cons]
      refine ⟨?_, ih _⟩
      rw [mem_accepted, majority_addVote_get]
      simp [hx]
    · have hok : ¬ (c.AddVote x).2 = none := fun h => hx ((majority_addVote_ok_iff c x).mp h)
      simp only [MajorityCommitCondition.accepted, hok, if_false]
      exact ih _

theorem addVotes_count (c : MajorityCommitCondition) (seq : List MultiAddr) :
    (c.addVotes seq).VoteCount = c.VoteCount + (c.accepted seq).length := by
  induction seq generalizing c with
  | nil => simp [MajorityCommitCondition.addVotes, MajorityCommitCondition.accepted]
  | cons x rest ih =>
    have hstep : c.addVotes (x :: rest) = (c.AddVote x).1.addVotes rest := rfl
    rw [hstep, ih, majority_addVote_count]
    by_cases hx : mapGet c.VoteStatus x = some false
    · have hok : (c.AddVote x).2 = none := (majority_addVote_ok_iff c x).mpr hx
      simp [MajorityCommitCondition.accepted, hok, hx]
      omega
    · have hok : ¬ (c.AddVote x).2 = none := fun h => hx ((majority_addVote_ok_iff c x).mp h)
      simp [MajorityCommitCondition.accepted, hok, hx]

theorem addVotes_size (c : MajorityCommitCondition) (seq : List MultiAddr) :
    (c.addVotes seq).MajoritySize = c.MajoritySize := by
  induction seq generalizing c with
  | nil => rfl
  | cons x rest ih =>
    have hstep : c.addVotes (x :: rest) = (c.AddVote x).1.addVotes rest := rfl
    rw [hstep, ih, majority_addVote_size]

theorem accepted_eq_filter (c : MajorityCommitCondition) (seq : List MultiAddr)
    (hnd : seq.Nodup) :
    c.accepted seq = seq.filter (fun a => decide (mapGet c.VoteStatus a = some false)) := by
  induction seq generalizing c with
  | nil => simp [MajorityCommitCondition.accepted]
  | cons x rest ih =>
    have hx_notin : x ∉ rest := (List.nodup_cons.mp hnd).1
    have hrest : rest.Nodup := (List.nodup_cons.mp hnd).2
    have hcongr : rest.filter
          (fun a => decide (mapGet (c.AddVote x).1.VoteStatus a = some false))
        = rest.filter (fun a => decide (mapGet c.VoteStatus a = some false)) := by
      apply List.filter_congr
      intro b hb
      have hbx : b ≠ x := fun h => hx_notin (h ▸ hb)
      simp [majority_addVote_get, hbx]
    by_cases hx : mapGet c.VoteStatus x = some false
    · have hok : (c.AddVote x).2 = none := (majority_addVote_ok_iff c x).mpr hx
      simp only [MajorityCommitCondition.accepted, hok, if_true, ih _ hrest, hcongr]
      simp [List.filter_cons, hx]
    · have hok : ¬ (c.AddVote x).2 = none := fun h => hx ((majority_addVote_ok_iff c x).mp h)
      simp only [MajorityCommitCondition.accepted, hok, if_false, ih _ hrest, hcongr]
      simp [List.filter_cons, hx]

theorem newMajority_get_false (addrSlice : Option (List MultiAddr)) (a : MultiAddr) :
    mapGet (NewMajorityCommitCondition addrSlice).VoteStatus a = some false
      ↔ a ∈ AllMultiAddr addrSlice := by
  rw [mapGet_newVoteStatus]
  by_cases h : a ∈ AllMultiAddr addrSlice <;> simp [h]

/-- C4: the majority condition built from a list of `n` addresses has
threshold `n / 2 + 1`; in any sequence of `AddVote` calls the accepted peers
are the members that occur in the sequence, each accepted once, and
`IsCommitted` holds afterwards exactly when their number reaches the
threshold. -/
theorem majority_commit_iff (l seq : List MultiAddr) :
    (NewMajorityCommitCondition (some l)).MajoritySize = l.length / 2 + 1 ∧
    (∀ a, a ∈ (NewMajorityCommitCondition (some l)).accepted seq ↔ a ∈ seq ∧ a ∈ l) ∧
    ((NewMajorityCommitCondition (some l)).accepted seq).Nodup ∧
    (((NewMajorityCommitCondition (some l)).addVotes seq).IsCommitted = true ↔
      l.length / 2 + 1
        ≤ ((NewMajorityCommitCondition (some l)).accepted seq).toFinset.card) := by
  refine ⟨by simp [NewMajorityCommitCondition, Len], ?_, nodup_accepted _ _, ?_⟩
  · intro a
    rw [mem_accepted, newMajority_get_false]
    simp [AllMultiAddr]
  · rw [List.toFinset_card_of_nodup (nodup_accepted _ _)]
    simp only [MajorityCommitCondition.IsCommitted, addVotes_count, addVotes_size,
      decide_eq_true_eq]
    simp [NewMajorityCommitCondition, Len]

theorem memberChange_addVote_parts (c : MemberChangeCommitCondition) (a : MultiAddr)
    (h : mapGet c.OldServersCommitCondition.VoteStatus a ≠ some true) :
    (c.AddVote a).1 =
      { OldServersCommitCondition := (c.OldServersCommitCondition.AddVote a).1
        NewServersCommitCondition := (c.NewServersCommitCondition.AddVote a).1 } := by
  obtain ⟨o, n⟩ := c
  simp only at h
  cases hgo : mapGet o.VoteStatus a with
  | none =>
    cases hgn : mapGet n.VoteStatus a with
    | none =>
      simp [MemberChangeCommitCondition.AddVote, MajorityCommitCondition.IsInCluster,
        MajorityCommitCondition.AddVote, hgo, hgn]
    | some b =>
      cases b <;>
        simp [MemberChangeCommitCondition.AddVote, MajorityCommitCondition.IsInCluster,
          MajorityCommitCondition.AddVote, hgo, hgn]
  | some b =>
    cases b with
    | true => exact absurd hgo h
    | false =>
      cases hgn : mapGet n.VoteStatus a with
      | none =>
        simp [MemberChangeCommitCondition.AddVote, MajorityCommitCondition.IsInCluster,
          MajorityCommitCondition.AddVote, hgo, hgn]
      | some b2 =>
        cases b2 <;>
          simp [MemberChangeCommitCondition.AddVote, MajorityCommitCondition.IsInCluster,
            MajorityCommitCondition.AddVote, hgo, hgn]

theorem memberChange_addVotes_parts (c : MemberChangeCommitCondition) (v : List MultiAddr)
    (hnd : v.Nodup)
    (h : ∀ a ∈ v, mapGet c.OldServersCommitCondition.VoteStatus a ≠ some true) :
    c.addVotes v =
      { OldServersCommitCondition := c.OldServersCommitCondition.addVotes v
        NewServersCommitCondition := c.NewServersCommitCondition.addVotes v } := by
  induction v generalizing c with
  | nil => rfl
  | cons x rest ih =>
    have hx_notin : x ∉ rest := (List.nodup_cons.mp hnd).1
    have hstep : c.addVotes (x :: rest) = (c.AddVote x).1.addVotes rest := rfl
    have hparts := memberChange_addVote_parts c x (h x (List.mem_cons_self _ _))
    rw [hstep, ih _ (List.nodup_cons.mp hnd).2]
    · rw [hparts]; rfl
    · intro a ha
      have hax : a ≠ x := fun e => hx_notin (e ▸ ha)
      rw [hparts]
      simp only [majority_addVote_get, hax, false_and, if_false]
      exact h a (List.mem_cons_of_mem _ ha)

theorem filter_mem_length_eq_card (v o : List MultiAddr) (hv : v.Nodup) :
    (v.filter (fun a => decide (a ∈ o))).length = (v.toFinset ∩ o.toFinset).card := by
  rw [← List.toFinset_card_of_nodup (hv.filter _)]
  congr 1
  ext a
  simp

theorem fresh_addVotes_count (addrSlice : Option (List MultiAddr)) (v : List MultiAddr)
    (hv : v.Nodup) :
    ((NewMajorityCommitCondition addrSlice).addVotes v).VoteCount
      = (v.filter (fun a => decide (a ∈ AllMultiAddr addrSlice))).length := by
  rw [addVotes_count, accepted_eq_filter _ _ hv]
  have : (NewMajorityCommitCondition addrSlice).VoteCount = 0 := rfl
  rw [this, Nat.zero_add]
  congr 1
  apply List.filter_congr
  intro a _
  simp [newMajority_get_false]

/-- C3: for a joint configuration with old set `o` and new set `n`, both lists
of pairwise distinct addresses, a fresh joint condition that received one
`AddVote` for each peer of a set `v`, in any order, reports committed exactly
when `v` holds a majority of `o` and a majority of `n`. -/
theorem joint_commit_iff (o n v : List MultiAddr)
    (ho : o.Nodup) (hn : n.Nodup) (hv : v.Nodup) :
    ((NewMemberChangeCommitCondition { Servers := some o, NewServers := some n }).addVotes
        v).IsCommitted = true ↔
      (o.toFinset.card / 2 + 1 ≤ (v.toFinset ∩ o.toFinset).card ∧
        n.toFinset.card / 2 + 1 ≤ (v.toFinset ∩ n.toFinset).card) := by
  rw [memberChange_addVotes_parts _ _ hv]
  · simp only [MemberChangeCommitCondition.IsCommitted, MajorityCommitCondition.IsCommitted,
      NewMemberChangeCommitCondition, Bool.and_eq_true, decide_eq_true_eq, addVotes_size,
      fresh_addVotes_count _ _ hv, List.toFinset_card_of_nodup ho,
      List.toFinset_card_of_nodup hn]
    rw [filter_mem_length_eq_card v _ hv, filter_mem_length_eq_card v _ hv]
    simp [NewMajorityCommitCondition, Len, AllMultiAddr]
  · intro a _
    simp only [NewMemberChangeCommitCondition, mapGet_newVoteStatus]
    split <;> simp

/-- Witness for C3: with old `{1, 2, 3}` and new `{3, 4, 5}`, the votes of
`{1, 2, 3, 4}` commit and the votes of `{1, 2}` alone do not. -/
theorem joint_commit_iff_witness :
    ([1, 2, 3] : List MultiAddr).Nodup ∧ ([3, 4, 5] : List MultiAddr).Nodup ∧
    ([1, 2, 3, 4] : List MultiAddr).Nodup ∧ ([1, 2] : List MultiAddr).Nodup ∧
    ((NewMemberChangeCommitCondition jointABCCDE).addVotes [1, 2, 3, 4]).IsCommitted = true ∧
    ¬ ((NewMemberChangeCommitCondition jointABCCDE).addVotes [1, 2]).IsCommitted = true :=
  ⟨by decide, by decide, by decide, by decide,
    (joint_commit_iff [1, 2, 3] [3, 4, 5] [1, 2, 3, 4] (by decide) (by decide)
      (by decide)).mpr ⟨by decide, by decide⟩,
    fun h => absurd
      ((joint_commit_iff [1, 2, 3] [3, 4, 5] [1, 2] (by decide) (by decide)
        (by decide)).mp h).2 (by decide)⟩

/-! ## Quorum of the committed entries -/

theorem voteInv_quorum (m : List (MultiAddr × Nat)) (index : Nat)
    (addrSlice : Option (List MultiAddr)) (c : MajorityCommitCondition)
    (h : VoteInv m index addrSlice c) (hc : c.IsCommitted = true) :
    Len addrSlice / 2 + 1 ≤ replicatedCount m index (AllMultiAddr addrSlice) := by
  obtain ⟨hsize, hkeys, hreach, voters, hnd, hcount, hmem⟩ := h
  have hsub : voters ⊆ (AllMultiAddr addrSlice).dedup.filter (reached m index) := by
    intro p hp
    have ht := (hmem p).mp hp
    have hne : mapGet c.VoteStatus p ≠ none := by rw [ht]; simp
    exact List.mem_filter.mpr ⟨List.mem_dedup.mpr (hkeys p hne), hreach p ht⟩
  have hle := (List.subperm_of_subset hnd hsub).length_le
  have hcm : c.MajoritySize ≤ c.VoteCount := by
    simpa [MajorityCommitCondition.IsCommitted] using hc
  unfold replicatedCount
  omega

theorem reached_mono (m m' : List (MultiAddr × Nat)) (index : Nat) (p : MultiAddr)
    (hmono : ∀ q v, mapGet m q = some v → ∃ v', mapGet m' q = some v' ∧ v ≤ v')
    (h : reached m index p = true) : reached m' index p = true := by
  unfold reached at h ⊢
  cases hg : mapGet m p with
  | none => simp [hg] at h
  | some v =>
    obtain ⟨v', hv', hle⟩ := hmono p v hg
    simp only [hg, decide_eq_true_eq] at h
    simp only [hv', decide_eq_true_eq]
    omega

theorem voteInv_mono (m m' : List (MultiAddr × Nat)) (index : Nat)
    (addrSlice : Option (List MultiAddr)) (c : MajorityCommitCondition)
    (hmono : ∀ q v, mapGet m q = some v → ∃ v', mapGet m' q = some v' ∧ v ≤ v')
    (h : VoteInv m index addrSlice c) : VoteInv m' index addrSlice c := by
  obtain ⟨hsize, hkeys, hreach, hvoters⟩ := h
  exact ⟨hsize, hkeys, fun p hp => reached_mono m m' index p hmono (hreach p hp), hvoters⟩

theorem voteInv_addVote (m : List (MultiAddr × Nat)) (index : Nat)
    (addrSlice : Option (List MultiAddr)) (c : MajorityCommitCondition) (a : MultiAddr)
    (ha : reached m index a = true) (h : VoteInv m index addrSlice c) :
    VoteInv m index addrSlice (c.AddVote a).1 := by
  obtain ⟨hsize, hkeys, hreach, voters, hnd, hcount, hmem⟩ := h
  by_cases hx : mapGet c.VoteStatus a = some false
  · refine ⟨by rw [majority_addVote_size]; exact hsize, ?_, ?_, a :: voters, ?_, ?_, ?_⟩
    · intro p hp
      rw [majority_addVote_get] at hp
      by_cases hpa : p = a
      · subst hpa
        exact hkeys p (by rw [hx]; simp)
      · simp only [hpa, false_and, if_false] at hp
        exact hkeys p hp
    · intro p hp
      rw [majority_addVote_get] at hp
      by_cases hpa : p = a
      · subst hpa; exact ha
      · simp only [hpa, false_and, if_false] at hp
        exact hreach p hp
    · refine List.nodup_cons.mpr ⟨?_, hnd⟩
      intro hin
      have := (hmem a).mp hin
      rw [hx] at this
      simp at this
    · rw [majority_addVote_count]
      simp [hx, hcount]
    · intro p
      rw [majority_addVote_get, List.mem_cons]
      by_cases hpa : p = a
      · subst hpa; simp [hx]
      · simp [hpa, hmem p]
  · have hsame : (c.AddVote a).1 = c := by
      unfold MajorityCommitCondition.AddVote
      cases hg : mapGet c.VoteStatus a with
      | none => simp
      | some v =>
        cases v with
        | true => simp
        | false => exact absurd hg hx
    rw [hsame]
    exact ⟨hsize, hkeys, hreach, voters, hnd, hcount, hmem⟩

theorem voteInv_fresh (m : List (MultiAddr × Nat)) (index : Nat)
    (addrSlice : Option (List MultiAddr)) :
    VoteInv m index addrSlice (NewMajorityCommitCondition addrSlice) := by
  refine ⟨rfl, ?_, ?_, [], List.nodup_nil, rfl, ?_⟩
  · intro p hp
    rw [mapGet_newVoteStatus] at hp
    by_contra hnot
    simp [hnot] at hp
  · intro p hp
    rw [mapGet_newVoteStatus] at hp
    split at hp <;> simp at hp
  · intro p
    rw [mapGet_newVoteStatus]
    split <;> simp

theorem memberChange_addVote_old (c : MemberChangeCommitCondition) (a : MultiAddr) :
    (c.AddVote a).1.OldServersCommitCondition = (c.OldServersCommitCondition.AddVote a).1 := by
  obtain ⟨o, n⟩ := c
  cases hgo : mapGet o.VoteStatus a with
  | none =>
    cases hgn : mapGet n.VoteStatus a with
    | none =>
      simp [MemberChangeCommitCondition.AddVote, MajorityCommitCondition.IsInCluster,
        MajorityCommitCondition.AddVote, hgo, hgn]
    | some b =>
      cases b <;>
        simp [MemberChangeCommitCondition.AddVote, MajorityCommitCondition.IsInCluster,
          MajorityCommitCondition.AddVote, hgo, hgn]
  | some b =>
    cases b with
    | true =>
      simp [MemberChangeCommitCondition.AddVote, MajorityCommitCondition.IsInCluster,
        MajorityCommitCondition.AddVote, hgo]
    | false =>
      cases hgn : mapGet n.VoteStatus a with
      | none =>
        simp [MemberChangeCommitCondition.AddVote, MajorityCommitCondition.IsInCluster,
          MajorityCommitCondition.AddVote, hgo, hgn]
      | some b2 =>
        cases b2 <;>
          simp [MemberChangeCommitCondition.AddVote, MajorityCommitCondition.IsInCluster,
            MajorityCommitCondition.AddVote, hgo, hgn]

theorem memberChange_addVote_new (c : MemberChangeCommitCondition) (a : MultiAddr) :
    (c.AddVote a).1.NewServersCommitCondition = c.NewServersCommitCondition ∨
    (c.AddVote a).1.NewServersCommitCondition
      = (c.NewServersCommitCondition.AddVote a).1 := by
  by_cases h : mapGet c.OldServersCommitCondition.VoteStatus a = some true
  · left
    obtain ⟨o, n⟩ := c
    simp only at h
    simp [MemberChangeCommitCondition.AddVote, MajorityCommitCondition.IsInCluster,
      MajorityCommitCondition.AddVote, h]
  · right
    rw [memberChange_addVote_parts c a h]

theorem entryInv_mono (m m' : List (MultiAddr × Nat)) (e : InflightEntry)
    (hmono : ∀ q v, mapGet m q = some v → ∃ v', mapGet m' q = some v' ∧ v ≤ v')
    (h : EntryInv m e) : EntryInv m' e := by
  obtain ⟨r, cond⟩ := e
  cases cond with
  | majority c =>
    exact ⟨h.1, voteInv_mono m m' _ _ c hmono h.2⟩
  | memberChange c =>
    exact ⟨h.1, voteInv_mono m m' _ _ _ hmono h.2.1, voteInv_mono m m' _ _ _ hmono h.2.2⟩

theorem entryInv_vote (m : List (MultiAddr × Nat)) (e : InflightEntry) (a : MultiAddr)
    (ha : reached m e.Index a = true) (h : EntryInv m e) : EntryInv m (e.vote a) := by
  obtain ⟨r, cond⟩ := e
  cases cond with
  | majority c =>
    exact ⟨h.1, voteInv_addVote m _ _ c a ha h.2⟩
  | memberChange c =>
    refine ⟨h.1, ?_, ?_⟩
    · show VoteInv m _ _ (c.AddVote a).1.OldServersCommitCondition
      rw [memberChange_addVote_old]
      exact voteInv_addVote m _ _ _ a ha h.2.1
    · show VoteInv m _ _ (c.AddVote a).1.NewServersCommitCondition
      rcases memberChange_addVote_new c a with hsame | hvote
      · rw [hsame]; exact h.2.2
      · rw [hvote]; exact voteInv_addVote m _ _ _ a ha h.2.2

theorem entryInv_fresh (m : List (MultiAddr × Nat)) (request : InflightRequest) :
    EntryInv m (NewInflightEntry request) := by
  unfold NewInflightEntry
  cases hn : request.LogEntry.Conf.IsNormalConfig with
  | true =>
    simp only [if_true]
    refine ⟨?_, voteInv_fresh _ _ _⟩
    simpa [Config.IsNormalConfig, Option.isNone_iff_eq_none] using hn
  | false =>
    simp only [Bool.false_eq_true, if_false]
    refine ⟨?_, voteInv_fresh _ _ _, voteInv_fresh _ _ _⟩
    intro hnone
    have hnone' : request.LogEntry.Conf.NewServers = none := hnone
    simp [Config.IsNormalConfig, hnone'] at hn

theorem mem_castVotes (a : MultiAddr) (k : Nat) (l : List InflightEntry) (x : InflightEntry)
    (hx : x ∈ castVotes a k l) : x ∈ l ∨ ∃ e ∈ l, e.Index ≤ k ∧ x = e.vote a := by
  rw [castVotes_eq, List.mem_append, List.mem_map] at hx
  rcases hx with ⟨e, he, rfl⟩ | hx
  · right
    refine ⟨e, (List.takeWhile_sublist _).subset he, ?_, rfl⟩
    simpa using List.mem_takeWhile_imp he
  · left
    exact (List.dropWhile_sublist _).subset hx

theorem trackerInv_new (conf : Config) : TrackerInv (NewInflight conf) := by
  constructor <;> intro e he <;> simp [NewInflight] at he

theorem trackerInv_add (s : Inflight) (request : InflightRequest) (h : TrackerInv s) :
    TrackerInv (s.Add request).1 := by
  unfold Inflight.Add
  by_cases hle : request.LogEntry.Index ≤ s.MaxIndex
  · simpa [hle] using h
  · simp only [hle, if_false]
    refine ⟨?_, h.2⟩
    intro e he
    rcases List.mem_append.mp he with he | he
    · exact h.1 e he
    · rw [List.mem_singleton] at he
      subst he
      exact entryInv_fresh _ _

theorem trackerInv_replicate (s : Inflight) (addr : MultiAddr) (k : Nat)
    (h : TrackerInv s) : TrackerInv (s.Replicate addr k).1 := by
  cases hget : mapGet s.ServerMatchIndexes addr with
  | none => simpa [Inflight.Replicate, hget] using h
  | some m =>
    by_cases hge : m ≥ k
    · simpa [Inflight.Replicate, hget, hge] using h
    · have hlt : m < k := Nat.not_le.mp hge
      rw [replicate_ok_eq s addr k m hget hlt]
      have hmono : ∀ q v, mapGet s.ServerMatchIndexes q = some v →
          ∃ v', mapGet (mapSet s.ServerMatchIndexes addr k) q = some v' ∧ v ≤ v' := by
        intro q v hq
        by_cases hqa : q = addr
        · subst hqa
          rw [hget] at hq
          injection hq with hq
          exact ⟨k, by simp [mapGet_mapSet], by omega⟩
        · exact ⟨v, by simp [mapGet_mapSet, hqa, hq], Nat.le_refl _⟩
      have hvoted : ∀ x ∈ castVotes addr k s.ToCommitEntries,
          EntryInv (mapSet s.ServerMatchIndexes addr k) x := by
        intro x hx
        rcases mem_castVotes addr k _ x hx with hx | ⟨e, he, hek, rfl⟩
        · exact entryInv_mono _ _ _ hmono (h.1 x hx)
        · apply entryInv_vote
          · show reached _ e.Index addr = true
            simp [reached, mapGet_mapSet, hek]
          · exact entryInv_mono _ _ _ hmono (h.1 e he)
      constructor
      · intro e he
        exact hvoted e ((List.dropWhile_sublist _).subset he)
      · intro e he
        rcases List.mem_append.mp he with he | he
        · exact ⟨entryInv_mono _ _ _ hmono (h.2 e he).1, (h.2 e he).2⟩
        · refine ⟨hvoted e ((List.takeWhile_sublist _).subset he), ?_⟩
          have := List.mem_takeWhile_imp he
          simp only [commitReady, Bool.and_eq_true] at this
          exact this.2

theorem trackerInv_step (s : Inflight) (op : Op) (h : TrackerInv s) :
    TrackerInv (s.step op) := by
  cases op with
  | add request => exact trackerInv_add s request h
  | replicate addr k => exact trackerInv_replicate s addr k h
  | getCommitted =>
    refine ⟨h.1, ?_⟩
    intro e he
    simp [Inflight.step, Inflight.GetCommitted] at he

theorem trackerInv_run (conf : Config) (ops : List Op) : TrackerInv (run conf ops) := by
  unfold run
  induction ops using List.reverseRecOn with
  | nil => exact trackerInv_new conf
  | append_singleton ops op ih =>
    rw [List.foldl_append]
    exact trackerInv_step _ op ih

theorem entryInv_quorum (m : List (MultiAddr × Nat)) (e : InflightEntry)
    (h : EntryInv m e) (hc : e.Condition.IsCommitted = true) : hasQuorum m e = true := by
  obtain ⟨r, cond⟩ := e
  cases cond with
  | majority c =>
    have h1 : r.LogEntry.Conf.NewServers = none := h.1
    have h2 := voteInv_quorum m _ _ c h.2 hc
    simp only [hasQuorum, h1, Bool.and_true, decide_eq_true_eq]
    exact h2
  | memberChange c =>
    have hc' : c.OldServersCommitCondition.IsCommitted = true ∧
        c.NewServersCommitCondition.IsCommitted = true := by
      simpa [CommitCondition.IsCommitted, MemberChangeCommitCondition.IsCommitted] using hc
    have h2 := voteInv_quorum m _ _ _ h.2.1 hc'.1
    have h3 := voteInv_quorum m _ _ _ h.2.2 hc'.2
    cases hn : r.LogEntry.Conf.NewServers with
    | none => exact absurd hn h.1
    | some n =>
      have hn' : (InflightEntry.mk r (.memberChange c)).Request.LogEntry.Conf.NewServers
          = some n := hn
      rw [hn'] at h3
      simp only [hasQuorum, hn, Bool.and_eq_true, decide_eq_true_eq]
      exact ⟨h2, by simpa [Len, AllMultiAddr] using h3⟩

/-- C2: in a tracker built by `NewInflight` and driven by any sequence of
`Add`, `Replicate` and `GetCommitted` calls, every entry that a `Replicate`
call has just placed among the committed entries, and every entry still there,
has been replicated by a quorum: the peers of `Servers` whose match index is at
least the index of the entry number at least `Len / 2 + 1`, and likewise for
`NewServers` when the configuration of the entry is joint. -/
theorem committed_has_quorum (conf : Config) (ops : List Op) (addr : MultiAddr) (k : Nat)
    (e : InflightEntry)
    (he : e ∈ ((run conf ops).Replicate addr k).1.CommittedEntries) :
    hasQuorum ((run conf ops).Replicate addr k).1.ServerMatchIndexes e = true := by
  have hinv : TrackerInv ((run conf ops).Replicate addr k).1 :=
    trackerInv_replicate _ addr k (trackerInv_run conf ops)
  exact entryInv_quorum _ e (hinv.2 e he).1 (hinv.2 e he).2

/-- Witness for C2: in scenario 2, after peer 1 replicated through 3, the
call `Replicate(2, 2)` commits entry 1, which peers 1 and 2 have replicated. -/
theorem committed_has_quorum_witness :
    ((NewInflightEntry (mkRequest 1 normalABC)).vote 1).vote 2
      ∈ ((run normalABC (outOfOrderOps.take 4)).Replicate 2 2).1.CommittedEntries ∧
    hasQuorum ((run normalABC (outOfOrderOps.take 4)).Replicate 2 2).1.ServerMatchIndexes
      (((NewInflightEntry (mkRequest 1 normalABC)).vote 1).vote 2) = true :=
  ⟨by decide,
    committed_has_quorum normalABC (outOfOrderOps.take 4) 2 2 _ (by decide)⟩

/-! ## Round trip under a Normal configuration -/

theorem takeWhile_append_split {α : Type} (p : α → Bool) (xs ys : List α)
    (hx : ∀ x ∈ xs, p x = true) (hy : ∀ y ∈ ys, p y = false) :
    (xs ++ ys).takeWhile p = xs ∧ (xs ++ ys).dropWhile p = ys := by
  induction xs with
  | nil =>
    cases ys with
    | nil => simp
    | cons y rest =>
      have hpy : p y = false := hy y (List.mem_cons_self _ _)
      simp [List.takeWhile_cons, List.dropWhile_cons, hpy]
  | cons x rest ih =>
    have hpx : p x = true := hx x (List.mem_cons_self _ _)
    have ih' := ih (fun z hz => hx z (List.mem_cons_of_mem _ hz))
    simp [List.takeWhile_cons, List.dropWhile_cons, hpx, ih'.1, ih'.2]

theorem filter_split_sorted (l : List InflightRequest) (k : Nat)
    (h : (l.map (fun r => r.LogEntry.Index)).Pairwise (· < ·)) :
    l.filter (fun r => decide (r.LogEntry.Index ≤ k))
      ++ l.filter (fun r => decide (k < r.LogEntry.Index)) = l := by
  induction l with
  | nil => rfl
  | cons x rest ih =>
    rw [List.map_cons, List.pairwise_cons] at h
    by_cases hx : x.LogEntry.Index ≤ k
    · have hx' : ¬ k < x.LogEntry.Index := Nat.not_lt.mpr hx
      simp [List.filter_cons, hx, hx', ih h.2]
    · have hx' : k < x.LogEntry.Index := Nat.not_le.mp hx
      have hall : ∀ r ∈ rest, k < r.LogEntry.Index := by
        intro r hr
        have := h.1 r.LogEntry.Index (List.mem_map.mpr ⟨r, hr, rfl⟩)
        omega
      have h1 : rest.filter (fun r => decide (r.LogEntry.Index ≤ k)) = [] := by
        rw [List.filter_eq_nil_iff]
        intro r hr
        have := hall r hr
        simp only [decide_eq_true_eq]
        omega
      have h2 : rest.filter (fun r => decide (k < r.LogEntry.Index)) = rest := by
        rw [List.filter_eq_self]
        intro r hr
        simpa using hall r hr
      simp [List.filter_cons, hx, hx', h1, h2]

theorem adds_state (reqs : List InflightRequest) (s : Inflight)
    (h : (reqs.map (fun r => r.LogEntry.Index)).Pairwise (· < ·)) :
    ((reqs.map Op.add).foldl Inflight.step s).ToCommitEntries
      = s.ToCommitEntries
        ++ (reqs.filter (fun r => decide (s.MaxIndex < r.LogEntry.Index))).map NewInflightEntry ∧
    ((reqs.map Op.add).foldl Inflight.step s).CommittedEntries = s.CommittedEntries ∧
    ((reqs.map Op.add).foldl Inflight.step s).ServerMatchIndexes = s.ServerMatchIndexes := by
  induction reqs generalizing s with
  | nil => simp
  | cons x rest ih =>
    rw [List.map_cons, List.pairwise_cons] at h
    rw [List.map_cons, List.foldl_cons]
    by_cases hx : x.LogEntry.Index ≤ s.MaxIndex
    · have hx' : ¬ s.MaxIndex < x.LogEntry.Index := Nat.not_lt.mpr hx
      have hs : s.step (Op.add x) = s := by simp [Inflight.step, Inflight.Add, hx]
      rw [hs]
      simpa [List.filter_cons, hx'] using ih s h.2
    · have hx' : s.MaxIndex < x.LogEntry.Index := Nat.not_le.mp hx
      have hs : s.step (Op.add x) =
          { s with
            MaxIndex := x.LogEntry.Index
            ToCommitEntries := s.ToCommitEntries ++ [NewInflightEntry x] } := by
        simp [Inflight.step, Inflight.Add, hx]
      have hfil : rest.filter (fun r => decide (x.LogEntry.Index < r.LogEntry.Index))
          = rest.filter (fun r => decide (s.MaxIndex < r.LogEntry.Index)) := by
        apply List.filter_congr
        intro r hr
        have := h.1 r.LogEntry.Index (List.mem_map.mpr ⟨r, hr, rfl⟩)
        have h3 : s.MaxIndex < r.LogEntry.Index := by omega
        simp [this, h3]
      have := ih (s.step (Op.add x)) h.2
      rw [hs] at this ⊢
      simp only at this
      rw [hfil] at this
      simpa [List.filter_cons, hx'] using this

theorem foldl_keep_get (keys : List MultiAddr) (m : List (MultiAddr × Nat)) :
    keys.foldl
      (fun m addr =>
        match mapGet ([] : List (MultiAddr × Nat)) addr with
        | some matchIndex => mapSet m addr matchIndex
        | none => m) m = m := by
  induction keys generalizing m with
  | nil => rfl
  | cons x rest ih => simp [mapGet]

theorem newInflight_normal_get (servers : List MultiAddr) (p : MultiAddr) :
    mapGet (NewInflight (normalConf servers)).ServerMatchIndexes p
      = if p ∈ servers then some 0 else none := by
  unfold NewInflight setupServerMatchIndexes
  simp only [normalConf, Option.isSome_some, Option.isSome_none, if_true, Bool.false_eq_true,
    if_false]
  rw [foldl_keep_get]
  simp [initIndex, AllMultiAddr, mapGet_foldl_mapSet, mapGet]

theorem newInflightEntry_normal (servers : List MultiAddr) (request : InflightRequest)
    (h : request.LogEntry.Conf = normalConf servers) :
    NewInflightEntry request
      = majorityEntry (NewMajorityCommitCondition (some servers)) request := by
  simp [NewInflightEntry, h, normalConf, Config.IsNormalConfig, majorityEntry]

/-- One accepted `Replicate` on a tracker whose entries to commit are the
requests `a`, all under the condition `c` and with index up to `k`, followed
by entries `b` with index above `k`. -/
theorem replicate_uniform (s : Inflight) (p : MultiAddr) (k : Nat)
    (a : List InflightRequest) (b : List InflightEntry) (c : MajorityCommitCondition)
    (hget : mapGet s.ServerMatchIndexes p = some 0) (hk : 0 < k)
    (ha : ∀ r ∈ a, r.LogEntry.Index ≤ k) (hb : ∀ e ∈ b, k < e.Index)
    (hT : s.ToCommitEntries = a.map (majorityEntry c) ++ b) :
    (s.Replicate p k).1.ServerMatchIndexes = mapSet s.ServerMatchIndexes p k ∧
    ((c.AddVote p).1.IsCommitted = true →
      (s.Replicate p k).1.ToCommitEntries = b ∧
      (s.Replicate p k).1.CommittedEntries
        = s.CommittedEntries ++ a.map (majorityEntry (c.AddVote p).1)) ∧
    ((c.AddVote p).1.IsCommitted = false →
      (s.Replicate p k).1.ToCommitEntries = a.map (majorityEntry (c.AddVote p).1) ++ b ∧
      (s.Replicate p k).1.CommittedEntries = s.CommittedEntries) := by
  rw [replicate_ok_eq s p k 0 hget hk]
  have hcast : castVotes p k s.ToCommitEntries
      = a.map (majorityEntry (c.AddVote p).1) ++ b := by
    rw [castVotes_eq, hT]
    have hsplit := takeWhile_append_split (fun e : InflightEntry => decide (e.Index ≤ k))
      (a.map (majorityEntry c)) b
      (by
        intro x hx
        obtain ⟨r, hr, rfl⟩ := List.mem_map.mp hx
        simpa [majorityEntry, InflightEntry.Index] using ha r hr)
      (by
        intro y hy
        have := hb y hy
        simp only [decide_eq_false_iff_not]
        omega)
    rw [hsplit.1, hsplit.2, List.map_map]
    rfl
  rw [hcast]
  refine ⟨rfl, ?_, ?_⟩
  · intro hc
    have hsplit := takeWhile_append_split (commitReady k)
      (a.map (majorityEntry (c.AddVote p).1)) b
      (by
        intro x hx
        obtain ⟨r, hr, rfl⟩ := List.mem_map.mp hx
        have := ha r hr
        simp [commitReady, majorityEntry, InflightEntry.Index, CommitCondition.IsCommitted,
          hc, this])
      (by
        intro y hy
        have := hb y hy
        have h2 : ¬ y.Index ≤ k := by omega
        simp [commitReady, h2])
    simp [hsplit.1, hsplit.2]
  · intro hc
    have hsplit := takeWhile_append_split (commitReady k) []
      (a.map (majorityEntry (c.AddVote p).1) ++ b)
      (by intro x hx; simp at hx)
      (by
        intro y hy
        rcases List.mem_append.mp hy with hy | hy
        · obtain ⟨r, hr, rfl⟩ := List.mem_map.mp hy
          simp [commitReady, majorityEntry, CommitCondition.IsCommitted, hc]
        · have := hb y hy
          have h2 : ¬ y.Index ≤ k := by omega
          simp [commitReady, h2])
    simp only [List.nil_append] at hsplit
    simp [hsplit.1, hsplit.2]

theorem fresh_isCommitted (servers v : List MultiAddr) (hv : v.Nodup)
    (hsub : ∀ p ∈ v, p ∈ servers) :
    ((NewMajorityCommitCondition (some servers)).addVotes v).IsCommitted
      = decide (servers.length / 2 + 1 ≤ v.length) := by
  have hcount := fresh_addVotes_count (some servers) v hv
  have hfil : v.filter (fun a => decide (a ∈ AllMultiAddr (some servers))) = v := by
    rw [List.filter_eq_self]
    intro p hp
    simpa [AllMultiAddr] using hsub p hp
  rw [hfil] at hcount
  unfold MajorityCommitCondition.IsCommitted
  rw [hcount, addVotes_size]
  simp [NewMajorityCommitCondition, Len]

theorem addVotes_snoc (c : MajorityCommitCondition) (v : List MultiAddr) (p : MultiAddr) :
    c.addVotes (v ++ [p]) = ((c.addVotes v).AddVote p).1 := by
  simp [MajorityCommitCondition.addVotes, List.foldl_append]

/-- The tracker after `Replicate` through `k` by the peers `todo`, from a
tracker in which the distinct peers `done` have already done so: the requests
`a` stay in front of the entries to commit, each with the votes cast so far,
until the call that brings the number of voters to the majority moves them. -/
theorem replicates_state (servers : List MultiAddr) (k : Nat) (a : List InflightRequest)
    (b : List InflightEntry) (m0 : List (MultiAddr × Nat)) (hk : 0 < k)
    (ha : ∀ r ∈ a, r.LogEntry.Index ≤ k) (hb : ∀ e ∈ b, k < e.Index)
    (hm0 : ∀ p ∈ servers, mapGet m0 p = some 0)
    (todo done : List MultiAddr) (s : Inflight)
    (hnd : (done ++ todo).Nodup) (hsub : ∀ p ∈ done ++ todo, p ∈ servers)
    (hmatch : ∀ q, q ∉ done → mapGet s.ServerMatchIndexes q = mapGet m0 q)
    (hbefore : done.length < servers.length / 2 + 1 →
      s.ToCommitEntries
          = a.map (majorityEntry ((NewMajorityCommitCondition (some servers)).addVotes done))
            ++ b ∧
        s.CommittedEntries = [])
    (hafter : servers.length / 2 + 1 ≤ done.length →
      s.ToCommitEntries = b ∧
        s.CommittedEntries
          = a.map (majorityEntry ((NewMajorityCommitCondition (some servers)).addVotes
              (done.take (servers.length / 2 + 1))))) :
    ((done ++ todo).length < servers.length / 2 + 1 →
      ((todo.map (fun p => Op.replicate p k)).foldl Inflight.step s).ToCommitEntries
          = a.map (majorityEntry
              ((NewMajorityCommitCondition (some servers)).addVotes (done ++ todo))) ++ b ∧
        ((todo.map (fun p => Op.replicate p k)).foldl Inflight.step s).CommittedEntries = []) ∧
    (servers.length / 2 + 1 ≤ (done ++ todo).length →
      ((todo.map (fun p => Op.replicate p k)).foldl Inflight.step s).ToCommitEntries = b ∧
        ((todo.map (fun p => Op.replicate p k)).foldl Inflight.step s).CommittedEntries
          = a.map (majorityEntry ((NewMajorityCommitCondition (some servers)).addVotes
              ((done ++ todo).take (servers.length / 2 + 1))))) := by
  induction todo generalizing done s with
  | nil => simpa using And.intro hbefore hafter
  | cons p rest ih =>
    have hassoc : done ++ p :: rest = (done ++ [p]) ++ rest := by simp
    have hnd1 : (done ++ [p]).Nodup := by
      rw [hassoc] at hnd
      exact (List.nodup_append.mp hnd).1
    have hp_notin : p ∉ done := by
      intro hin
      have := List.nodup_append.mp hnd1
      exact this.2.2 hin (List.mem_singleton_self p) 
    have hp_srv : p ∈ servers := hsub p (by simp)
    have hsub1 : ∀ q ∈ done ++ [p], q ∈ servers := by
      intro q hq
      apply hsub q
      rw [hassoc]
      exact List.mem_append_left _ hq
    have hget : mapGet s.ServerMatchIndexes p = some 0 := by
      rw [hmatch p hp_notin, hm0 p hp_srv]
    have hlen1 : (done ++ [p]).length = done.length + 1 := by simp
    rw [List.map_cons, List.foldl_cons, hassoc]
    have hstep : s.step (Op.replicate p k) = (s.Replicate p k).1 := rfl
    rw [hstep]
    by_cases hlt : done.length < servers.length / 2 + 1
    · obtain ⟨hT, hC⟩ := hbefore hlt
      obtain ⟨hm, hyes, hno⟩ := replicate_uniform s p k a b _ hget hk ha hb hT
      rw [← addVotes_snoc, fresh_isCommitted servers _ hnd1 hsub1, hlen1] at hyes hno
      apply ih (done ++ [p]) (s.Replicate p k).1 (by rw [← hassoc]; exact hnd)
        (by rw [← hassoc]; exact hsub)
      · intro q hq
        have hqp : q ≠ p := fun e => hq (by simp [e])
        have hqd : q ∉ done := fun e => hq (by simp [e])
        rw [hm, mapGet_mapSet_other _ _ _ _ hqp]
        exact hmatch q hqd
      · intro hl
        rw [hlen1] at hl
        have := hno (by simpa using hl)
        rw [hC] at this
        exact this
      · intro hl
        rw [hlen1] at hl
        have := hyes (by simpa using hl)
        rw [hC, List.nil_append] at this
        have htake : (done ++ [p]).take (servers.length / 2 + 1) = done ++ [p] := by
          apply List.take_of_length_le
          rw [hlen1]; omega
        rw [htake]
        exact this
    · have hge : servers.length / 2 + 1 ≤ done.length := Nat.not_lt.mp hlt
      obtain ⟨hT, hC⟩ := hafter hge
      have hT' : s.ToCommitEntries
          = ([] : List InflightRequest).map
              (majorityEntry (NewMajorityCommitCondition (some servers))) ++ b := by
        simpa using hT
      obtain ⟨hm, hyes, hno⟩ := replicate_uniform s p k [] b _ hget hk
        (by intro r hr; simp at hr) hb hT'
      have hboth : (s.Replicate p k).1.ToCommitEntries = b ∧
          (s.Replicate p k).1.CommittedEntries = s.CommittedEntries := by
        cases hc : ((NewMajorityCommitCondition (some servers)).AddVote p).1.IsCommitted with
        | true => simpa using hyes hc
        | false => simpa using hno hc
      apply ih (done ++ [p]) (s.Replicate p k).1 (by rw [← hassoc]; exact hnd)
        (by rw [← hassoc]; exact hsub)
      · intro q hq
        have hqp : q ≠ p := fun e => hq (by simp [e])
        have hqd : q ∉ done := fun e => hq (by simp [e])
        rw [hm, mapGet_mapSet_other _ _ _ _ hqp]
        exact hmatch q hqd
      · intro hl
        rw [hlen1] at hl
        omega
      · intro _
        rw [List.take_append_of_le_length hge, hboth.1, hboth.2]
        exact ⟨rfl, hC⟩

/-- The tracker of the round trip after the `Add` calls and `Replicate`
through `k` by distinct peers of the configuration. -/
theorem round_trip_state (servers peers : List MultiAddr) (reqs : List InflightRequest)
    (k : Nat)
    (hconf : ∀ r ∈ reqs, r.LogEntry.Conf = normalConf servers)
    (hinc : (reqs.map (fun r => r.LogEntry.Index)).Pairwise (· < ·))
    (hpeers : peers.Nodup) (hsub : ∀ p ∈ peers, p ∈ servers) (hk : 1 ≤ k) :
    (peers.length < servers.length / 2 + 1 →
      (run (normalConf servers) (roundTripOps reqs peers k)).CommittedEntries = []) ∧
    (servers.length / 2 + 1 ≤ peers.length →
      (run (normalConf servers) (roundTripOps reqs peers k)).ToCommitEntries.map
          (fun e => e.Request)
        = reqs.filter (fun r => decide (k < r.LogEntry.Index)) ∧
      (run (normalConf servers) (roundTripOps reqs peers k)).CommittedEntries.map
          (fun e => e.Request)
        = reqs.filter (fun r => decide (0 < r.LogEntry.Index ∧ r.LogEntry.Index ≤ k))) := by
  have hadd := adds_state reqs (NewInflight (normalConf servers)) hinc
  have hrun : run (normalConf servers) (roundTripOps reqs peers k)
      = (peers.map (fun p => Op.replicate p k)).foldl Inflight.step
          ((reqs.map Op.add).foldl Inflight.step (NewInflight (normalConf servers))) := by
    simp [run, roundTripOps, List.foldl_append]
  have hsorted : ((reqs.filter (fun r => decide (0 < r.LogEntry.Index))).map
      (fun r => r.LogEntry.Index)).Pairwise (· < ·) :=
    hinc.sublist ((List.filter_sublist _).map _)
  have hsplit := filter_split_sorted _ k hsorted
  have hentries : (reqs.filter (fun r => decide (0 < r.LogEntry.Index))).map NewInflightEntry
      = (reqs.filter (fun r => decide (0 < r.LogEntry.Index))).map
          (majorityEntry (NewMajorityCommitCondition (some servers))) := by
    apply List.map_congr_left
    intro r hr
    exact newInflightEntry_normal servers r (hconf r (List.mem_filter.mp hr).1)
  have hT : ((reqs.map Op.add).foldl Inflight.step
        (NewInflight (normalConf servers))).ToCommitEntries
      = ((reqs.filter (fun r => decide (0 < r.LogEntry.Index))).filter
            (fun r => decide (r.LogEntry.Index ≤ k))).map
          (majorityEntry ((NewMajorityCommitCondition (some servers)).addVotes []))
        ++ ((reqs.filter (fun r => decide (0 < r.LogEntry.Index))).filter
            (fun r => decide (k < r.LogEntry.Index))).map
          (majorityEntry (NewMajorityCommitCondition (some servers))) := by
    have hnil : (NewMajorityCommitCondition (some servers)).addVotes []
        = NewMajorityCommitCondition (some servers) := rfl
    rw [hadd.1, hnil, ← List.map_append, hsplit, ← hentries]
    simp [NewInflight]
  have hC : ((reqs.map Op.add).foldl Inflight.step
      (NewInflight (normalConf servers))).CommittedEntries = [] := by
    rw [hadd.2.1]; rfl
  have hmain := replicates_state servers k
    ((reqs.filter (fun r => decide (0 < r.LogEntry.Index))).filter
      (fun r => decide (r.LogEntry.Index ≤ k)))
    (((reqs.filter (fun r => decide (0 < r.LogEntry.Index))).filter
      (fun r => decide (k < r.LogEntry.Index))).map
        (majorityEntry (NewMajorityCommitCondition (some servers))))
    ((reqs.map Op.add).foldl Inflight.step
      (NewInflight (normalConf servers))).ServerMatchIndexes
    (by omega)
    (by
      intro r hr
      simpa using (List.mem_filter.mp hr).2)
    (by
      intro e he
      obtain ⟨r, hr, rfl⟩ := List.mem_map.mp he
      simpa [majorityEntry, InflightEntry.Index] using (List.mem_filter.mp hr).2)
    (by
      intro p hp
      rw [hadd.2.2, newInflight_normal_get]
      simp [hp])
    peers [] _
    (by simpa using hpeers)
    (by simpa using hsub)
    (fun q _ => rfl)
    (fun _ => ⟨hT, hC⟩)
    (by intro h; simp at h)
  rw [hrun]
  simp only [List.nil_append] at hmain
  refine ⟨fun hl => (hmain.1 hl).2, fun hl => ?_⟩
  obtain ⟨h1, h2⟩ := hmain.2 hl
  rw [h1, h2]
  constructor
  · rw [List.map_map, List.filter_filter]
    have hid : ((fun e : InflightEntry => e.Request) ∘
        majorityEntry (NewMajorityCommitCondition (some servers))) = id := by
      funext r; rfl
    rw [hid, List.map_id]
    apply List.filter_congr
    intro r _
    by_cases h : k < r.LogEntry.Index
    · have : 0 < r.LogEntry.Index := by omega
      simp [h, this]
    · simp [h]
  · rw [List.map_map, List.filter_filter]
    have hid : ((fun e : InflightEntry => e.Request) ∘
        majorityEntry ((NewMajorityCommitCondition (some servers)).addVotes
          (peers.take (servers.length / 2 + 1)))) = id := by
      funext r; rfl
    rw [hid, List.map_id]
    apply List.filter_congr
    intro r _
    simp [and_comm]

/-- C10: on a fresh tracker over a Normal configuration, after `Add` of
requests with strictly increasing indices under that configuration and then
`Replicate` through `k >= 1` by distinct peers of the configuration that form
a majority, the committed entries are the accepted requests with index up to
`k`, in ascending order, the entries to commit are those with index above `k`,
and nothing is committed while fewer peers than the majority have called. -/
theorem majority_round_trip (servers peers : List MultiAddr) (reqs : List InflightRequest)
    (k : Nat)
    (hconf : ∀ r ∈ reqs, r.LogEntry.Conf = normalConf servers)
    (hinc : (reqs.map (fun r => r.LogEntry.Index)).Pairwise (· < ·))
    (hpeers : peers.Nodup) (hsub : ∀ p ∈ peers, p ∈ servers)
    (hmaj : servers.length / 2 + 1 ≤ peers.length) (hk : 1 ≤ k) :
    (run (normalConf servers) (roundTripOps reqs peers k)).CommittedEntries.map
        (fun e => e.Request)
      = reqs.filter (fun r => decide (0 < r.LogEntry.Index ∧ r.LogEntry.Index ≤ k)) ∧
    (run (normalConf servers) (roundTripOps reqs peers k)).ToCommitEntries.map
        (fun e => e.Request)
      = reqs.filter (fun r => decide (k < r.LogEntry.Index)) ∧
    ((run (normalConf servers) (roundTripOps reqs peers k)).CommittedEntries.map
        InflightEntry.Index).Pairwise (· < ·) ∧
    (∀ j, j < servers.length / 2 + 1 →
      (run (normalConf servers) (roundTripOps reqs (peers.take j) k)).CommittedEntries
        = []) := by
  obtain ⟨hT, hC⟩ := (round_trip_state servers peers reqs k hconf hinc hpeers hsub hk).2 hmaj
  refine ⟨hC, hT, ?_, ?_⟩
  · have hmap : (run (normalConf servers) (roundTripOps reqs peers k)).CommittedEntries.map
          InflightEntry.Index
        = ((run (normalConf servers) (roundTripOps reqs peers k)).CommittedEntries.map
            (fun e => e.Request)).map (fun r => r.LogEntry.Index) := by
      rw [List.map_map]; rfl
    rw [hmap, hC]
    exact hinc.sublist ((List.filter_sublist _).map _)
  · intro j hj
    have hlen : (peers.take j).length < servers.length / 2 + 1 := by
      rw [List.length_take]; omega
    exact (round_trip_state servers (peers.take j) reqs k hconf hinc
      (hpeers.sublist (List.take_sublist _ _))
      (fun p hp => hsub p ((List.take_sublist _ _).subset hp)) hk).1 hlen

/-- Witness for C10: servers `{1, 2, 3}`, entries 1, 2, 3 and peers 1 and 2
replicating through 2. -/
theorem majority_round_trip_witness :
    (run (normalConf [1, 2, 3])
        (roundTripOps [mkRequest 1 normalABC, mkRequest 2 normalABC, mkRequest 3 normalABC]
          [1, 2] 2)).CommittedEntries.map (fun e => e.Request)
      = [mkRequest 1 normalABC, mkRequest 2 normalABC] ∧
    (run (normalConf [1, 2, 3])
        (roundTripOps [mkRequest 1 normalABC, mkRequest 2 normalABC, mkRequest 3 normalABC]
          ([1, 2].take 1) 2)).CommittedEntries = [] :=
  have h := majority_round_trip [1, 2, 3] [1, 2]
    [mkRequest 1 normalABC, mkRequest 2 normalABC, mkRequest 3 normalABC] 2
    (by decide) (by decide) (by decide) (by decide) (by decide) (by decide)
  ⟨h.1.trans (by decide), h.2.2.2 1 (by decide)⟩

/-! ## GetCommitted, Init and ChangeMember -/

/-- C11: `GetCommitted` returns the committed entries in their order and leaves
none, keeping `MaxIndex`, the entries to commit and the match indexes; a second
call right after returns the empty sequence and changes nothing. -/
theorem getCommitted_drains (s : Inflight) :
    s.GetCommitted.2 = s.CommittedEntries ∧
    s.GetCommitted.1.CommittedEntries = [] ∧
    s.GetCommitted.1.MaxIndex = s.MaxIndex ∧
    s.GetCommitted.1.ToCommitEntries = s.ToCommitEntries ∧
    s.GetCommitted.1.ServerMatchIndexes = s.ServerMatchIndexes ∧
    s.GetCommitted.1.GetCommitted.2 = [] ∧
    s.GetCommitted.1.GetCommitted.1 = s.GetCommitted.1 :=
  ⟨rfl, rfl, rfl, rfl, rfl, rfl, rfl⟩

theorem mem_mapKeys {β : Type} (m : List (MultiAddr × β)) (a : MultiAddr) :
    a ∈ mapKeys m ↔ mapGet m a ≠ none := by
  induction m with
  | nil => simp [mapKeys, mapGet]
  | cons p rest ih =>
    obtain ⟨k, v⟩ := p
    have ih' : a ∈ List.map Prod.fst rest ↔ mapGet rest a ≠ none := ih
    by_cases h : k = a
    · simp [mapKeys, mapGet, h]
    · have h' : ¬ a = k := fun e => h e.symm
      simp only [mapKeys, List.map_cons, List.mem_cons, mapGet, h, h', if_false, false_or]
      exact ih'

theorem mapKeys_mapSet_of_mem {β : Type} (m : List (MultiAddr × β)) (k : MultiAddr) (v : β)
    (h : k ∈ mapKeys m) : mapKeys (mapSet m k v) = mapKeys m := by
  induction m with
  | nil => simp [mapKeys] at h
  | cons p rest ih =>
    obtain ⟨k', v'⟩ := p
    by_cases hk : k' = k
    · simp [mapSet, mapKeys, hk]
    · have hin : k ∈ mapKeys rest := by
        have : k = k' ∨ k ∈ mapKeys rest := by simpa [mapKeys] using h
        rcases this with e | hin
        · exact absurd e.symm hk
        · exact hin
      have := ih hin
      simp only [mapKeys] at this
      simp [mapSet, mapKeys, hk, this]

theorem mapKeys_foldl_mapSet {β : Type} (v : β) (l : List MultiAddr)
    (m : List (MultiAddr × β)) (h : ∀ k ∈ l, k ∈ mapKeys m) :
    mapKeys (l.foldl (fun m k => mapSet m k v) m) = mapKeys m := by
  induction l generalizing m with
  | nil => rfl
  | cons x rest ih =>
    have hx := mapKeys_mapSet_of_mem m x v (h x (List.mem_cons_self _ _))
    rw [List.foldl_cons, ih, hx]
    intro k hk
    rw [hx]
    exact h k (List.mem_cons_of_mem _ hk)

/-- C13: after `Init`, `MaxIndex` is 0, both queues are empty, and the match
indexes have the keys they had, each with value 0. -/
theorem init_resets (s : Inflight) :
    s.Init.MaxIndex = 0 ∧
    s.Init.ToCommitEntries = [] ∧
    s.Init.CommittedEntries = [] ∧
    mapKeys s.Init.ServerMatchIndexes = mapKeys s.ServerMatchIndexes ∧
    (∀ a, mapGet s.Init.ServerMatchIndexes a ≠ none ↔ mapGet s.ServerMatchIndexes a ≠ none) ∧
    (∀ a, mapGet s.ServerMatchIndexes a ≠ none →
      mapGet s.Init.ServerMatchIndexes a = some 0) := by
  have hget : ∀ a, mapGet s.Init.ServerMatchIndexes a
      = if a ∈ mapKeys s.ServerMatchIndexes then some 0
        else mapGet s.ServerMatchIndexes a := by
    intro a
    simp only [Inflight.Init, mapGet_foldl_mapSet]
  refine ⟨rfl, rfl, rfl, mapKeys_foldl_mapSet 0 _ _ (fun k hk => hk), ?_, ?_⟩
  · intro a
    rw [hget]
    by_cases h : a ∈ mapKeys s.ServerMatchIndexes
    · simp [h, (mem_mapKeys _ a).mp h]
    · simp [h]
  · intro a ha
    rw [hget]
    simp [(mem_mapKeys _ a).mpr ha]

theorem foldl_carry_get (prev : List (MultiAddr × Nat)) (keys : List MultiAddr)
    (m : List (MultiAddr × Nat)) (a : MultiAddr) :
    mapGet
        (keys.foldl
          (fun m addr =>
            match mapGet prev addr with
            | some matchIndex => mapSet m addr matchIndex
            | none => m) m) a
      = if a ∈ keys ∧ mapGet prev a ≠ none then mapGet prev a else mapGet m a := by
  induction keys generalizing m with
  | nil => simp
  | cons x rest ih =>
    rw [List.foldl_cons, ih]
    by_cases hr : a ∈ rest ∧ mapGet prev a ≠ none
    · have : a ∈ x :: rest ∧ mapGet prev a ≠ none := ⟨List.mem_cons_of_mem _ hr.1, hr.2⟩
      rw [if_pos hr, if_pos this]
    · rw [if_neg hr]
      cases hp : mapGet prev x with
      | none =>
        have hne : ¬ (a ∈ x :: rest ∧ mapGet prev a ≠ none) := by
          rintro ⟨hin, hnn⟩
          rcases List.mem_cons.mp hin with e | hin
          · subst e; exact hnn hp
          · exact hr ⟨hin, hnn⟩
        rw [if_neg hne]
      | some v =>
        simp only [mapGet_mapSet]
        by_cases hax : a = x
        · subst hax
          simp [hp]
        · have hne : ¬ (a ∈ x :: rest ∧ mapGet prev a ≠ none) := by
            rintro ⟨hin, hnn⟩
            rcases List.mem_cons.mp hin with e | hin
            · exact hax e
            · exact hr ⟨hin, hnn⟩
          rw [if_neg hne, if_neg hax]

theorem setup_get (conf : Config) (prev : List (MultiAddr × Nat)) (a : MultiAddr) :
    mapGet (setupServerMatchIndexes conf prev) a
      = if a ∈ AllMultiAddr conf.Servers ∨ a ∈ AllMultiAddr conf.NewServers then
          some ((mapGet prev a).getD 0)
        else none := by
  have hm2 : ∀ b, mapGet
      (if conf.NewServers.isSome then
          initIndex (if conf.Servers.isSome then initIndex [] conf.Servers else [])
            conf.NewServers
        else (if conf.Servers.isSome then initIndex [] conf.Servers else [])) b
      = if b ∈ AllMultiAddr conf.Servers ∨ b ∈ AllMultiAddr conf.NewServers then some 0
        else none := by
    intro b
    obtain ⟨sv, nsv⟩ := conf
    cases sv <;> cases nsv <;>
      simp [initIndex, AllMultiAddr, mapGet_foldl_mapSet, mapGet]
    · rename_i l1 l2
      by_cases h2 : b ∈ l2 <;> by_cases h1 : b ∈ l1 <;> simp [h1, h2]
  unfold setupServerMatchIndexes
  simp only []
  rw [foldl_carry_get]
  simp only [mem_mapKeys, hm2]
  by_cases hU : a ∈ AllMultiAddr conf.Servers ∨ a ∈ AllMultiAddr conf.NewServers
  · cases hp : mapGet prev a <;> simp [hU]
  · simp [hU]

/-- C12: after `ChangeMember(conf)` the keys of the match indexes are the
addresses of `conf.Servers` and `conf.NewServers`, whichever are present; a key
that was there before keeps its match index, a new key has match index 0, an
address outside `conf` is no key; `MaxIndex` and both queues, with the
conditions of their entries, are the ones before the call. -/
theorem changeMember_contract (s : Inflight) (conf : Config) :
    (∀ a, mapGet (s.ChangeMember conf).ServerMatchIndexes a ≠ none ↔
      (a ∈ AllMultiAddr conf.Servers ∨ a ∈ AllMultiAddr conf.NewServers)) ∧
    (∀ a v, (a ∈ AllMultiAddr conf.Servers ∨ a ∈ AllMultiAddr conf.NewServers) →
      mapGet s.ServerMatchIndexes a = some v →
        mapGet (s.ChangeMember conf).ServerMatchIndexes a = some v) ∧
    (∀ a, (a ∈ AllMultiAddr conf.Servers ∨ a ∈ AllMultiAddr conf.NewServers) →
      mapGet s.ServerMatchIndexes a = none →
        mapGet (s.ChangeMember conf).ServerMatchIndexes a = some 0) ∧
    (∀ a, ¬ (a ∈ AllMultiAddr conf.Servers ∨ a ∈ AllMultiAddr conf.NewServers) →
      mapGet (s.ChangeMember conf).ServerMatchIndexes a = none) ∧
    (s.ChangeMember conf).MaxIndex = s.MaxIndex ∧
    (s.ChangeMember conf).ToCommitEntries = s.ToCommitEntries ∧
    (s.ChangeMember conf).CommittedEntries = s.CommittedEntries := by
  have hget : ∀ a, mapGet (s.ChangeMember conf).ServerMatchIndexes a
      = if a ∈ AllMultiAddr conf.Servers ∨ a ∈ AllMultiAddr conf.NewServers then
          some ((mapGet s.ServerMatchIndexes a).getD 0)
        else none := fun a => setup_get conf s.ServerMatchIndexes a
  refine ⟨?_, ?_, ?_, ?_, rfl, rfl, rfl⟩
  · intro a
    rw [hget]
    by_cases hU : a ∈ AllMultiAddr conf.Servers ∨ a ∈ AllMultiAddr conf.NewServers <;>
      simp [hU]
  · intro a v hU hv
    rw [hget, if_pos hU, hv]; rfl
  · intro a hU hv
    rw [hget, if_pos hU, hv]; rfl
  · intro a hU
    rw [hget, if_neg hU]

/-! ## Order of the queues and `MaxIndex` -/

theorem vote_index (a : MultiAddr) (e : InflightEntry) : (e.vote a).Index = e.Index := rfl

theorem castVotes_map_index (a : MultiAddr) (k : Nat) (l : List InflightEntry) :
    (castVotes a k l).map InflightEntry.Index = l.map InflightEntry.Index := by
  induction l with
  | nil => rfl
  | cons e rest ih =>
    by_cases h : e.Request.LogEntry.Index > k
    · simp [castVotes, h]
    · simp [castVotes, h, ih, InflightEntry.Index]

theorem replicate_queueIndexes (s : Inflight) (addr : MultiAddr) (k : Nat) :
    queueIndexes (s.Replicate addr k).1 = queueIndexes s ∧
    (s.Replicate addr k).1.MaxIndex = s.MaxIndex := by
  cases hget : mapGet s.ServerMatchIndexes addr with
  | none => simp [Inflight.Replicate, hget]
  | some m =>
    by_cases hge : m ≥ k
    · simp [Inflight.Replicate, hget, hge]
    · have hlt : m < k := Nat.not_le.mp hge
      rw [replicate_ok_eq s addr k m hget hlt]
      refine ⟨?_, rfl⟩
      simp only [queueIndexes]
      rw [List.append_assoc, List.takeWhile_append_dropWhile, List.map_append,
        castVotes_map_index, ← List.map_append]

theorem newInflightEntry_index (request : InflightRequest) :
    (NewInflightEntry request).Index = request.LogEntry.Index := by
  unfold NewInflightEntry
  split <;> rfl

theorem checkIncremental_foldl_max (index i : Nat) (es : List InflightEntry)
    (h : checkIncremental index es = some i) :
    (es.map InflightEntry.Index).foldl max index = i := by
  induction es generalizing index with
  | nil => simpa [checkIncremental] using h
  | cons e rest ih =>
    by_cases hlt : index < e.Request.LogEntry.Index
    · simp only [checkIncremental, hlt, not_true_eq_false, if_false] at h
      have := ih _ h
      have hmax : max index e.Index = e.Index := by
        simp only [InflightEntry.Index]; omega
      simpa [hmax] using this
    · simp [checkIncremental, hlt] at h

theorem checkIncremental_bounds (index i : Nat) (es : List InflightEntry)
    (h : checkIncremental index es = some i) :
    index ≤ i ∧ ∀ x ∈ es.map InflightEntry.Index, index < x ∧ x ≤ i := by
  induction es generalizing index with
  | nil =>
    simp only [checkIncremental, Option.some.injEq] at h
    subst h
    simp
  | cons e rest ih =>
    by_cases hlt : index < e.Request.LogEntry.Index
    · simp only [checkIncremental, hlt, not_true_eq_false, if_false] at h
      obtain ⟨h1, h2⟩ := ih _ h
      refine ⟨by omega, ?_⟩
      intro x hx
      rw [List.map_cons, List.mem_cons] at hx
      rcases hx with e1 | hx
      · subst e1
        simp only [InflightEntry.Index]
        omega
      · have := h2 x hx
        omega
    · simp [checkIncremental, hlt] at h

theorem addAll_ok_eq (s : Inflight) (es : List InflightEntry)
    (h : (s.AddAll es).2 = none) :
    ∃ i, checkIncremental s.MaxIndex es = some i ∧
      (s.AddAll es).1 =
        { s with MaxIndex := i, ToCommitEntries := s.ToCommitEntries ++ es } := by
  unfold Inflight.AddAll at h ⊢
  by_cases hlen : es.length = 0
  · simp [hlen] at h
  · cases hc : checkIncremental s.MaxIndex es with
    | none => simp [hlen, hc] at h
    | some i => exact ⟨i, rfl, by simp [hlen]⟩

theorem addAll_err_eq (s : Inflight) (es : List InflightEntry)
    (h : (s.AddAll es).2 ≠ none) : (s.AddAll es).1 = s := by
  unfold Inflight.AddAll at h ⊢
  by_cases hlen : es.length = 0
  · simp [hlen]
  · cases hc : checkIncremental s.MaxIndex es with
    | none => simp [hlen]
    | some i => simp [hlen, hc] at h

theorem queueInv_perform (s : Inflight) (op : PublicOp) (h : QueueInv s) :
    QueueInv (s.perform op) := by
  cases op with
  | init =>
    constructor
    · simp [Inflight.perform, Inflight.Init, queueIndexes]
    · intro i hi
      simp [Inflight.perform, Inflight.Init, queueIndexes] at hi
  | changeMember conf => exact h
  | add request =>
    by_cases hle : request.LogEntry.Index ≤ s.MaxIndex
    · have : s.perform (.add request) = s := by simp [Inflight.perform, Inflight.Add, hle]
      rw [this]; exact h
    · have hq : queueIndexes (s.perform (.add request))
          = queueIndexes s ++ [request.LogEntry.Index] := by
        simp [Inflight.perform, Inflight.Add, hle, queueIndexes, newInflightEntry_index]
      have hm : (s.perform (.add request)).MaxIndex = request.LogEntry.Index := by
        simp [Inflight.perform, Inflight.Add, hle]
      constructor
      · rw [hq, List.pairwise_append]
        refine ⟨h.1, by simp, ?_⟩
        intro a ha b hb
        have := h.2 a ha
        rw [List.mem_singleton] at hb
        omega
      · intro i hi
        rw [hq] at hi
        rw [hm]
        rcases List.mem_append.mp hi with hi | hi
        · have := h.2 i hi; omega
        · rw [List.mem_singleton] at hi; omega
  | addAll es =>
    by_cases herr : (s.AddAll es).2 = none
    · obtain ⟨i, hc, hst⟩ := addAll_ok_eq s es herr
      have hb := checkIncremental_bounds _ _ _ hc
      have hpw : (es.map InflightEntry.Index).Pairwise (· < ·) := by
        have hchain := (checkIncremental_isSome s.MaxIndex es).mp (by rw [hc]; simp)
        exact (List.pairwise_cons.mp (List.chain_iff_pairwise.mp hchain)).2
      have hq : queueIndexes (s.perform (.addAll es))
          = queueIndexes s ++ es.map InflightEntry.Index := by
        simp only [Inflight.perform, hst, queueIndexes, List.map_append, List.append_assoc]
      have hm : (s.perform (.addAll es)).MaxIndex = i := by
        simp only [Inflight.perform, hst]
      constructor
      · rw [hq, List.pairwise_append]
        refine ⟨h.1, hpw, ?_⟩
        intro a ha b hb'
        have := h.2 a ha
        have := (hb.2 b hb').1
        omega
      · intro x hx
        rw [hq] at hx
        rw [hm]
        rcases List.mem_append.mp hx with hx | hx
        · have := h.2 x hx; omega
        · exact (hb.2 x hx).2
    · have : s.perform (.addAll es) = s := addAll_err_eq s es herr
      rw [this]; exact h
  | replicate addr k =>
    have hr := replicate_queueIndexes s addr k
    constructor
    · show (queueIndexes (s.Replicate addr k).1).Pairwise (· < ·)
      rw [hr.1]; exact h.1
    · intro i hi
      have hi' : i ∈ queueIndexes (s.Replicate addr k).1 := hi
      rw [hr.1] at hi'
      show i ≤ (s.Replicate addr k).1.MaxIndex
      rw [hr.2]
      exact h.2 i hi'
  | getCommitted =>
    have hsub : List.Sublist (queueIndexes (s.perform .getCommitted)) (queueIndexes s) := by
      simp only [queueIndexes, Inflight.perform, Inflight.GetCommitted, List.nil_append,
        List.map_append]
      exact List.sublist_append_right _ _
    exact ⟨h.1.sublist hsub, fun i hi => h.2 i (hsub.subset hi)⟩

theorem queueInv_runPublic (conf : Config) (ops : List PublicOp) :
    QueueInv (runPublic conf ops) := by
  unfold runPublic
  induction ops using List.reverseRecOn with
  | nil =>
    constructor
    · simp [NewInflight, queueIndexes]
    · intro i hi
      simp [NewInflight, queueIndexes] at hi
  | append_singleton ops op ih =>
    rw [List.foldl_append]
    exact queueInv_perform _ op ih

/-- C14: in every state reached from `NewInflight` by public operations, the
indices of the committed entries followed by the entries to commit increase
strictly; so do those of the entries to commit, and those of the committed
entries; every committed index is below every index to commit, and no entry is
in both queues. -/
theorem queues_strictly_ascending (conf : Config) (ops : List PublicOp) :
    (queueIndexes (runPublic conf ops)).Pairwise (· < ·) ∧
    ((runPublic conf ops).ToCommitEntries.map InflightEntry.Index).Pairwise (· < ·) ∧
    ((runPublic conf ops).CommittedEntries.map InflightEntry.Index).Pairwise (· < ·) ∧
    (∀ c ∈ (runPublic conf ops).CommittedEntries,
      ∀ t ∈ (runPublic conf ops).ToCommitEntries, c.Index < t.Index) ∧
    (∀ e, e ∈ (runPublic conf ops).CommittedEntries →
      e ∉ (runPublic conf ops).ToCommitEntries) := by
  have h := (queueInv_runPublic conf ops).1
  have h' := h
  simp only [queueIndexes, List.map_append, List.pairwise_append] at h'
  obtain ⟨hc, ht, hct⟩ := h'
  have hlt : ∀ c ∈ (runPublic conf ops).CommittedEntries,
      ∀ t ∈ (runPublic conf ops).ToCommitEntries, c.Index < t.Index := by
    intro c hcm t htm
    exact hct c.Index (List.mem_map.mpr ⟨c, hcm, rfl⟩) t.Index (List.mem_map.mpr ⟨t, htm, rfl⟩)
  refine ⟨h, ht, hc, hlt, ?_⟩
  intro e he het
  exact Nat.lt_irrefl _ (hlt e he e het)

theorem le_foldl_max (l : List Nat) (m : Nat) : m ≤ l.foldl max m := by
  induction l generalizing m with
  | nil => exact Nat.le_refl _
  | cons x rest ih =>
    have := ih (max m x)
    simp only [List.foldl_cons]
    omega

theorem largest_append (l1 l2 : List Nat) :
    largest (l1 ++ l2) = l2.foldl max (largest l1) := by
  simp [largest, List.foldl_append]

theorem add_ok_queue (s : Inflight) (request : InflightRequest)
    (h : ¬ request.LogEntry.Index ≤ s.MaxIndex) :
    queueIndexes (s.Add request).1 = queueIndexes s ++ [request.LogEntry.Index] ∧
    (s.Add request).1.MaxIndex = request.LogEntry.Index ∧
    (s.Add request).1.ServerMatchIndexes = s.ServerMatchIndexes := by
  simp [Inflight.Add, h, queueIndexes, newInflightEntry_index]

theorem add_err_eq (s : Inflight) (request : InflightRequest)
    (h : request.LogEntry.Index ≤ s.MaxIndex) : (s.Add request).1 = s := by
  simp [Inflight.Add, h]

theorem perform_maxIndex (s : Inflight) (op : PublicOp) (h : op.isInit = false) :
    (s.perform op).MaxIndex = (acceptedBy s op).foldl max s.MaxIndex := by
  cases op with
  | init => simp [PublicOp.isInit] at h
  | changeMember conf => rfl
  | add request =>
    by_cases hle : request.LogEntry.Index ≤ s.MaxIndex
    · simp [Inflight.perform, acceptedBy, Inflight.Add, hle]
    · simp only [Inflight.perform, acceptedBy, Inflight.Add, hle, if_false, if_true,
        List.foldl_cons, List.foldl_nil]
      omega
  | addAll es =>
    by_cases herr : (s.AddAll es).2 = none
    · obtain ⟨i, hc, hst⟩ := addAll_ok_eq s es herr
      simp only [Inflight.perform, acceptedBy, herr, if_true, hst,
        checkIncremental_foldl_max _ _ _ hc]
    · simp only [Inflight.perform, acceptedBy, herr, if_false, List.foldl_nil,
        addAll_err_eq s es herr]
  | replicate addr k => exact (replicate_queueIndexes s addr k).2
  | getCommitted => rfl

theorem foldl_perform_maxIndex (ops : List PublicOp) (s : Inflight)
    (h : ∀ op ∈ ops, op.isInit = false) :
    (ops.foldl Inflight.perform s).MaxIndex = (acceptedIndexes s ops).foldl max s.MaxIndex := by
  induction ops generalizing s with
  | nil => rfl
  | cons op rest ih =>
    rw [List.foldl_cons, ih _ (fun o ho => h o (List.mem_cons_of_mem _ ho)),
      perform_maxIndex s op (h op (List.mem_cons_self _ _))]
    simp [acceptedIndexes, List.foldl_append]

theorem maxIndex_eq_largest_perform (s : Inflight) (op : PublicOp)
    (hop : op.isGetCommitted = false) (h : s.MaxIndex = largest (queueIndexes s)) :
    (s.perform op).MaxIndex = largest (queueIndexes (s.perform op)) := by
  cases op with
  | init => simp [Inflight.perform, Inflight.Init, queueIndexes, largest]
  | changeMember conf => exact h
  | add request =>
    by_cases hle : request.LogEntry.Index ≤ s.MaxIndex
    · have : s.perform (.add request) = s := add_err_eq s request hle
      rw [this]; exact h
    · obtain ⟨hq, hm, _⟩ := add_ok_queue s request hle
      show (s.Add request).1.MaxIndex = largest (queueIndexes (s.Add request).1)
      rw [hq, hm, largest_append, ← h]
      simp only [List.foldl_cons, List.foldl_nil]
      omega
  | addAll es =>
    by_cases herr : (s.AddAll es).2 = none
    · obtain ⟨i, hc, hst⟩ := addAll_ok_eq s es herr
      have hq : queueIndexes (s.perform (.addAll es))
          = queueIndexes s ++ es.map InflightEntry.Index := by
        simp only [Inflight.perform, hst, queueIndexes, List.map_append, List.append_assoc]
      have hm : (s.perform (.addAll es)).MaxIndex = i := by
        simp only [Inflight.perform, hst]
      rw [hq, hm, largest_append, ← h, checkIncremental_foldl_max _ _ _ hc]
    · have : s.perform (.addAll es) = s := addAll_err_eq s es herr
      rw [this]; exact h
  | replicate addr k =>
    have hr := replicate_queueIndexes s addr k
    show (s.Replicate addr k).1.MaxIndex = largest (queueIndexes (s.Replicate addr k).1)
    rw [hr.1, hr.2]; exact h
  | getCommitted => simp [PublicOp.isGetCommitted] at hop

/-- C18 does not hold as stated: after entry 1 was added, committed and drained
by `GetCommitted`, both queues are empty and `MaxIndex` is 1, not 0. -/
theorem maxIndex_after_drain_counterexample :
    (runPublic normalABC drainedOps).ToCommitEntries = [] ∧
    (runPublic normalABC drainedOps).CommittedEntries = [] ∧
    (runPublic normalABC drainedOps).MaxIndex = 1 ∧
    (runPublic normalABC drainedOps).MaxIndex
      ≠ largest (queueIndexes (runPublic normalABC drainedOps)) := by
  decide

theorem foldl_max_le (l : List Nat) (a m : Nat) (ha : a ≤ m) (h : ∀ x ∈ l, x ≤ m) :
    l.foldl max a ≤ m := by
  induction l generalizing a with
  | nil => exact ha
  | cons x rest ih =>
    have hx := h x (List.mem_cons_self _ _)
    exact ih (max a x) (by omega) (fun y hy => h y (List.mem_cons_of_mem _ hy))

theorem foldl_max_start (l : List Nat) (a b : Nat) (hne : l ≠ [])
    (ha : ∀ x ∈ l, a ≤ x) (hb : ∀ x ∈ l, b ≤ x) : l.foldl max a = l.foldl max b := by
  cases l with
  | nil => exact absurd rfl hne
  | cons x rest =>
    have h1 := ha x (List.mem_cons_self _ _)
    have h2 := hb x (List.mem_cons_self _ _)
    have e1 : max a x = x := by omega
    have e2 : max b x = x := by omega
    simp only [List.foldl_cons, e1, e2]

theorem largest_le (l : List Nat) (m : Nat) (h : ∀ x ∈ l, x ≤ m) : largest l ≤ m :=
  foldl_max_le l 0 m (Nat.zero_le _) h

theorem maxIndex_eq_largest_nonempty_perform (s : Inflight) (op : PublicOp) (hQ : QueueInv s)
    (h : queueIndexes s ≠ [] → s.MaxIndex = largest (queueIndexes s)) :
    queueIndexes (s.perform op) ≠ [] →
      (s.perform op).MaxIndex = largest (queueIndexes (s.perform op)) := by
  have hbound : largest (queueIndexes s) ≤ s.MaxIndex := largest_le _ _ hQ.2
  cases op with
  | init =>
    intro hne
    simp [Inflight.perform, Inflight.Init, queueIndexes] at hne
  | changeMember conf => exact h
  | add request =>
    by_cases hle : request.LogEntry.Index ≤ s.MaxIndex
    · have : s.perform (.add request) = s := add_err_eq s request hle
      rw [this]; exact h
    · intro _
      obtain ⟨hq, hm, _⟩ := add_ok_queue s request hle
      show (s.Add request).1.MaxIndex = largest (queueIndexes (s.Add request).1)
      rw [hq, hm, largest_append]
      simp only [List.foldl_cons, List.foldl_nil]
      omega
  | addAll es =>
    by_cases herr : (s.AddAll es).2 = none
    · intro _
      obtain ⟨i, hc, hst⟩ := addAll_ok_eq s es herr
      have hb := checkIncremental_bounds _ _ _ hc
      have hes : es.map InflightEntry.Index ≠ [] := by
        intro hnil
        have hnil' : es = [] := List.map_eq_nil_iff.mp hnil
        rw [hnil'] at herr
        simp [Inflight.AddAll] at herr
      have hq : queueIndexes (s.perform (.addAll es))
          = queueIndexes s ++ es.map InflightEntry.Index := by
        simp only [Inflight.perform, hst, queueIndexes, List.map_append, List.append_assoc]
      have hm : (s.perform (.addAll es)).MaxIndex = i := by
        simp only [Inflight.perform, hst]
      rw [hq, hm, largest_append,
        foldl_max_start _ (largest (queueIndexes s)) s.MaxIndex hes
          (fun x hx => by have := (hb.2 x hx).1; omega)
          (fun x hx => by have := (hb.2 x hx).1; omega),
        checkIncremental_foldl_max _ _ _ hc]
    · have : s.perform (.addAll es) = s := addAll_err_eq s es herr
      rw [this]; exact h
  | replicate addr k =>
    have hr := replicate_queueIndexes s addr k
    show queueIndexes (s.Replicate addr k).1 ≠ [] →
      (s.Replicate addr k).1.MaxIndex = largest (queueIndexes (s.Replicate addr k).1)
    rw [hr.1, hr.2]; exact h
  | getCommitted =>
    intro hne
    have hq : queueIndexes (s.perform .getCommitted)
        = s.ToCommitEntries.map InflightEntry.Index := by
      simp [queueIndexes, Inflight.perform, Inflight.GetCommitted]
    have hqs : queueIndexes s = s.CommittedEntries.map InflightEntry.Index
        ++ s.ToCommitEntries.map InflightEntry.Index := by
      simp [queueIndexes]
    rw [hq] at hne ⊢
    have hsne : queueIndexes s ≠ [] := by
      rw [hqs]
      intro hnil
      exact hne (List.append_eq_nil.mp hnil).2
    have hpw := hQ.1
    rw [hqs, List.pairwise_append] at hpw
    show s.MaxIndex = largest (s.ToCommitEntries.map InflightEntry.Index)
    rw [h hsne, hqs, largest_append]
    apply foldl_max_start _ _ _ hne
    · intro x hx
      apply largest_le
      intro y hy
      exact Nat.le_of_lt (hpw.2.2 y hy x hx)
    · intro x _
      exact Nat.zero_le _

theorem maxIndex_since_init (ops : List PublicOp) (acc : List Nat) (s : Inflight)
    (h : s.MaxIndex = largest acc) :
    (ops.foldl Inflight.perform s).MaxIndex = largest (acceptedSinceInit acc s ops) := by
  induction ops generalizing acc s with
  | nil => exact h
  | cons op rest ih =>
    rw [List.foldl_cons]
    apply ih
    cases hop : op.isInit with
    | true =>
      cases op <;> simp [PublicOp.isInit] at hop
      simp [Inflight.perform, Inflight.Init, largest]
    | false =>
      rw [perform_maxIndex s op hop, h]
      simp [largest, List.foldl_append]

/-- C18, amended: in every state reached from `NewInflight` by public
operations, `MaxIndex` is the largest index of the entries in both queues
whenever the queues are not both empty.  In every state it is the largest index
accepted since `NewInflight` or the last `Init`, 0 if none, and it bounds
every queued index; with both queues empty it is 0 when no `GetCommitted` call
was made, `GetCommitted` being the call that empties a queue without lowering
`MaxIndex`. -/
theorem maxIndex_eq_largest_queued (conf : Config) (ops : List PublicOp) :
    (queueIndexes (runPublic conf ops) ≠ [] →
      (runPublic conf ops).MaxIndex = largest (queueIndexes (runPublic conf ops))) ∧
    (runPublic conf ops).MaxIndex
      = largest (acceptedSinceInit [] (NewInflight conf) ops) ∧
    (∀ i ∈ queueIndexes (runPublic conf ops), i ≤ (runPublic conf ops).MaxIndex) ∧
    ((∀ op ∈ ops, op.isGetCommitted = false) →
      (runPublic conf ops).ToCommitEntries = [] →
        (runPublic conf ops).CommittedEntries = [] → (runPublic conf ops).MaxIndex = 0) := by
  refine ⟨?_, ?_, (queueInv_runPublic conf ops).2, ?_⟩
  · have hgen : ∀ ops : List PublicOp,
        queueIndexes (runPublic conf ops) ≠ [] →
          (runPublic conf ops).MaxIndex = largest (queueIndexes (runPublic conf ops)) := by
      intro ops
      induction ops using List.reverseRecOn with
      | nil =>
        intro hne
        simp [runPublic, NewInflight, queueIndexes] at hne
      | append_singleton ops op ih =>
        have hstep : runPublic conf (ops ++ [op]) = (runPublic conf ops).perform op := by
          simp [runPublic, List.foldl_append]
        rw [hstep]
        exact maxIndex_eq_largest_nonempty_perform _ op (queueInv_runPublic conf ops) ih
    exact hgen ops
  · exact maxIndex_since_init ops [] (NewInflight conf) rfl
  · have hgen : ∀ ops : List PublicOp, (∀ op ∈ ops, op.isGetCommitted = false) →
        (runPublic conf ops).MaxIndex = largest (queueIndexes (runPublic conf ops)) := by
      intro ops
      induction ops using List.reverseRecOn with
      | nil => intro _; rfl
      | append_singleton ops op ih =>
        intro hops
        have hstep : runPublic conf (ops ++ [op]) = (runPublic conf ops).perform op := by
          simp [runPublic, List.foldl_append]
        rw [hstep]
        exact maxIndex_eq_largest_perform _ op (hops op (by simp))
          (ih (fun o ho => hops o (List.mem_append_left _ ho)))
    intro hops ht hc
    rw [hgen ops hops]
    simp [queueIndexes, ht, hc, largest]

/-- Witness for the amended C18: entries 1 and 2 added, entry 1 committed and
drained by `GetCommitted`: the queue holds entry 2 and `MaxIndex` is 2. -/
theorem maxIndex_eq_largest_queued_witness :
    queueIndexes (runPublic normalABC [.add (mkRequest 1 normalABC),
        .add (mkRequest 2 normalABC), .replicate 1 1, .replicate 2 1, .getCommitted]) = [2] ∧
    (runPublic normalABC [.add (mkRequest 1 normalABC), .add (mkRequest 2 normalABC),
        .replicate 1 1, .replicate 2 1, .getCommitted]).MaxIndex
      = largest (queueIndexes (runPublic normalABC [.add (mkRequest 1 normalABC),
          .add (mkRequest 2 normalABC), .replicate 1 1, .replicate 2 1, .getCommitted])) :=
  ⟨by decide, (maxIndex_eq_largest_queued normalABC _).1 (by decide)⟩

/-- C19: in a tracker built by `NewInflight` and driven by `Add`, `AddAll`,
`Replicate`, `GetCommitted` and `ChangeMember`, without `Init`, `MaxIndex` is
the largest index accepted so far by a successful `Add` or `AddAll`, 0 if
none; it is at or above every index in both queues, and no further call other
than `Init` lowers it. -/
theorem maxIndex_high_water (conf : Config) (ops : List PublicOp)
    (hops : ∀ op ∈ ops, op.isInit = false) :
    (runPublic conf ops).MaxIndex = largest (acceptedIndexes (NewInflight conf) ops) ∧
    (∀ i ∈ queueIndexes (runPublic conf ops), i ≤ (runPublic conf ops).MaxIndex) ∧
    (∀ op : PublicOp, op.isInit = false →
      (runPublic conf ops).MaxIndex ≤ (runPublic conf (ops ++ [op])).MaxIndex) := by
  refine ⟨?_, (queueInv_runPublic conf ops).2, ?_⟩
  · unfold runPublic
    rw [foldl_perform_maxIndex ops _ hops]
    rfl
  · intro op hop
    have : runPublic conf (ops ++ [op]) = (runPublic conf ops).perform op := by
      simp [runPublic, List.foldl_append]
    rw [this, perform_maxIndex _ op hop]
    exact le_foldl_max _ _

/-- Witness for C19: after scenario 1 and `GetCommitted`, `MaxIndex` is 1, the
only index accepted. -/
theorem maxIndex_high_water_witness :
    (∀ op ∈ drainedOps, op.isInit = false) ∧
    (runPublic normalABC drainedOps).MaxIndex
      = largest (acceptedIndexes (NewInflight normalABC) drainedOps) ∧
    acceptedIndexes (NewInflight normalABC) drainedOps = [1] :=
  ⟨by decide, (maxIndex_high_water normalABC drainedOps (by decide)).1, by decide⟩

/-! ## Match indexes over time -/

theorem replicate_match_get (s : Inflight) (addr : MultiAddr) (k : Nat) (p : MultiAddr) :
    mapGet (s.Replicate addr k).1.ServerMatchIndexes p = mapGet s.ServerMatchIndexes p ∨
    (p = addr ∧ mapGet (s.Replicate addr k).1.ServerMatchIndexes p = some k ∧
      ∃ m, mapGet s.ServerMatchIndexes p = some m ∧ m < k) := by
  cases hget : mapGet s.ServerMatchIndexes addr with
  | none => left; simp [Inflight.Replicate, hget]
  | some m =>
    by_cases hge : m ≥ k
    · left; simp [Inflight.Replicate, hget, hge]
    · have hlt : m < k := Nat.not_le.mp hge
      rw [replicate_ok_eq s addr k m hget hlt]
      by_cases hp : p = addr
      · right
        subst hp
        exact ⟨rfl, by simp [mapGet_mapSet], m, hget, hlt⟩
      · left
        simp [mapGet_mapSet, hp]

/-- C15 does not hold as stated: `Init` lowers the match index of peer 1 from 3
to 0 while peer 1 stays a key. -/
theorem init_lowers_match_index_counterexample :
    mapGet (runPublic normalABC [.replicate 1 3]).ServerMatchIndexes 1 = some 3 ∧
    mapGet ((runPublic normalABC [.replicate 1 3]).perform .init).ServerMatchIndexes 1
      = some 0 ∧
    ¬ (3 ≤ 0) := by
  decide

/-- C15, amended: after each public operation other than `Init`
(`ChangeMember`, `Add`, `AddAll`, `Replicate`, `GetCommitted`), a peer that is a
key of the match indexes before and after has a match index at or above the
one before. -/
theorem match_index_nondecreasing (s : Inflight) (op : PublicOp) (p : MultiAddr)
    (v v' : Nat) (hop : op.isInit = false)
    (hbefore : mapGet s.ServerMatchIndexes p = some v)
    (hafter : mapGet (s.perform op).ServerMatchIndexes p = some v') : v ≤ v' := by
  cases op with
  | init => simp [PublicOp.isInit] at hop
  | changeMember conf =>
    have hget : mapGet (s.ChangeMember conf).ServerMatchIndexes p
        = if p ∈ AllMultiAddr conf.Servers ∨ p ∈ AllMultiAddr conf.NewServers then
            some ((mapGet s.ServerMatchIndexes p).getD 0)
          else none := setup_get conf s.ServerMatchIndexes p
    have hafter' : mapGet (s.ChangeMember conf).ServerMatchIndexes p = some v' := hafter
    rw [hget, hbefore] at hafter'
    by_cases hU : p ∈ AllMultiAddr conf.Servers ∨ p ∈ AllMultiAddr conf.NewServers
    · simp only [hU, if_true, Option.getD_some, Option.some.injEq] at hafter'
      omega
    · simp [hU] at hafter'
  | add request =>
    have hsame : (s.perform (.add request)).ServerMatchIndexes = s.ServerMatchIndexes := by
      by_cases hle : request.LogEntry.Index ≤ s.MaxIndex
      · simp [Inflight.perform, Inflight.Add, hle]
      · simp [Inflight.perform, Inflight.Add, hle]
    rw [hsame, hbefore] at hafter
    injection hafter with e
    omega
  | addAll es =>
    have hsame : (s.perform (.addAll es)).ServerMatchIndexes = s.ServerMatchIndexes := by
      by_cases herr : (s.AddAll es).2 = none
      · obtain ⟨i, _, hst⟩ := addAll_ok_eq s es herr
        simp only [Inflight.perform, hst]
      · simp only [Inflight.perform, addAll_err_eq s es herr]
    rw [hsame, hbefore] at hafter
    injection hafter with e
    omega
  | replicate addr k =>
    have hafter' : mapGet (s.Replicate addr k).1.ServerMatchIndexes p = some v' := hafter
    rcases replicate_match_get s addr k p with hsame | ⟨_, hk, m, hm, hlt⟩
    · rw [hsame, hbefore] at hafter'
      injection hafter' with e
      omega
    · rw [hk] at hafter'
      rw [hbefore] at hm
      injection hafter' with e1
      injection hm with e2
      omega
  | getCommitted =>
    have hafter' : mapGet s.ServerMatchIndexes p = some v' := hafter
    rw [hbefore] at hafter'
    injection hafter' with e
    omega

/-- Witness for the amended C15: `Replicate(1, 3)` on a fresh tracker raises
the match index of peer 1 from 0 to 3. -/
theorem match_index_nondecreasing_witness :
    (PublicOp.replicate 1 3).isInit = false ∧
    mapGet (NewInflight normalABC).ServerMatchIndexes 1 = some 0 ∧
    mapGet ((NewInflight normalABC).perform (.replicate 1 3)).ServerMatchIndexes 1 = some 3 ∧
    0 ≤ 3 :=
  ⟨by decide, by decide, by decide,
    match_index_nondecreasing (NewInflight normalABC) (.replicate 1 3) 1 0 3
      (by decide) (by decide) (by decide)⟩

/-! ## Unknown-peer errors in the vote scan of Replicate -/

theorem majority_isInCluster_addVote (c : MajorityCommitCondition) (a b : MultiAddr) :
    (c.AddVote a).1.IsInCluster b = c.IsInCluster b := by
  simp only [MajorityCommitCondition.IsInCluster, majority_addVote_get]
  by_cases h : b = a ∧ mapGet c.VoteStatus a = some false
  · obtain ⟨hb, hv⟩ := h
    subst hb
    simp [hv]
  · simp [h]

theorem isMember_addVote (cond : CommitCondition) (a b : MultiAddr) :
    (cond.AddVote a).1.isMember b = cond.isMember b := by
  cases cond with
  | majority c => exact majority_isInCluster_addVote c a b
  | memberChange c =>
    show ((c.AddVote a).1.OldServersCommitCondition.IsInCluster b ||
        (c.AddVote a).1.NewServersCommitCondition.IsInCluster b)
      = (c.OldServersCommitCondition.IsInCluster b ||
        c.NewServersCommitCondition.IsInCluster b)
    rw [memberChange_addVote_old, majority_isInCluster_addVote]
    rcases memberChange_addVote_new c a with h | h
    · rw [h]
    · rw [h, majority_isInCluster_addVote]

theorem isMember_addVote_error (cond : CommitCondition) (a : MultiAddr)
    (h : cond.isMember a = true) :
    (cond.AddVote a).2 = none ∨ (cond.AddVote a).2 = some (VoteError.alreadyVoted a) := by
  cases cond with
  | majority c =>
    have h' : (mapGet c.VoteStatus a).isSome = true := h
    cases hg : mapGet c.VoteStatus a with
    | none => simp [hg] at h'
    | some v =>
      cases v <;>
        simp [CommitCondition.AddVote, MajorityCommitCondition.AddVote, hg]
  | memberChange c =>
    obtain ⟨o, n⟩ := c
    have h' : ((mapGet o.VoteStatus a).isSome || (mapGet n.VoteStatus a).isSome) = true := h
    cases hgo : mapGet o.VoteStatus a with
    | none =>
      cases hgn : mapGet n.VoteStatus a with
      | none => simp [hgo, hgn] at h'
      | some b =>
        cases b <;>
          simp [CommitCondition.AddVote, MemberChangeCommitCondition.AddVote,
            MajorityCommitCondition.IsInCluster, MajorityCommitCondition.AddVote, hgo, hgn]
    | some b =>
      cases b with
      | true =>
        simp [CommitCondition.AddVote, MemberChangeCommitCondition.AddVote,
          MajorityCommitCondition.IsInCluster, MajorityCommitCondition.AddVote, hgo]
      | false =>
        cases hgn : mapGet n.VoteStatus a with
        | none =>
          simp [CommitCondition.AddVote, MemberChangeCommitCondition.AddVote,
            MajorityCommitCondition.IsInCluster, MajorityCommitCondition.AddVote, hgo, hgn]
        | some b2 =>
          cases b2 <;>
            simp [CommitCondition.AddVote, MemberChangeCommitCondition.AddVote,
              MajorityCommitCondition.IsInCluster, MajorityCommitCondition.AddVote, hgo, hgn]

theorem newInflightEntry_isMember (request : InflightRequest) (a : MultiAddr)
    (h : a ∈ AllMultiAddr request.LogEntry.Conf.Servers ∨
      a ∈ AllMultiAddr request.LogEntry.Conf.NewServers) :
    (NewInflightEntry request).Condition.isMember a = true := by
  unfold NewInflightEntry
  cases hn : request.LogEntry.Conf.IsNormalConfig with
  | true =>
    have hnone : request.LogEntry.Conf.NewServers = none := by
      simpa [Config.IsNormalConfig, Option.isNone_iff_eq_none] using hn
    have ha : a ∈ AllMultiAddr request.LogEntry.Conf.Servers := by
      rcases h with h | h
      · exact h
      · simp [hnone, AllMultiAddr] at h
    simp [CommitCondition.isMember, MajorityCommitCondition.IsInCluster,
      mapGet_newVoteStatus, ha]
  | false =>
    simp only [Bool.false_eq_true, if_false, CommitCondition.isMember,
      MajorityCommitCondition.IsInCluster, NewMemberChangeCommitCondition,
      mapGet_newVoteStatus]
    rcases h with h | h
    · simp [h]
    · simp [h]

theorem keyInv_perform (s : Inflight) (op : PublicOp) (hop : op.keepsMembers s = true)
    (h : KeyInv s) : KeyInv (s.perform op) := by
  cases op with
  | init =>
    intro e he
    simp [Inflight.perform, Inflight.Init] at he
  | changeMember conf =>
    intro e he a ha
    have he' : e ∈ s.ToCommitEntries := he
    have hget : mapGet (s.ChangeMember conf).ServerMatchIndexes a
        = if a ∈ AllMultiAddr conf.Servers ∨ a ∈ AllMultiAddr conf.NewServers then
            some ((mapGet s.ServerMatchIndexes a).getD 0)
          else none := setup_get conf s.ServerMatchIndexes a
    have ha' : mapGet (s.ChangeMember conf).ServerMatchIndexes a ≠ none := ha
    have hU : a ∈ conf.addresses := by
      by_contra hU
      have hU' : ¬ (a ∈ AllMultiAddr conf.Servers ∨ a ∈ AllMultiAddr conf.NewServers) := by
        simpa [Config.addresses] using hU
      rw [hget, if_neg hU'] at ha'
      exact ha' rfl
    simp only [PublicOp.keepsMembers, List.all_eq_true] at hop
    exact hop e he' a hU
  | add request =>
    by_cases hle : request.LogEntry.Index ≤ s.MaxIndex
    · have : s.perform (.add request) = s := add_err_eq s request hle
      rw [this]; exact h
    · intro e he a ha
      have he' : e ∈ s.ToCommitEntries ++ [NewInflightEntry request] := by
        simpa [Inflight.perform, Inflight.Add, hle] using he
      have ha' : mapGet s.ServerMatchIndexes a ≠ none := by
        simpa [Inflight.perform, Inflight.Add, hle] using ha
      rcases List.mem_append.mp he' with he' | he'
      · exact h e he' a ha'
      · rw [List.mem_singleton] at he'
        subst he'
        simp only [PublicOp.keepsMembers, List.all_eq_true] at hop
        exact hop a ((mem_mapKeys _ a).mpr ha')
  | addAll es =>
    by_cases herr : (s.AddAll es).2 = none
    · obtain ⟨i, _, hst⟩ := addAll_ok_eq s es herr
      have hst' : s.perform (.addAll es) =
          { s with MaxIndex := i, ToCommitEntries := s.ToCommitEntries ++ es } := hst
      rw [hst']
      intro e he a ha
      rcases List.mem_append.mp he with he | he
      · exact h e he a ha
      · simp only [PublicOp.keepsMembers, List.all_eq_true] at hop
        exact hop e he a ((mem_mapKeys _ a).mpr ha)
    · have : s.perform (.addAll es) = s := addAll_err_eq s es herr
      rw [this]; exact h
  | replicate addr k =>
    intro e he a ha
    have hkey : mapGet s.ServerMatchIndexes a ≠ none := by
      rcases replicate_match_get s addr k a with hsame | ⟨_, _, m, hm, _⟩
      · have ha' : mapGet (s.Replicate addr k).1.ServerMatchIndexes a ≠ none := ha
        rw [hsame] at ha'
        exact ha'
      · rw [hm]; simp
    have he' : e ∈ (s.Replicate addr k).1.ToCommitEntries := he
    have hsrc : e ∈ s.ToCommitEntries ∨ e ∈ castVotes addr k s.ToCommitEntries := by
      cases hget : mapGet s.ServerMatchIndexes addr with
      | none =>
        left
        simpa [Inflight.Replicate, hget] using he'
      | some m =>
        by_cases hge : m ≥ k
        · left
          simpa [Inflight.Replicate, hget, hge] using he'
        · right
          rw [replicate_ok_eq s addr k m hget (Nat.not_le.mp hge)] at he'
          exact (List.dropWhile_sublist _).subset he'
    rcases hsrc with hin | hin
    · exact h e hin a hkey
    · rcases mem_castVotes addr k _ e hin with hin | ⟨e0, he0, _, rfl⟩
      · exact h e hin a hkey
      · show (e0.Condition.AddVote addr).1.isMember a = true
        rw [isMember_addVote]
        exact h e0 he0 a hkey
  | getCommitted => exact h

theorem keyInv_foldl (ops : List PublicOp) (s : Inflight) (h : KeyInv s)
    (hops : membersKept s ops = true) : KeyInv (ops.foldl Inflight.perform s) := by
  induction ops generalizing s with
  | nil => exact h
  | cons op rest ih =>
    simp only [membersKept, Bool.and_eq_true] at hops
    rw [List.foldl_cons]
    exact ih _ (keyInv_perform s op hops.1 h) hops.2

/-- C20 does not hold as stated: after an entry was added under `{1, 2, 3}` and
the members changed to `{1, 2, 3, 4, 5}`, `Replicate(4, 1)` passes both checks
and the vote of peer 4 on the entry fails with the unknown-peer error. -/
theorem unknown_peer_in_scan_counterexample :
    mapGet (runPublic normalABC widenedOps).ServerMatchIndexes 4 = some 0 ∧
    ((runPublic normalABC widenedOps).Replicate 4 1).2.2 = none ∧
    (runPublic normalABC widenedOps).ToCommitEntries.map
        (fun e => (e.Index, (e.Condition.AddVote 4).2))
      = [(1, some (VoteError.notInCluster 4))] := by
  decide

/-- C20, amended: in every state reached from `NewInflight` by public
operations in which every `ChangeMember` call brought as keys only peers that
are members of the condition of every entry then to commit, and every `Add` and
`AddAll` call brought only entries whose condition has every key of the match
indexes of that time as a member, for every `Replicate` call that passes both
checks the peer is a member of the condition of every entry to commit, and its
`AddVote` there returns no error or the duplicate-vote error, never an
unknown-peer error. -/
theorem no_unknown_peer_while_members_kept (conf : Config) (ops : List PublicOp)
    (hops : membersKept (NewInflight conf) ops = true)
    (addr : MultiAddr) (k m : Nat)
    (hget : mapGet (runPublic conf ops).ServerMatchIndexes addr = some m) (_hlt : m < k)
    (e : InflightEntry) (he : e ∈ (runPublic conf ops).ToCommitEntries) :
    e.Condition.isMember addr = true ∧
    ((e.Condition.AddVote addr).2 = none ∨
      (e.Condition.AddVote addr).2 = some (VoteError.alreadyVoted addr)) := by
  have hnew : KeyInv (NewInflight conf) := by
    intro e he
    simp [NewInflight] at he
  have hinv : KeyInv (runPublic conf ops) := keyInv_foldl ops (NewInflight conf) hnew hops
  have hkey : mapGet (runPublic conf ops).ServerMatchIndexes addr ≠ none := by
    rw [hget]; simp
  have hmem := hinv e he addr hkey
  exact ⟨hmem, isMember_addVote_error _ addr hmem⟩

/-- Witness for the amended C20: entry 1 is added under `{1, 2, 3}`, peer 3 is
dropped by `ChangeMember`, entry 2 comes with a batch; `Replicate(1, 2)` finds
peer 1 a member of the condition of entry 2, whose vote is accepted. -/
theorem no_unknown_peer_while_members_kept_witness :
    membersKept (NewInflight normalABC) narrowedOps = true ∧
    mapGet (runPublic normalABC narrowedOps).ServerMatchIndexes 1 = some 0 ∧
    mapGet (runPublic normalABC narrowedOps).ServerMatchIndexes 3 = none ∧
    NewInflightEntry (mkRequest 2 normalABC) ∈ (runPublic normalABC narrowedOps).ToCommitEntries ∧
    (NewInflightEntry (mkRequest 2 normalABC)).Condition.isMember 1 = true :=
  ⟨by decide, by decide, by decide, by decide,
    (no_unknown_peer_while_members_kept normalABC narrowedOps (by decide) 1 2 0 (by decide)
      (by decide) (NewInflightEntry (mkRequest 2 normalABC)) (by decide)).1⟩

/-! ## Follower side of a membership change -/

/-- C16: from state `OldNewConfigSeen` with status `OldNewConfigSeen` and a log
whose last index is `l`, the events `MemberChangeLogEntryCommit`,
`MemberChangeNextStep(c)` and `MemberChangeLogEntryCommit(e)` lead to
`OldNewConfigCommitted` with that status, then to `NewConfigSeen` with that
status after `PushConfig(l + 1, c)`, then to the base follower state with
status `NotInMemeberChange` after `PushConfig(l + 1, conf)` where `conf` has
the `NewServers` of `e` as `Servers` and no `NewServers`; each event is
consumed.  The last index `l` is below the largest `uint64`, so that `l + 1`
is the sum the source computes. -/
theorem follower_membership_progression (IsOldNewConfig IsNewConfig : Config → Bool)
    (l : Nat) (pushed : List (Nat × Config)) (joint e : LogEntry) (c : Config)
    (hl : l + 1 < 2 ^ 64) :
    (seenMachine l pushed).dispatch IsOldNewConfig IsNewConfig
        (.MemberChangeLogEntryCommit joint)
      = ({ current := .StateFollowerOldNewConfigCommittedID
           memberChangeStatus := .OldNewConfigCommitted
           lastIndex := (l, false)
           pushed := pushed }, .consumed) ∧
    (((seenMachine l pushed).dispatch IsOldNewConfig IsNewConfig
          (.MemberChangeLogEntryCommit joint)).1.dispatch IsOldNewConfig IsNewConfig
        (.MemberChangeNextStep c))
      = ({ current := .StateFollowerNewConfigSeenID
           memberChangeStatus := .NewConfigSeen
           lastIndex := (l, false)
           pushed := pushed ++ [(l + 1, c)] }, .consumed) ∧
    ((((seenMachine l pushed).dispatch IsOldNewConfig IsNewConfig
          (.MemberChangeLogEntryCommit joint)).1.dispatch IsOldNewConfig IsNewConfig
        (.MemberChangeNextStep c)).1.dispatch IsOldNewConfig IsNewConfig
        (.MemberChangeLogEntryCommit e))
      = ({ current := .StateFollowerID
           memberChangeStatus := .NotInMemeberChange
           lastIndex := (l, false)
           pushed := pushed ++ [(l + 1, c),
             (l + 1, { Servers := e.Conf.NewServers, NewServers := none })] },
          .consumed) := by
  have hl' : l + 1 < 18446744073709551616 := by
    norm_num at hl
    exact hl
  refine ⟨?_, ?_, ?_⟩ <;>
    simp [seenMachine, LocalHSM.dispatch, FollowerOldNewConfigSeenState.Handle,
      FollowerOldNewConfigCommittedState.Handle, FollowerNewConfigSeenState.Handle,
      LocalHSM.SetMemberChangeStatus, LocalHSM.QTran, LocalHSM.PushConfig,
      Nat.mod_eq_of_lt hl']

/-- Witness for C16: last log index 7, nothing pushed before; the two calls
are `PushConfig(8, c)` and `PushConfig(8, conf)` with `conf` over `{3, 4, 5}`. -/
theorem follower_membership_progression_witness :
    7 + 1 < 2 ^ 64 ∧
    ((((seenMachine 7 []).dispatch (fun _ => true) (fun _ => true)
          (.MemberChangeLogEntryCommit { Index := 7, Term := 1, Conf := jointABCCDE })).1.dispatch
          (fun _ => true) (fun _ => true)
        (.MemberChangeNextStep { Servers := none, NewServers := some [3, 4, 5] })).1.dispatch
          (fun _ => true) (fun _ => true)
        (.MemberChangeLogEntryCommit
          { Index := 8, Term := 1, Conf := { Servers := none, NewServers := some [3, 4, 5] } }))
      = ({ current := .StateFollowerID
           memberChangeStatus := .NotInMemeberChange
           lastIndex := (7, false)
           pushed := [(8, { Servers := none, NewServers := some [3, 4, 5] }),
             (8, { Servers := some [3, 4, 5], NewServers := none })] }, .consumed) :=
  ⟨by norm_num,
    (follower_membership_progression (fun _ => true) (fun _ => true) 7 []
      { Index := 7, Term := 1, Conf := jointABCCDE }
      { Index := 8, Term := 1, Conf := { Servers := none, NewServers := some [3, 4, 5] } }
      { Servers := none, NewServers := some [3, 4, 5] } (by norm_num)).2.2⟩

/-- C17 fails on the code: with status `NotInMemeberChange` and an event that
carries a Normal configuration, the guard of each of the three handlers is
false, and each handler still sets the status, pushes its configuration where
it has one, moves to the next state and consumes the event. -/
theorem guard_violation_still_transitions (IsOldNewConfig IsNewConfig : Config → Bool) :
    ((IsOldNewConfig normalEntry.Conf &&
        (strayMachine .StateFollowerOldNewConfigSeenID).GetMemberChangeStatus
          == MemberChangeStatusType.OldNewConfigSeen) = false ∧
      FollowerOldNewConfigSeenState.Handle IsOldNewConfig
          (strayMachine .StateFollowerOldNewConfigSeenID)
          (.MemberChangeLogEntryCommit normalEntry)
        = ({ current := .StateFollowerOldNewConfigCommittedID
             memberChangeStatus := .OldNewConfigCommitted
             lastIndex := (7, false)
             pushed := [] }, .consumed)) ∧
    ((IsNewConfig normalABC &&
        (strayMachine .StateFollowerOldNewConfigCommittedID).GetMemberChangeStatus
          == MemberChangeStatusType.OldNewConfigCommitted) = false ∧
      FollowerOldNewConfigCommittedState.Handle IsNewConfig
          (strayMachine .StateFollowerOldNewConfigCommittedID)
          (.MemberChangeNextStep normalABC)
        = ({ current := .StateFollowerNewConfigSeenID
             memberChangeStatus := .NewConfigSeen
             lastIndex := (7, false)
             pushed := [(8, normalABC)] }, .consumed)) ∧
    ((IsNewConfig normalEntry.Conf &&
        (strayMachine .StateFollowerNewConfigSeenID).GetMemberChangeStatus
          == MemberChangeStatusType.OldNewConfigCommitted) = false ∧
      FollowerNewConfigSeenState.Handle IsNewConfig
          (strayMachine .StateFollowerNewConfigSeenID)
          (.MemberChangeLogEntryCommit normalEntry)
        = ({ current := .StateFollowerID
             memberChangeStatus := .NotInMemeberChange
             lastIndex := (7, false)
             pushed := [(8, { Servers := none, NewServers := none })] }, .consumed)) := by
  refine ⟨⟨?_, ?_⟩, ⟨?_, ?_⟩, ⟨?_, ?_⟩⟩ <;>
    simp [strayMachine, normalEntry, normalABC, FollowerOldNewConfigSeenState.Handle,
      FollowerOldNewConfigCommittedState.Handle, FollowerNewConfigSeenState.Handle,
      LocalHSM.SetMemberChangeStatus, LocalHSM.QTran, LocalHSM.PushConfig,
      LocalHSM.GetMemberChangeStatus]

/-- C21 fails on the code: the handler of `OldNewConfigCommitted` sets the
status to `NewConfigSeen` before it moves to state `NewConfigSeen`, so the
status read by the guard of that state is `NewConfigSeen`, and its comparison
with `OldNewConfigCommitted` is false for every event. -/
theorem newConfigSeen_guard_reads_newConfigSeen (IsNewConfig : Config → Bool)
    (sm : LocalHSM) (c : Config) (e : LogEntry) :
    (FollowerOldNewConfigCommittedState.Handle IsNewConfig sm
        (.MemberChangeNextStep c)).1.current = .StateFollowerNewConfigSeenID ∧
    (FollowerOldNewConfigCommittedState.Handle IsNewConfig sm
        (.MemberChangeNextStep c)).1.GetMemberChangeStatus = .NewConfigSeen ∧
    ((FollowerOldNewConfigCommittedState.Handle IsNewConfig sm
        (.MemberChangeNextStep c)).1.GetMemberChangeStatus
      == MemberChangeStatusType.OldNewConfigCommitted) = false ∧
    (IsNewConfig e.Conf &&
      (FollowerOldNewConfigCommittedState.Handle IsNewConfig sm
          (.MemberChangeNextStep c)).1.GetMemberChangeStatus
        == MemberChangeStatusType.OldNewConfigCommitted) = false := by
  refine ⟨?_, ?_, ?_, ?_⟩ <;>
    simp [FollowerOldNewConfigCommittedState.Handle, LocalHSM.SetMemberChangeStatus,
      LocalHSM.QTran, LocalHSM.PushConfig, LocalHSM.GetMemberChangeStatus]

/-! ## Votes of a peer of both server sets -/

theorem memberChange_addVote_rejected_old (c : MemberChangeCommitCondition) (a : MultiAddr)
    (h : mapGet c.OldServersCommitCondition.VoteStatus a = some true) :
    (c.AddVote a).1 = c := by
  obtain ⟨o, n⟩ := c
  simp only at h
  simp [MemberChangeCommitCondition.AddVote, MajorityCommitCondition.IsInCluster,
    MajorityCommitCondition.AddVote, h]

theorem memberChange_addVotes_snoc (c : MemberChangeCommitCondition) (v : List MultiAddr)
    (a : MultiAddr) : c.addVotes (v ++ [a]) = ((c.addVotes v).AddVote a).1 := by
  simp [MemberChangeCommitCondition.addVotes, List.foldl_append]

/-- A peer of both parts of a joint condition has voted in both or in none. -/
theorem joint_votes_agree_step (c : MemberChangeCommitCondition) (a : MultiAddr)
    (h : ∀ p, mapGet c.OldServersCommitCondition.VoteStatus p ≠ none →
      mapGet c.NewServersCommitCondition.VoteStatus p ≠ none →
      (mapGet c.OldServersCommitCondition.VoteStatus p = some true ↔
        mapGet c.NewServersCommitCondition.VoteStatus p = some true)) :
    ∀ p, mapGet (c.AddVote a).1.OldServersCommitCondition.VoteStatus p ≠ none →
      mapGet (c.AddVote a).1.NewServersCommitCondition.VoteStatus p ≠ none →
      (mapGet (c.AddVote a).1.OldServersCommitCondition.VoteStatus p = some true ↔
        mapGet (c.AddVote a).1.NewServersCommitCondition.VoteStatus p = some true) := by
  by_cases hold : mapGet c.OldServersCommitCondition.VoteStatus a = some true
  · rw [memberChange_addVote_rejected_old c a hold]
    exact h
  · rw [memberChange_addVote_parts c a hold]
    intro p
    simp only [majority_addVote_get]
    by_cases hpa : p = a
    · subst hpa
      cases hgo : mapGet c.OldServersCommitCondition.VoteStatus p with
      | none => simp
      | some b =>
        cases b with
        | true => exact absurd hgo hold
        | false =>
          cases hgn : mapGet c.NewServersCommitCondition.VoteStatus p with
          | none => simp
          | some b2 =>
            cases b2 with
            | false => simp
            | true =>
              have := (h p (by rw [hgo]; simp) (by rw [hgn]; simp)).mpr hgn
              rw [hgo] at this
              simp at this
    · simp only [hpa, false_and, if_false]
      exact h p

theorem joint_votes_agree (conf : Config) (seq : List MultiAddr) :
    ∀ p, mapGet ((NewMemberChangeCommitCondition conf).addVotes
          seq).OldServersCommitCondition.VoteStatus p ≠ none →
      mapGet ((NewMemberChangeCommitCondition conf).addVotes
          seq).NewServersCommitCondition.VoteStatus p ≠ none →
      (mapGet ((NewMemberChangeCommitCondition conf).addVotes
          seq).OldServersCommitCondition.VoteStatus p = some true ↔
        mapGet ((NewMemberChangeCommitCondition conf).addVotes
          seq).NewServersCommitCondition.VoteStatus p = some true) := by
  induction seq using List.reverseRecOn with
  | nil =>
    intro p _ _
    show mapGet (NewMajorityCommitCondition conf.Servers).VoteStatus p = some true ↔
      mapGet (NewMajorityCommitCondition conf.NewServers).VoteStatus p = some true
    simp only [mapGet_newVoteStatus]
    constructor <;> intro h <;> split at h <;> simp at h
  | append_singleton seq a ih =>
    rw [memberChange_addVotes_snoc]
    exact joint_votes_agree_step _ a ih

theorem memberChange_error_unchanged (c : MemberChangeCommitCondition) (a : MultiAddr)
    (h : ∀ p, mapGet c.OldServersCommitCondition.VoteStatus p ≠ none →
      mapGet c.NewServersCommitCondition.VoteStatus p ≠ none →
      (mapGet c.OldServersCommitCondition.VoteStatus p = some true ↔
        mapGet c.NewServersCommitCondition.VoteStatus p = some true))
    (herr : (c.AddVote a).2 ≠ none) : (c.AddVote a).1 = c := by
  have ha := h a
  obtain ⟨o, n⟩ := c
  simp only at ha
  revert herr
  cases hgo : mapGet o.VoteStatus a with
  | none =>
    cases hgn : mapGet n.VoteStatus a with
    | none =>
      simp [MemberChangeCommitCondition.AddVote, MajorityCommitCondition.IsInCluster,
        MajorityCommitCondition.AddVote, hgo, hgn]
    | some b =>
      cases b <;>
        simp [MemberChangeCommitCondition.AddVote, MajorityCommitCondition.IsInCluster,
          MajorityCommitCondition.AddVote, hgo, hgn]
  | some b =>
    cases b with
    | true =>
      simp [MemberChangeCommitCondition.AddVote, MajorityCommitCondition.IsInCluster,
        MajorityCommitCondition.AddVote, hgo]
    | false =>
      cases hgn : mapGet n.VoteStatus a with
      | none =>
        simp [MemberChangeCommitCondition.AddVote, MajorityCommitCondition.IsInCluster,
          MajorityCommitCondition.AddVote, hgo, hgn]
      | some b2 =>
        cases b2 with
        | false =>
          simp [MemberChangeCommitCondition.AddVote, MajorityCommitCondition.IsInCluster,
            MajorityCommitCondition.AddVote, hgo, hgn]
        | true =>
          have := (ha (by rw [hgo]; simp) (by rw [hgn]; simp)).mpr hgn
          rw [hgo] at this
          simp at this

/-- C23: in a joint condition reached from `NewMemberChangeCommitCondition` by
any sequence of `AddVote` calls, a peer of both server sets has voted in the
old part exactly when it has voted in the new part; hence every `AddVote` call
that returns an error leaves both parts as they were. -/
theorem joint_votes_consistent (conf : Config) (seq : List MultiAddr) :
    (∀ p, mapGet ((NewMemberChangeCommitCondition conf).addVotes
          seq).OldServersCommitCondition.VoteStatus p ≠ none →
      mapGet ((NewMemberChangeCommitCondition conf).addVotes
          seq).NewServersCommitCondition.VoteStatus p ≠ none →
      (mapGet ((NewMemberChangeCommitCondition conf).addVotes
          seq).OldServersCommitCondition.VoteStatus p = some true ↔
        mapGet ((NewMemberChangeCommitCondition conf).addVotes
          seq).NewServersCommitCondition.VoteStatus p = some true)) ∧
    (∀ a, (((NewMemberChangeCommitCondition conf).addVotes seq).AddVote a).2 ≠ none →
      (((NewMemberChangeCommitCondition conf).addVotes seq).AddVote a).1
        = (NewMemberChangeCommitCondition conf).addVotes seq) :=
  ⟨joint_votes_agree conf seq,
    fun a herr => memberChange_error_unchanged _ a (joint_votes_agree conf seq) herr⟩

/-! ## The two formulations of the vote scan -/

theorem majority_addVote_noop (c : MajorityCommitCondition) (a : MultiAddr)
    (h : mapGet c.VoteStatus a ≠ some false) : (c.AddVote a).1 = c := by
  unfold MajorityCommitCondition.AddVote
  cases hg : mapGet c.VoteStatus a with
  | none => simp
  | some v =>
    cases v with
    | true => simp
    | false => exact absurd hg h

theorem settledFor_noop (cond : CommitCondition) (a : MultiAddr)
    (h : cond.settledFor a) : (cond.AddVote a).1 = cond := by
  cases cond with
  | majority c =>
    show CommitCondition.majority (c.AddVote a).1 = CommitCondition.majority c
    rw [majority_addVote_noop c a h]
  | memberChange c =>
    show CommitCondition.memberChange (c.AddVote a).1 = CommitCondition.memberChange c
    rcases h with h | ⟨ho, hn⟩
    · rw [memberChange_addVote_rejected_old c a h]
    · have hne : mapGet c.OldServersCommitCondition.VoteStatus a ≠ some true := by
        rw [ho]; simp
      rw [memberChange_addVote_parts c a hne,
        majority_addVote_noop _ a (by rw [ho]; simp), majority_addVote_noop _ a hn]

theorem settledFor_after_self (cond : CommitCondition) (a : MultiAddr) :
    (cond.AddVote a).1.settledFor a := by
  cases cond with
  | majority c =>
    show mapGet (c.AddVote a).1.VoteStatus a ≠ some false
    rw [majority_addVote_get]
    cases hg : mapGet c.VoteStatus a with
    | none => simp
    | some v => cases v <;> simp
  | memberChange c =>
    show mapGet (c.AddVote a).1.OldServersCommitCondition.VoteStatus a = some true ∨
      (mapGet (c.AddVote a).1.OldServersCommitCondition.VoteStatus a = none ∧
        mapGet (c.AddVote a).1.NewServersCommitCondition.VoteStatus a ≠ some false)
    by_cases hold : mapGet c.OldServersCommitCondition.VoteStatus a = some true
    · left
      rw [memberChange_addVote_rejected_old c a hold]
      exact hold
    · rw [memberChange_addVote_parts c a hold]
      simp only [majority_addVote_get]
      cases hgo : mapGet c.OldServersCommitCondition.VoteStatus a with
      | none =>
        right
        refine ⟨by simp, ?_⟩
        cases hgn : mapGet c.NewServersCommitCondition.VoteStatus a with
        | none => simp
        | some v => cases v <;> simp
      | some v =>
        cases v with
        | true => exact absurd hgo hold
        | false => left; simp

theorem settledFor_after_other (cond : CommitCondition) (a q : MultiAddr) (hqa : q ≠ a)
    (h : cond.settledFor q) : (cond.AddVote a).1.settledFor q := by
  cases cond with
  | majority c =>
    show mapGet (c.AddVote a).1.VoteStatus q ≠ some false
    rw [majority_addVote_get]
    simp only [hqa, false_and, if_false]
    exact h
  | memberChange c =>
    show mapGet (c.AddVote a).1.OldServersCommitCondition.VoteStatus q = some true ∨
      (mapGet (c.AddVote a).1.OldServersCommitCondition.VoteStatus q = none ∧
        mapGet (c.AddVote a).1.NewServersCommitCondition.VoteStatus q ≠ some false)
    have hold : mapGet (c.AddVote a).1.OldServersCommitCondition.VoteStatus q
        = mapGet c.OldServersCommitCondition.VoteStatus q := by
      rw [memberChange_addVote_old, majority_addVote_get]
      simp [hqa]
    have hnew : mapGet (c.AddVote a).1.NewServersCommitCondition.VoteStatus q
        = mapGet c.NewServersCommitCondition.VoteStatus q := by
      rcases memberChange_addVote_new c a with e | e
      · rw [e]
      · rw [e, majority_addVote_get]
        simp [hqa]
    rw [hold, hnew]
    exact h

theorem vote_of_settled (e : InflightEntry) (a : MultiAddr)
    (h : e.Condition.settledFor a) : e.vote a = e := by
  obtain ⟨r, cond⟩ := e
  show InflightEntry.mk r (cond.AddVote a).1 = InflightEntry.mk r cond
  rw [settledFor_noop cond a h]

theorem castVotes_sorted (a : MultiAddr) (k : Nat) (l : List InflightEntry)
    (h : (l.map InflightEntry.Index).Pairwise (· < ·)) :
    castVotes a k l = l.map (fun e => if e.Index ≤ k then e.vote a else e) := by
  induction l with
  | nil => rfl
  | cons e rest ih =>
    rw [List.map_cons, List.pairwise_cons] at h
    by_cases hk : e.Request.LogEntry.Index > k
    · have hk' : ¬ e.Index ≤ k := by simpa [InflightEntry.Index] using hk
      have hrest : rest.map (fun e => if e.Index ≤ k then e.vote a else e) = rest := by
        have : ∀ x ∈ rest, (fun e : InflightEntry => if e.Index ≤ k then e.vote a else e) x
            = id x := by
          intro x hx
          have hlt := h.1 x.Index (List.mem_map.mpr ⟨x, hx, rfl⟩)
          have : ¬ x.Index ≤ k := by
            simp only [InflightEntry.Index] at hlt hk ⊢
            omega
          simp [this]
        rw [List.map_congr_left this, List.map_id]
      simp only [castVotes, hk, if_true, List.map_cons, hk', if_false, hrest]
    · have hk' : e.Index ≤ k := by simpa [InflightEntry.Index] using hk
      simp only [castVotes, hk, if_false, List.map_cons, hk', if_true, ih h.2]
      rfl

theorem toCommit_sorted (s : Inflight) (h : QueueInv s) :
    (s.ToCommitEntries.map InflightEntry.Index).Pairwise (· < ·) ∧
    ∀ e ∈ s.ToCommitEntries, e.Index ≤ s.MaxIndex := by
  have h1 := h.1
  simp only [queueIndexes, List.map_append, List.pairwise_append] at h1
  refine ⟨h1.2.1, ?_⟩
  intro e he
  apply h.2
  simp only [queueIndexes, List.map_append, List.mem_append, List.mem_map]
  exact Or.inr ⟨e, he, rfl⟩

theorem init_get_zero (s : Inflight) (p : MultiAddr) (m : Nat)
    (h : mapGet s.Init.ServerMatchIndexes p = some m) : m = 0 := by
  simp only [Inflight.Init, mapGet_foldl_mapSet] at h
  by_cases hk : p ∈ mapKeys s.ServerMatchIndexes
  · simp only [hk, if_true, Option.some.injEq] at h
    exact h.symm
  · simp only [hk, if_false] at h
    have := (mem_mapKeys s.ServerMatchIndexes p).mpr (by rw [h]; simp)
    exact absurd this hk

theorem settledInv_new (conf : Config) : SettledInv (NewInflight conf) := by
  refine ⟨?_, ?_, ?_⟩
  · intro p m hm
    have hget : mapGet (NewInflight conf).ServerMatchIndexes p
        = if p ∈ AllMultiAddr conf.Servers ∨ p ∈ AllMultiAddr conf.NewServers then
            some ((mapGet ([] : List (MultiAddr × Nat)) p).getD 0)
          else none := setup_get conf [] p
    rw [hget] at hm
    split at hm
    · simp only [mapGet, Option.getD_none, Option.some.injEq] at hm
      show m ≤ 0
      omega
    · simp at hm
  · intro e he
    simp [NewInflight] at he
  · intro p m _ e he
    simp [NewInflight] at he

theorem settledInv_perform (s : Inflight) (op : PublicOp) (hS : SettledInv s)
    (hQ : QueueInv s)
    (hop : ∀ a k, op = PublicOp.replicate a k → k ≤ s.MaxIndex) :
    SettledInv (s.perform op) := by
  obtain ⟨hM, hP, hV⟩ := hS
  cases op with
  | init =>
    refine ⟨?_, ?_, ?_⟩
    · intro p m hm
      have := init_get_zero s p m hm
      show m ≤ 0
      omega
    · intro e he
      simp [Inflight.perform, Inflight.Init] at he
    · intro p m _ e he
      simp [Inflight.perform, Inflight.Init] at he
  | changeMember conf =>
    have hget : ∀ p, mapGet (s.ChangeMember conf).ServerMatchIndexes p
        = if p ∈ AllMultiAddr conf.Servers ∨ p ∈ AllMultiAddr conf.NewServers then
            some ((mapGet s.ServerMatchIndexes p).getD 0)
          else none := fun p => setup_get conf s.ServerMatchIndexes p
    refine ⟨?_, hP, ?_⟩
    · intro p m hm
      have hm' : mapGet (s.ChangeMember conf).ServerMatchIndexes p = some m := hm
      rw [hget] at hm'
      show m ≤ s.MaxIndex
      split at hm'
      · cases hp : mapGet s.ServerMatchIndexes p with
        | none =>
          simp only [hp, Option.getD_none, Option.some.injEq] at hm'
          omega
        | some v =>
          simp only [hp, Option.getD_some, Option.some.injEq] at hm'
          have := hM p v hp
          omega
      · simp at hm'
    · intro p m hm e he hle
      have hm' : mapGet (s.ChangeMember conf).ServerMatchIndexes p = some m := hm
      have he' : e ∈ s.ToCommitEntries := he
      rw [hget] at hm'
      split at hm'
      · cases hp : mapGet s.ServerMatchIndexes p with
        | none =>
          simp only [hp, Option.getD_none, Option.some.injEq] at hm'
          have := hP e he'
          omega
        | some v =>
          simp only [hp, Option.getD_some, Option.some.injEq] at hm'
          subst hm'
          exact hV p v hp e he' hle
      · simp at hm'
  | add request =>
    by_cases hle : request.LogEntry.Index ≤ s.MaxIndex
    · have : s.perform (.add request) = s := add_err_eq s request hle
      rw [this]; exact ⟨hM, hP, hV⟩
    · have hst : s.perform (.add request) =
          { s with
            MaxIndex := request.LogEntry.Index
            ToCommitEntries := s.ToCommitEntries ++ [NewInflightEntry request] } := by
        simp [Inflight.perform, Inflight.Add, hle]
      rw [hst]
      refine ⟨?_, ?_, ?_⟩
      · intro p m hm
        have := hM p m hm
        show m ≤ request.LogEntry.Index
        omega
      · intro e he
        rcases List.mem_append.mp he with he | he
        · exact hP e he
        · rw [List.mem_singleton] at he
          subst he
          rw [newInflightEntry_index]
          omega
      · intro p m hm e he hidx
        rcases List.mem_append.mp he with he | he
        · exact hV p m hm e he hidx
        · rw [List.mem_singleton] at he
          subst he
          rw [newInflightEntry_index] at hidx
          have := hM p m hm
          omega
  | addAll es =>
    by_cases herr : (s.AddAll es).2 = none
    · obtain ⟨i, hc, hst⟩ := addAll_ok_eq s es herr
      have hb := checkIncremental_bounds _ _ _ hc
      have hst' : s.perform (.addAll es) =
          { s with MaxIndex := i, ToCommitEntries := s.ToCommitEntries ++ es } := hst
      rw [hst']
      refine ⟨?_, ?_, ?_⟩
      · intro p m hm
        have := hM p m hm
        show m ≤ i
        omega
      · intro e he
        rcases List.mem_append.mp he with he | he
        · exact hP e he
        · have := (hb.2 e.Index (List.mem_map.mpr ⟨e, he, rfl⟩)).1
          omega
      · intro p m hm e he hidx
        rcases List.mem_append.mp he with he | he
        · exact hV p m hm e he hidx
        · have h1 := (hb.2 e.Index (List.mem_map.mpr ⟨e, he, rfl⟩)).1
          have h2 := hM p m hm
          omega
    · have : s.perform (.addAll es) = s := addAll_err_eq s es herr
      rw [this]; exact ⟨hM, hP, hV⟩
  | replicate addr k =>
    have hk := hop addr k rfl
    cases hget : mapGet s.ServerMatchIndexes addr with
    | none =>
      have : s.perform (.replicate addr k) = s := by
        simp [Inflight.perform, Inflight.Replicate, hget]
      rw [this]; exact ⟨hM, hP, hV⟩
    | some m0 =>
      by_cases hge : m0 ≥ k
      · have : s.perform (.replicate addr k) = s := by
          simp [Inflight.perform, Inflight.Replicate, hget, hge]
        rw [this]; exact ⟨hM, hP, hV⟩
      · have hst : s.perform (.replicate addr k) = (s.Replicate addr k).1 := rfl
        rw [hst, replicate_ok_eq s addr k m0 hget (Nat.not_le.mp hge)]
        have hsorted := (toCommit_sorted s hQ).1
        have hsrc : ∀ e' ∈ (castVotes addr k s.ToCommitEntries).dropWhile (commitReady k),
            ∃ e ∈ s.ToCommitEntries,
              e' = if e.Index ≤ k then e.vote addr else e := by
          intro e' he'
          have hin := (List.dropWhile_sublist _).subset he'
          rw [castVotes_sorted addr k _ hsorted] at hin
          obtain ⟨e, he, hfe⟩ := List.mem_map.mp hin
          exact ⟨e, he, hfe.symm⟩
        refine ⟨?_, ?_, ?_⟩
        · intro p m hm
          show m ≤ s.MaxIndex
          have hm' : mapGet (mapSet s.ServerMatchIndexes addr k) p = some m := hm
          rw [mapGet_mapSet] at hm'
          by_cases hp : p = addr
          · simp only [hp, if_true, Option.some.injEq] at hm'
            omega
          · simp only [hp, if_false] at hm'
            exact hM p m hm'
        · intro e' he'
          obtain ⟨e, he, rfl⟩ := hsrc e' he'
          have := hP e he
          by_cases hek : e.Index ≤ k
          · simp only [hek, if_true, vote_index]; exact this
          · simp only [hek, if_false]; exact this
        · intro p m hm e' he' hidx
          have hm' : mapGet (mapSet s.ServerMatchIndexes addr k) p = some m := hm
          rw [mapGet_mapSet] at hm'
          obtain ⟨e, he, rfl⟩ := hsrc e' he'
          by_cases hek : e.Index ≤ k
          · simp only [hek, if_true] at hidx ⊢
            by_cases hp : p = addr
            · subst hp
              exact settledFor_after_self _ _
            · simp only [hp, if_false] at hm'
              exact settledFor_after_other _ _ _ hp (hV p m hm' e he hidx)
          · simp only [hek, if_false] at hidx ⊢
            by_cases hp : p = addr
            · simp only [hp, if_true, Option.some.injEq] at hm'
              omega
            · simp only [hp, if_false] at hm'
              exact hV p m hm' e he hidx
  | getCommitted => exact ⟨hM, hP, hV⟩

theorem settledInv_foldl (ops : List PublicOp) (s : Inflight) (hS : SettledInv s)
    (hQ : QueueInv s) (h : replicatesWithinLog s ops = true) :
    SettledInv (ops.foldl Inflight.perform s) ∧ QueueInv (ops.foldl Inflight.perform s) := by
  induction ops generalizing s with
  | nil => exact ⟨hS, hQ⟩
  | cons op rest ih =>
    simp only [replicatesWithinLog, Bool.and_eq_true] at h
    rw [List.foldl_cons]
    apply ih
    · apply settledInv_perform s op hS hQ
      intro a k hop
      subst hop
      simpa using h.1
    · exact queueInv_perform s op hQ
    · exact h.2

theorem castVotesRangeSpec_eq (s : Inflight) (hS : SettledInv s) (hQ : QueueInv s)
    (addr : MultiAddr) (k m : Nat) (hget : mapGet s.ServerMatchIndexes addr = some m) :
    castVotesRangeSpec addr m k s.ToCommitEntries = castVotes addr k s.ToCommitEntries := by
  rw [castVotes_sorted addr k _ (toCommit_sorted s hQ).1]
  unfold castVotesRangeSpec
  apply List.map_congr_left
  intro e he
  by_cases hek : e.Index ≤ k
  · by_cases hme : m < e.Index
    · simp [hek, hme]
    · have hsettled := hS.2.2 addr m hget e he (Nat.not_lt.mp hme)
      simp [hek, hme, vote_of_settled e addr hsettled]
  · simp [hek]

/-- C22 does not hold as stated: peer 1 had reported index 5 before entry 1 was
added; at `Replicate(1, 6)` the code casts the vote of peer 1 on entry 1, which
commits it and returns true, while the scan over the range `(5, 6]` casts no
vote and returns false. -/
theorem vote_scan_formulations_differ_counterexample :
    mapGet (runPublic normalABC aheadOps).ServerMatchIndexes 1 = some 5 ∧
    ((runPublic normalABC aheadOps).Replicate 1 6).2 = (true, none) ∧
    ((runPublic normalABC aheadOps).ReplicateRangeSpec 1 6).2 = (false, none) ∧
    (runPublic normalABC aheadOps).ReplicateRangeSpec 1 6
      ≠ (runPublic normalABC aheadOps).Replicate 1 6 := by
  decide

/-- C22, amended: in every state reached from `NewInflight` by public
operations in which no `Replicate` call carried a match index above `MaxIndex`
at the time of the call, `Replicate` with the vote cast on every entry up to
the new match index and `Replicate` with the vote cast only on the entries in
the range `(old_match, new_match]` return the same tracker and the same
result. -/
theorem vote_scan_formulations_agree (conf : Config) (ops : List PublicOp)
    (h : replicatesWithinLog (NewInflight conf) ops = true)
    (addr : MultiAddr) (k : Nat) :
    (runPublic conf ops).ReplicateRangeSpec addr k = (runPublic conf ops).Replicate addr k := by
  have hinv : SettledInv (runPublic conf ops) ∧ QueueInv (runPublic conf ops) :=
    settledInv_foldl ops (NewInflight conf) (settledInv_new conf)
      (queueInv_runPublic conf []) h
  cases hget : mapGet (runPublic conf ops).ServerMatchIndexes addr with
  | none => simp [Inflight.ReplicateRangeSpec, Inflight.Replicate, hget]
  | some m =>
    by_cases hge : m ≥ k
    · simp [Inflight.ReplicateRangeSpec, Inflight.Replicate, hget, hge]
    · have hcast := castVotesRangeSpec_eq _ hinv.1 hinv.2 addr k m hget
      simp only [Inflight.ReplicateRangeSpec, Inflight.Replicate, hget, hge, hcast]

/-- Witness for the amended C22: entries 1 and 2 with peer 1 having replicated
through 1; `Replicate(1, 2)` is the same in both formulations. -/
theorem vote_scan_formulations_agree_witness :
    replicatesWithinLog (NewInflight normalABC)
        [.add (mkRequest 1 normalABC), .replicate 1 1, .add (mkRequest 2 normalABC)] = true ∧
    (runPublic normalABC
        [.add (mkRequest 1 normalABC), .replicate 1 1,
          .add (mkRequest 2 normalABC)]).ReplicateRangeSpec 1 2
      = (runPublic normalABC
        [.add (mkRequest 1 normalABC), .replicate 1 1,
          .add (mkRequest 2 normalABC)]).Replicate 1 2 :=
  ⟨by decide,
    vote_scan_formulations_agree normalABC
      [.add (mkRequest 1 normalABC), .replicate 1 1, .add (mkRequest 2 normalABC)]
      (by decide) 1 2⟩

end Rafted
